import Mathlib

/-!
# Verification of the schedule-reflow engine

A shallow embedding of the TypeScript schedule-reflow engine
(`src/core/reflow-service.ts`, `src/core/dependency-resolver.ts`,
`src/core/constraint-validator.ts`, `src/utils/date-utils.ts`) and proofs
about it.

## Modelling conventions

* All times are UTC.  A Luxon `DateTime` in the source is an instant with
  millisecond precision; we model an instant as a `Nat`, the number of
  milliseconds since 1970-01-01T00:00:00Z.  Luxon's `plus`, `startOf('day')`,
  `diff` and comparison operators are exact arithmetic on this value (UTC has
  no DST, a Luxon day equals 24 h, and all quantities are exactly
  representable IEEE doubles at these magnitudes).
* The source passes dates around as ISO-8601 strings (`Z` suffix, full date,
  hours/minutes/seconds, optionally a `.SSS` milliseconds field) and compares
  them sometimes with JavaScript string operators (`>`, `<`, `!==`) and
  sometimes after parsing.  We embed a well-formed date string as `DateStr`:
  the instant it denotes plus whether its text carries the `.SSS` field.
  For such strings, lexicographic string order coincides with the order on
  (whole-second instant, then the millisecond/suffix tie-break encoded in
  `strLt` below): all fields up to seconds are fixed-width decimal, and at
  the first position after the seconds a `.` (milliseconds follow) sorts
  below `Z`.  String equality is structural equality of `DateStr`.
* JavaScript `Map` is an association list that keeps first-insertion key
  order and overwrites values in place (`mapSet`/`mapGet`).
* `throw` is modelled with `Except Err`; each constructor of `Err` is one
  throw site of the source.
* The source's `while` loops carry explicit iteration caps (1000, 1000, 100);
  the embedding uses the same caps as structural fuel, and running out of
  fuel maps to the corresponding throw.
* Human-readable message strings (validation-error `message`, change
  `reason`, the explanation text's numbers) are not modelled; no claim
  concerns their text.  Errors keep their `type` tag and `workOrderIds`.
-/

/-! ## Instants and date strings -/

def msPerMinute : Nat := 60000

def msPerHour : Nat := 3600000

def msPerDay : Nat := 86400000

/-- Day number since the epoch of the instant `t` (UTC). -/
def dayIndex (t : Nat) : Nat := t / msPerDay

/-- Luxon `startOf('day')` on an instant, in UTC. -/
def startOfDay (t : Nat) : Nat := dayIndex t * msPerDay

/-- Luxon `plus({days: 1}).startOf('day')` on an instant, in UTC. -/
def nextDayStart (t : Nat) : Nat := startOfDay t + msPerDay

/-- Day of week with Sunday = 0 … Saturday = 6, i.e. the source's
`DateTime.weekday % 7` (Luxon weekday is Mon = 1 … Sun = 7).
1970-01-01 was a Thursday, so day 0 has value 4. -/
def dow (t : Nat) : Nat := (dayIndex t + 4) % 7

/-- Minute of day of an instant, discarding seconds and milliseconds:
the source's `dt.hour * 60 + dt.minute`. -/
def minuteOfDay (t : Nat) : Nat := t % msPerDay / msPerMinute

/-- A well-formed ISO-8601 UTC date string, embedded as the instant it
denotes (`ms`, milliseconds since the epoch) together with its textual form:
`hasMillis = true` iff the text carries a `.SSS` milliseconds field (the
form Luxon's `toISO()` always produces).  A string without the field
denotes a whole-second instant (`ms % 1000 = 0` for well-formed input). -/
structure DateStr where
  ms : Nat
  hasMillis : Bool
deriving DecidableEq

/-- JavaScript string `<` (lexicographic) on two well-formed ISO date
strings.  The fields up to the seconds are fixed-width decimal, so they
compare as the whole-second instant; on a tie the next character is `.`
(milliseconds present) versus `Z`, and `.` sorts first regardless of the
digits after it. -/
def strLt (a b : DateStr) : Prop :=
  a.ms / 1000 < b.ms / 1000 ∨
    (a.ms / 1000 = b.ms / 1000 ∧
      ((a.hasMillis ∧ b.hasMillis ∧ a.ms % 1000 < b.ms % 1000) ∨
        (a.hasMillis ∧ ¬b.hasMillis)))

instance (a b : DateStr) : Decidable (strLt a b) := by
  unfold strLt; infer_instance

/-! ## Data model (`src/types/common-types.ts`)

`docType` is a constant per entity and `setupTimeMinutes` is declared
optional and never read by the core, so neither is carried. -/

structure Shift where
  dayOfWeek : Nat
  startHour : Nat
  endHour : Nat
deriving DecidableEq

structure MaintenanceWindow where
  startDate : DateStr
  endDate : DateStr
deriving DecidableEq

structure WorkOrderData where
  workOrderNumber : String
  manufacturingOrderId : String
  workCenterId : String
  startDate : DateStr
  endDate : DateStr
  durationMinutes : Nat
  isMaintenance : Bool
  dependsOnWorkOrderIds : List String
deriving DecidableEq

structure WorkOrder where
  docId : String
  data : WorkOrderData
deriving DecidableEq

structure WorkCenterData where
  name : String
  shifts : List Shift
  maintenanceWindows : List MaintenanceWindow
deriving DecidableEq

structure WorkCenter where
  docId : String
  data : WorkCenterData
deriving DecidableEq

structure ManufacturingOrder where
  docId : String
deriving DecidableEq

structure ReflowInput where
  workOrders : List WorkOrder
  workCenters : List WorkCenter
  manufacturingOrders : List ManufacturingOrder
deriving DecidableEq

structure WorkOrderChange where
  workOrderId : String
  workOrderNumber : String
  originalStartDate : DateStr
  originalEndDate : DateStr
  newStartDate : DateStr
  newEndDate : DateStr
  delayMinutes : Int
deriving DecidableEq

structure OptimizationMetrics where
  totalDelayMinutes : Int
  workOrdersAffected : Nat
  workCenterUtilization : List (String × Rat)
deriving DecidableEq

inductive VErrType where
  | DEPENDENCY_VIOLATION
  | WORK_CENTER_CONFLICT
  | SHIFT_VIOLATION
  | MAINTENANCE_CONFLICT
  | CIRCULAR_DEPENDENCY
deriving DecidableEq

structure ValidationError where
  type : VErrType
  workOrderIds : List String
deriving DecidableEq

/-- One constructor per `throw` site of the source. -/
inductive Err where
  /-- `buildDependencyGraph`: `depends on non-existent work order`. -/
  | danglingDependency (workOrderNumber parentId : String)
  /-- `topologicalSort`: `throw new Error(cycleError.message)`. -/
  | circularDependency
  /-- `topologicalSort`: `Topological sort failed - possible circular dependency`. -/
  | sortFailed
  /-- `calculateEndDateWithShifts`: iteration cap exceeded. -/
  | calcEndIterations
  /-- `findNextShiftStart`: `Could not find next shift start`. -/
  | nextShiftNotFound
  /-- `findNextAvailableSlot`: no slot after 1000 iterations. -/
  | noSlot (workOrderNumber : String)
  /-- The TypeError a missing work center causes at the non-null assertion
  `workCenterMap.get(workOrder.data.workCenterId)!` during scheduling. -/
  | missingWorkCenter
  /-- `reflow`: `Reflow produced invalid schedule`. -/
  | invalidSchedule (errors : List ValidationError)
deriving DecidableEq

structure ReflowResult where
  updatedWorkOrders : List WorkOrder
  changes : List WorkOrderChange
  metrics : OptimizationMetrics
deriving DecidableEq

/-! ## JavaScript `Map` -/

/-- `Map.set`: overwrite in place if the key exists, else append. -/
def mapSet {α : Type} (m : List (String × α)) (k : String) (v : α) :
    List (String × α) :=
  if m.any (fun p => p.1 = k) then
    m.map (fun p => if p.1 = k then (k, v) else p)
  else m ++ [(k, v)]

/-- `Map.get`. -/
def mapGet {α : Type} (m : List (String × α)) (k : String) : Option α :=
  (m.find? (fun p => p.1 = k)).map (fun p => p.2)

/-- `new Map(pairs)`: insert left to right. -/
def mapOfList {α : Type} (l : List (String × α)) : List (String × α) :=
  l.foldl (fun m p => mapSet m p.1 p.2) []

/-! ## Date utilities (`src/utils/date-utils.ts`) -/

/-- `shifts.find(s => s.dayOfWeek === dayOfWeek)`. -/
def findShift (shifts : List Shift) (d : Nat) : Option Shift :=
  shifts.find? (fun s => s.dayOfWeek = d)

/-- The `while (remainingMinutes > 0 && iterations < maxIterations)` loop of
`calculateEndDateWithShifts`, on instants.  `remMs` is the remaining working
time in milliseconds (Luxon `diff(..., 'minutes')` is the exact
millisecond difference divided by 60000, and the source's arithmetic on
those possibly fractional minute counts is exact; we clear denominators). -/
def calcEndLoop (shifts : List Shift) : Nat → Nat → Nat → Except Err Nat
  | remMs, cursor, fuel =>
    if remMs = 0 then .ok cursor
    else
      match fuel with
      | 0 => .error .calcEndIterations
      | fuel + 1 =>
        match findShift shifts (dow cursor) with
        | none => calcEndLoop shifts remMs (nextDayStart cursor) fuel
        | some sh =>
          let shiftStart := startOfDay cursor + sh.startHour * msPerHour
          let shiftEnd := startOfDay cursor + sh.endHour * msPerHour
          if cursor < shiftStart then calcEndLoop shifts remMs shiftStart fuel
          else if shiftEnd ≤ cursor then
            calcEndLoop shifts remMs (nextDayStart cursor) fuel
          else
            let availMs := shiftEnd - cursor
            if remMs ≤ availMs then .ok (cursor + remMs)
            else calcEndLoop shifts (remMs - availMs) (nextDayStart cursor) fuel

/-- `calculateEndDateWithShifts`.  The result goes through `toISO()`, which
always prints the `.SSS` field, hence `hasMillis := true` — also when
`durationMinutes = 0` and the instant is unchanged. -/
def calculateEndDateWithShifts (startDate : DateStr) (durationMinutes : Nat)
    (shifts : List Shift) : Except Err DateStr :=
  (calcEndLoop shifts (durationMinutes * msPerMinute) startDate.ms 1000).map
    (fun t => ⟨t, true⟩)

/-- `overlapsWithMaintenance`: `start < windowEnd && end > windowStart` on
parsed instants, for some window. -/
def overlapsWithMaintenance (startDate endDate : DateStr)
    (maintenanceWindows : List MaintenanceWindow) : Bool :=
  maintenanceWindows.any (fun w =>
    decide (startDate.ms < w.endDate.ms) && decide (endDate.ms > w.startDate.ms))

/-- `timeRangesOverlap`: `s1 < e2 && e1 > s2` on parsed instants. -/
def timeRangesOverlap (start1 end1 start2 end2 : DateStr) : Bool :=
  decide (start1.ms < end2.ms) && decide (end1.ms > start2.ms)

/-- The bounded day-scan of `findNextShiftStart`, on instants. -/
def findNextShiftStartLoop (shifts : List Shift) : Nat → Nat → Except Err Nat
  | _, 0 => .error .nextShiftNotFound
  | cursor, fuel + 1 =>
    match findShift shifts (dow cursor) with
    | some sh =>
      let shiftStart := startOfDay cursor + sh.startHour * msPerHour
      if cursor ≤ shiftStart then .ok shiftStart
      else findNextShiftStartLoop shifts (nextDayStart cursor) fuel
    | none => findNextShiftStartLoop shifts (nextDayStart cursor) fuel

/-- `findNextShiftStart` (result is a `toISO()` string). -/
def findNextShiftStart (date : DateStr) (shifts : List Shift) :
    Except Err DateStr :=
  (findNextShiftStartLoop shifts date.ms 100).map (fun t => ⟨t, true⟩)

/-- `calculateDelayMinutes`: `Math.round` of the exact minute difference.
`Math.round x = ⌊x + 1/2⌋` for every JavaScript number, so on a millisecond
difference `d` this is `⌊(d + 30000) / 60000⌋` with floor division. -/
def calculateDelayMinutes (originalDate newDate : DateStr) : Int :=
  Int.fdiv ((newDate.ms : Int) - (originalDate.ms : Int) + 30000) 60000

/-- `isWithinShiftHours`. -/
def isWithinShiftHours (date : DateStr) (shifts : List Shift) : Bool :=
  match findShift shifts (dow date.ms) with
  | none => false
  | some sh =>
    let currentMinutes := minuteOfDay date.ms
    decide (sh.startHour * 60 ≤ currentMinutes) &&
      decide (currentMinutes < sh.endHour * 60)

/-! ## Dependency resolver (`src/core/dependency-resolver.ts`) -/

structure DependencyNode where
  workOrderId : String
  parents : List String
  children : List String
  depth : Nat
deriving DecidableEq

/-- The dependency graph: a JavaScript `Map` from work-order id to node. -/
abbrev DepGraph : Type := List (String × DependencyNode)

/-- `buildDependencyGraph`: initialize one node per work order (duplicate
ids overwrite, keeping the first insertion position), then add reverse
`children` edges, throwing on the first dangling dependency in iteration
order. -/
def buildDependencyGraph (wos : List WorkOrder) : Except Err DepGraph := do
  let g0 : DepGraph := wos.foldl (fun g wo =>
    mapSet g wo.docId ⟨wo.docId, wo.data.dependsOnWorkOrderIds, [], 0⟩) []
  wos.foldlM (fun g wo =>
    wo.data.dependsOnWorkOrderIds.foldlM (fun g pid =>
      match mapGet g pid with
      | none => throw (Err.danglingDependency wo.data.workOrderNumber pid)
      | some node =>
        pure (mapSet g pid { node with children := node.children ++ [wo.docId] }))
      g) g0

/-- `[...new Set(xs)]`: deduplication keeping first occurrences. -/
def jsSetDedup (l : List String) : List String :=
  l.foldl (fun acc x => if x ∈ acc then acc else acc ++ [x]) []

/-- Colors of `detectCycles`: 0 = WHITE, 1 = GRAY, 2 = BLACK. -/
abbrev ColorMap : Type := List (String × Nat)

/-- The `for (const parentId of node.parents)` loop inside `dfs`.  `visit`
is the recursive call at one fuel less.  The JavaScript `path` array is
passed by reference but restored by `path.pop()` before every
false-return, so threading it as a value is faithful; the third component
is the `cycleNodes` content, only meaningful on a true-return. -/
def dfsLoop (visit : String → List String → ColorMap → Bool × ColorMap × List String)
    (path : List String) :
    List String → ColorMap → Bool × ColorMap × List String
  | [], colors => (false, colors, [])
  | pid :: rest, colors =>
    match mapGet colors pid with
    | some 1 => (true, colors, path ++ [pid])
    | some 0 =>
      match visit pid path colors with
      | (true, colors1, cyc) => (true, colors1, cyc)
      | (false, colors1, _) => dfsLoop visit path rest colors1
    | _ => dfsLoop visit path rest colors

/-- The recursive `dfs` of `detectCycles`.  Recursion in the source
terminates because it only descends into WHITE nodes and immediately grays
them; here the nesting depth is paid from `fuel`, and every call is made
with `fuel` greater than the number of WHITE entries (top-level calls use
`graph.length + 1`), so the fuel-exhaustion branch is unreachable. -/
def dfsVisit (graph : DepGraph) :
    Nat → String → List String → ColorMap → Bool × ColorMap × List String
  | 0, _, _, colors => (true, colors, [])
  | fuel + 1, nodeId, path, colors =>
    let colors1 := mapSet colors nodeId 1
    let path1 := path ++ [nodeId]
    let parents := match mapGet graph nodeId with
      | some node => node.parents
      | none => []
    match dfsLoop (dfsVisit graph fuel) path1 parents colors1 with
    | (true, colors2, cyc) => (true, colors2, cyc)
    | (false, colors2, _) => (false, mapSet colors2 nodeId 2, [])

/-- The `for (const [nodeId, color] of colors)` loop of `detectCycles`:
the key sequence is fixed but each node's color is read at visit time. -/
def detectCyclesGo (graph : DepGraph) :
    List String → ColorMap → Option ValidationError
  | [], _ => none
  | id :: rest, colors =>
    match mapGet colors id with
    | some 0 =>
      match dfsVisit graph (graph.length + 1) id [] colors with
      | (true, _, cyc) => some ⟨.CIRCULAR_DEPENDENCY, jsSetDedup cyc⟩
      | (false, colors1, _) => detectCyclesGo graph rest colors1
    | _ => detectCyclesGo graph rest colors

/-- `detectCycles`. -/
def detectCycles (graph : DepGraph) : Option ValidationError :=
  let colors0 : ColorMap := graph.foldl (fun m p => mapSet m p.1 0) []
  detectCyclesGo graph (graph.map (fun p => p.1)) colors0

/-- Sum of `parents` list lengths over the graph (used to size the fuel of
the Kahn loop). -/
def totalParents (graph : DepGraph) : Nat :=
  (graph.map (fun p => p.2.parents.length)).sum

/-- The `while (queue.length > 0)` loop of `topologicalSort` (Kahn).
In-degrees are JavaScript numbers and may go below zero when duplicate ids
make `children` edges outnumber a node's `parents`, hence `Int`.  Each
iteration pops one id and pushes a child exactly when its in-degree hits
zero; the number of iterations is bounded by the initial queue length plus
the positive in-degree mass, so the fuel chosen at the call site
(`graph.length + totalParents graph + 1`) is never exhausted and the loop
always ends on an empty queue, as in the source. -/
def kahnLoop (graph : DepGraph) :
    Nat → List String → List (String × Int) → List String → List String
  | 0, _, _, sorted => sorted
  | _ + 1, [], _, sorted => sorted
  | fuel + 1, id :: queue, inDeg, sorted =>
    let children := match mapGet graph id with
      | some node => node.children
      | none => []
    let s := children.foldl
      (fun (s : List (String × Int) × List String) cid =>
        let cur := (mapGet s.1 cid).getD 0
        let d1 := mapSet s.1 cid (cur - 1)
        if cur - 1 = 0 then (d1, s.2 ++ [cid]) else (d1, s.2))
      (inDeg, queue)
    kahnLoop graph fuel s.2 s.1 (sorted ++ [id])

/-- `topologicalSort`.  The source returns the (aliased) work-order objects
`sorted.map(id => workOrderMap.get(id)!)`; we return the id sequence and
re-resolve ids against the current state at each use site, which under the
`Map`'s last-wins lookup denotes the same objects. -/
def topologicalSort (wos : List WorkOrder) : Except Err (List String) := do
  let graph ← buildDependencyGraph wos
  match detectCycles graph with
  | some _ => throw Err.circularDependency
  | none =>
    let inDeg : List (String × Int) :=
      graph.foldl (fun m p => mapSet m p.1 (p.2.parents.length : Int)) []
    let queue := (inDeg.filter (fun p => p.2 = 0)).map (fun p => p.1)
    let sorted := kahnLoop graph (graph.length + totalParents graph + 1) queue inDeg []
    if sorted.length = wos.length then pure sorted else throw Err.sortFailed

/-! ## Constraint validator (`src/core/constraint-validator.ts`) -/

/-- `validateDependencies`: one `DEPENDENCY_VIOLATION` per (child, parent)
pair with `parent.data.endDate > wo.data.startDate` as a JavaScript string
comparison; parent ids missing from the map are skipped. -/
def validateDependencies (wos : List WorkOrder) : List ValidationError :=
  let workOrderMap := mapOfList (wos.map (fun wo => (wo.docId, wo)))
  wos.flatMap (fun wo =>
    ((wo.data.dependsOnWorkOrderIds.filterMap (fun id => mapGet workOrderMap id)).filterMap
      (fun parent =>
        if strLt wo.data.startDate parent.data.endDate then
          some ⟨.DEPENDENCY_VIOLATION, [wo.docId, parent.docId]⟩
        else none)))

/-- The `Map<string, WorkOrder[]>` grouping of `validateWorkCenterConflicts`. -/
def groupByWorkCenter (wos : List WorkOrder) : List (String × List WorkOrder) :=
  wos.foldl (fun g wo =>
    match mapGet g wo.data.workCenterId with
    | some l => mapSet g wo.data.workCenterId (l ++ [wo])
    | none => mapSet g wo.data.workCenterId [wo]) []

/-- The index pairs `i < j` of the source's nested loops, as element pairs. -/
def allPairs {α : Type} : List α → List (α × α)
  | [] => []
  | x :: xs => xs.map (fun y => (x, y)) ++ allPairs xs

/-- `validateWorkCenterConflicts`. -/
def validateWorkCenterConflicts (wos : List WorkOrder) : List ValidationError :=
  (groupByWorkCenter wos).flatMap (fun g =>
    (allPairs g.2).filterMap (fun p =>
      if timeRangesOverlap p.1.data.startDate p.1.data.endDate
          p.2.data.startDate p.2.data.endDate then
        some ⟨.WORK_CENTER_CONFLICT, [p.1.docId, p.2.docId]⟩
      else none))

/-- `validateShiftBoundaries`: an unresolvable work center yields one error
and skips the rest; otherwise an empty shift list yields an error AND the
start-within-shift check still runs (no early return in the source). -/
def validateShiftBoundaries (wos : List WorkOrder) (wcs : List WorkCenter) :
    List ValidationError :=
  let workCenterMap := mapOfList (wcs.map (fun wc => (wc.docId, wc)))
  wos.flatMap (fun wo =>
    match mapGet workCenterMap wo.data.workCenterId with
    | none => [⟨.SHIFT_VIOLATION, [wo.docId]⟩]
    | some wc =>
      (if wc.data.shifts.isEmpty then [(⟨.SHIFT_VIOLATION, [wo.docId]⟩ : ValidationError)] else []) ++
        (if isWithinShiftHours wo.data.startDate wc.data.shifts then []
          else [⟨.SHIFT_VIOLATION, [wo.docId]⟩]))

/-- `validateMaintenanceWindows`. -/
def validateMaintenanceWindows (wos : List WorkOrder) (wcs : List WorkCenter) :
    List ValidationError :=
  let workCenterMap := mapOfList (wcs.map (fun wc => (wc.docId, wc)))
  wos.flatMap (fun wo =>
    match mapGet workCenterMap wo.data.workCenterId with
    | none => []
    | some wc =>
      if overlapsWithMaintenance wo.data.startDate wo.data.endDate
          wc.data.maintenanceWindows then
        [⟨.MAINTENANCE_CONFLICT, [wo.docId]⟩]
      else [])

/-- `validateAll`.  `buildDependencyGraph` can throw (dangling dependency),
which propagates out of the validator. -/
def validateAll (wos : List WorkOrder) (wcs : List WorkCenter) :
    Except Err (List ValidationError) := do
  let graph ← buildDependencyGraph wos
  let cycleErrs := match detectCycles graph with
    | some e => [e]
    | none => []
  pure (cycleErrs ++ validateDependencies wos ++ validateWorkCenterConflicts wos ++
    validateShiftBoundaries wos wcs ++ validateMaintenanceWindows wos wcs)

/-! ## Reflow service (`src/core/reflow-service.ts`) -/

/-- `adjustToShiftStart`. -/
def adjustToShiftStart (date : DateStr) (workCenter : WorkCenter) :
    Except Err DateStr :=
  match findShift workCenter.data.shifts (dow date.ms) with
  | none => findNextShiftStart date workCenter.data.shifts
  | some sh =>
    let currentMinutes := minuteOfDay date.ms
    if currentMinutes < sh.startHour * 60 then
      .ok ⟨startOfDay date.ms + sh.startHour * msPerHour, true⟩
    else if sh.endHour * 60 ≤ currentMinutes then
      findNextShiftStart date workCenter.data.shifts
    else .ok date

/-- `isSlotAvailable`. -/
def isSlotAvailable (startDate endDate : DateStr) (workOrder : WorkOrder)
    (allWorkOrders : List WorkOrder) (workCenter : WorkCenter) : Bool :=
  let conflictingOrders := allWorkOrders.filter (fun wo =>
    (!decide (wo.docId = workOrder.docId)) &&
      decide (wo.data.workCenterId = workOrder.data.workCenterId) &&
      timeRangesOverlap startDate endDate wo.data.startDate wo.data.endDate)
  if conflictingOrders.length > 0 then false
  else if overlapsWithMaintenance startDate endDate
      workCenter.data.maintenanceWindows then false
  else true

/-- `findNextPotentialStart`: collect the blocking periods (other work
orders on the work center whose stored interval overlaps the candidate,
then maintenance windows), and return the reduce-minimum of their end
dates under JavaScript string `<`; with no blocker, advance one hour (the
result of `plus({hours: 1}).toISO()` carries milliseconds). -/
def findNextPotentialStart (currentStart currentEnd : DateStr)
    (workOrder : WorkOrder) (allWorkOrders : List WorkOrder)
    (workCenter : WorkCenter) : DateStr :=
  let blockingPeriods : List (DateStr × DateStr) :=
    (allWorkOrders.filterMap (fun wo =>
      if wo.docId ≠ workOrder.docId ∧
          wo.data.workCenterId = workOrder.data.workCenterId ∧
          timeRangesOverlap currentStart currentEnd
            wo.data.startDate wo.data.endDate = true then
        some (wo.data.startDate, wo.data.endDate)
      else none)) ++
    (workCenter.data.maintenanceWindows.filterMap (fun w =>
      if timeRangesOverlap currentStart currentEnd w.startDate w.endDate = true then
        some (w.startDate, w.endDate)
      else none))
  match blockingPeriods with
  | [] => ⟨currentStart.ms + msPerHour, true⟩
  | b :: _ =>
    blockingPeriods.foldl
      (fun earliest p => if strLt p.2 earliest then p.2 else earliest) b.2

/-- The `while (iterations < maxIterations)` loop of
`findNextAvailableSlot`. -/
def findNextAvailableSlotLoop (workOrder : WorkOrder)
    (allWorkOrders : List WorkOrder) (workCenter : WorkCenter) :
    Nat → DateStr → Except Err DateStr
  | 0, _ => .error (.noSlot workOrder.data.workOrderNumber)
  | fuel + 1, candidateStart => do
    let candidateStart ← adjustToShiftStart candidateStart workCenter
    let candidateEnd ← calculateEndDateWithShifts candidateStart
      workOrder.data.durationMinutes workCenter.data.shifts
    if isSlotAvailable candidateStart candidateEnd workOrder allWorkOrders
        workCenter then
      pure candidateStart
    else
      findNextAvailableSlotLoop workOrder allWorkOrders workCenter fuel
        (findNextPotentialStart candidateStart candidateEnd workOrder
          allWorkOrders workCenter)

/-- `findNextAvailableSlot`. -/
def findNextAvailableSlot (startFrom : DateStr) (workOrder : WorkOrder)
    (allWorkOrders : List WorkOrder) (workCenter : WorkCenter) :
    Except Err DateStr :=
  findNextAvailableSlotLoop workOrder allWorkOrders workCenter 1000 startFrom

/-- The `reduce` of `calculateEarliestStartTime` over the parents' end
dates, seeded with the empty string.  Every ISO date string exceeds `''`
in JavaScript string order, so on a nonempty list the seed is replaced by
the first element and the result is the string-maximum of the ends; `none`
corresponds to the seed surviving an empty list. -/
def latestParentEndDate (parents : List WorkOrder) : Option DateStr :=
  parents.foldl (fun acc p =>
    match acc with
    | none => some p.data.endDate
    | some d => if strLt d p.data.endDate then some p.data.endDate else some d)
    none

/-- `calculateEarliestStartTime`.  The source dereferences
`workCenterMap.get(...)‌!` without a check; a missing work center is the
`missingWorkCenter` error. -/
def calculateEarliestStartTime (workOrder : WorkOrder)
    (allWorkOrders : List WorkOrder)
    (workCenterMap : List (String × WorkCenter)) : Except Err DateStr := do
  match mapGet workCenterMap workOrder.data.workCenterId with
  | none => throw Err.missingWorkCenter
  | some workCenter =>
    let candidateStart := workOrder.data.startDate
    let parents := workOrder.data.dependsOnWorkOrderIds.filterMap
      (fun id => allWorkOrders.find? (fun wo => wo.docId = id))
    let candidateStart :=
      match latestParentEndDate parents with
      | some latestParentEnd =>
        if strLt candidateStart latestParentEnd then latestParentEnd
        else candidateStart
      | none => candidateStart
    findNextAvailableSlot candidateStart workOrder allWorkOrders workCenter

/-- Replace the first element with the given id. -/
def updateFirstById : List WorkOrder → String → WorkOrder → List WorkOrder
  | [], _, _ => []
  | wo :: rest, id, w =>
    if wo.docId = id then w :: rest else wo :: updateFirstById rest id w

/-- Replace the last element with the given id: mutating the object that
`workOrderMap.get(id)` returned mutates the array slot of the *last*
occurrence of the id. -/
def updateLastById (wos : List WorkOrder) (id : String) (w : WorkOrder) :
    List WorkOrder :=
  (updateFirstById wos.reverse id w).reverse

/-- `workOrderMap.get(id)`: the last occurrence wins. -/
def findLastById (wos : List WorkOrder) (id : String) : Option WorkOrder :=
  wos.reverse.find? (fun wo => wo.docId = id)

/-- One iteration of `reflow`'s `for (const workOrder of sortedWorkOrders)`
loop.  The source iterates over aliased objects; we iterate over the sorted
ids and resolve each against the current state with the `Map`'s last-wins
semantics (see `topologicalSort`). -/
def reflowStep (workCenterMap : List (String × WorkCenter))
    (state : List WorkOrder × List WorkOrderChange) (id : String) :
    Except Err (List WorkOrder × List WorkOrderChange) := do
  match findLastById state.1 id with
  | none => pure state
  | some workOrder =>
    if workOrder.data.isMaintenance then pure state
    else
      let originalStartDate := workOrder.data.startDate
      let originalEndDate := workOrder.data.endDate
      let earliestStart ← calculateEarliestStartTime workOrder state.1
        workCenterMap
      if earliestStart = workOrder.data.startDate then pure state
      else
        match mapGet workCenterMap workOrder.data.workCenterId with
        | none => throw Err.missingWorkCenter
        | some workCenter => do
          let newEndDate ← calculateEndDateWithShifts earliestStart
            workOrder.data.durationMinutes workCenter.data.shifts
          let workOrder1 := { workOrder with
            data := { workOrder.data with
              startDate := earliestStart, endDate := newEndDate } }
          let delay := calculateDelayMinutes originalEndDate newEndDate
          pure (updateLastById state.1 id workOrder1,
            state.2 ++ [⟨workOrder.docId, workOrder.data.workOrderNumber,
              originalStartDate, originalEndDate, earliestStart, newEndDate,
              delay⟩])

/-- `Σ (endHour − startHour) · 60` over a work center's shifts, as
JavaScript numbers (may be negative on malformed data). -/
def weeklyShiftMinutes (wc : WorkCenter) : Int :=
  wc.data.shifts.foldl (fun sum sh =>
    sum + ((sh.endHour : Int) - (sh.startHour : Int)) * 60) 0

/-- JavaScript `Math.round`: `⌊q + 1/2⌋`. -/
def jsRound (q : Rat) : Int :=
  Int.fdiv (2 * q.num + (q.den : Int)) (2 * (q.den : Int))

/-- The utilization value `calculateMetrics` computes for one work center:
`round2(100 · Σ durations on wc / weekly shift minutes)`, `0` when the
denominator is not positive.  The percentage arithmetic is modelled
exactly over `Rat` (IEEE rounding of the division is not modelled; every
property we prove about utilization concerns the exact
zero-denominator branch). -/
def utilizationFor (workOrders : List WorkOrder) (wc : WorkCenter) : Rat :=
  let orders := workOrders.filter (fun wo => wo.data.workCenterId = wc.docId)
  let totalWorkingMinutes : Nat :=
    orders.foldl (fun sum wo => sum + wo.data.durationMinutes) 0
  let weekly := weeklyShiftMinutes wc
  let utilization : Rat :=
    if weekly > 0 then ((totalWorkingMinutes : Rat) / (weekly : Rat)) * 100
    else 0
  (jsRound (utilization * 100) : Rat) / 100

/-- `calculateMetrics`.  The `Record<string, number>` is written by
property assignment per work center, i.e. `mapSet` semantics. -/
def calculateMetrics (changes : List WorkOrderChange)
    (workOrders : List WorkOrder) (workCenters : List WorkCenter) :
    OptimizationMetrics :=
  let totalDelayMinutes := changes.foldl (fun sum c => sum + max 0 c.delayMinutes) 0
  let workCenterUtilization := workCenters.foldl (fun m wc =>
    mapSet m wc.docId (utilizationFor workOrders wc)) []
  { totalDelayMinutes := totalDelayMinutes,
    workOrdersAffected := changes.length,
    workCenterUtilization := workCenterUtilization }

/-- `reflow`.  Step 1's clone (`workOrders.map(wo => ({...wo, data:
{...wo.data}}))`) is the identity under value semantics. -/
def reflow (input : ReflowInput) : Except Err ReflowResult := do
  let updatedWorkOrders := input.workOrders
  let workCenterMap := mapOfList (input.workCenters.map (fun wc => (wc.docId, wc)))
  let sortedIds ← topologicalSort updatedWorkOrders
  let s ← sortedIds.foldlM (reflowStep workCenterMap) (updatedWorkOrders, [])
  let errors ← validateAll s.1 input.workCenters
  if errors.isEmpty then
    pure (ReflowResult.mk s.1 s.2 (calculateMetrics s.2 s.1 input.workCenters))
  else throw (Err.invalidSchedule errors)

/-! ## Concrete instances

Day 20494 since the epoch is Tuesday 2026-02-10 (`dow = (20494 + 4) % 7 = 2`).
All examples use work centers with a single Tuesday shift 08:00–17:00 UTC
and stay inside that day. -/

/-- The instant `2026-02-10T(h):(m):00Z`. -/
def tue (h m : Nat) : Nat := 20494 * msPerDay + h * msPerHour + m * msPerMinute

def shiftsTue : List Shift := [⟨2, 8, 17⟩]

def wcTue : WorkCenter := ⟨"wc1", ⟨"WC 1", shiftsTue, []⟩⟩

/-- `wc1` with a maintenance window 08:00–08:55. -/
def wcTueMaint : WorkCenter :=
  ⟨"wc1", ⟨"WC 1", shiftsTue, [⟨⟨tue 8 0, true⟩, ⟨tue 8 55, true⟩⟩]⟩⟩

def wc2Tue : WorkCenter := ⟨"wc2", ⟨"WC 2", shiftsTue, []⟩⟩

/-- C9 example: `p1` is stored with the already-valid interval
`[08:00:00.000Z, 12:00:00Z)` — the end written *without* a milliseconds
field — and `c1`, depending on `p1`, is stored at
`[12:00:00.000Z, 14:00:00.000Z)`, also already valid. -/
def inputC9 : ReflowInput :=
  ⟨[⟨"p1", ⟨"WO-P1", "mo1", "wc1", ⟨tue 8 0, true⟩, ⟨tue 12 0, false⟩,
      240, false, []⟩⟩,
    ⟨"c1", ⟨"WO-C1", "mo1", "wc1", ⟨tue 12 0, true⟩, ⟨tue 14 0, true⟩,
      120, false, ["p1"]⟩⟩],
   [wcTue], []⟩

/-- C6/C2 example: `cc` is stored at `[09:00, 09:10)` but requires 120
working minutes (stored end inconsistent with the duration); `dd` at
`[08:00, 08:30)` for 50 minutes collides with the 08:00–08:55 maintenance
window and is pushed behind `cc`'s *stored* interval. -/
def inputC6 : ReflowInput :=
  ⟨[⟨"cc", ⟨"WO-C", "mo1", "wc1", ⟨tue 9 0, true⟩, ⟨tue 9 10, true⟩,
      120, false, []⟩⟩,
    ⟨"dd", ⟨"WO-D", "mo1", "wc1", ⟨tue 8 0, true⟩, ⟨tue 8 30, true⟩,
      50, false, []⟩⟩],
   [wcTueMaint], []⟩

/-- C1 example: the maintenance order `pm` ends at `08:30:00.500Z`; its
dependent `ch` starts at `08:30:00Z` (no milliseconds field), half a
second *before* the parent ends, on another work center. -/
def inputC1 : ReflowInput :=
  ⟨[⟨"pm", ⟨"WO-PM", "mo1", "wc2", ⟨tue 8 0, true⟩, ⟨tue 8 30 + 500, true⟩,
      30, true, []⟩⟩,
    ⟨"ch", ⟨"WO-CH", "mo1", "wc1", ⟨tue 8 30, false⟩, ⟨tue 9 30, false⟩,
      60, false, ["pm"]⟩⟩],
   [wcTue, wc2Tue], []⟩

/-- C3 example: a work order with a self-dependency (a cycle) together
with a dangling dependency. -/
def woA : WorkOrder :=
  ⟨"aa", ⟨"WO-A", "mo1", "wc1", ⟨tue 8 0, true⟩, ⟨tue 9 0, true⟩,
    60, false, ["aa", "ghost"]⟩⟩

def inputC3 : ReflowInput := ⟨[woA], [wcTue], []⟩

/-- C10 example: two blockers on the same work center whose stored ends
denote `09:00:00.000Z` — written without a milliseconds field — and
`09:00:00.500Z`. -/
def woT : WorkOrder :=
  ⟨"tt", ⟨"WO-T", "mo1", "wc1", ⟨tue 8 0, true⟩, ⟨tue 9 30, true⟩,
    90, false, []⟩⟩

def woBlock1 : WorkOrder :=
  ⟨"w1", ⟨"WO-1", "mo1", "wc1", ⟨tue 8 0, true⟩, ⟨tue 9 0, false⟩,
    60, false, []⟩⟩

def woBlock2 : WorkOrder :=
  ⟨"w2", ⟨"WO-2", "mo1", "wc1", ⟨tue 8 10, true⟩, ⟨tue 9 0 + 500, true⟩,
    50, false, []⟩⟩

/-! ## Specification-side definitions

These follow the specification's words, not the source, and are compared
with the source functions by the theorems below. -/

/-- The shape the data model gives shifts: whole hours with
`startHour < endHour` within the day (the spec's `0..23` bounds). -/
def shiftsWellFormed (shifts : List Shift) : Prop :=
  ∀ sh ∈ shifts, sh.startHour < sh.endHour ∧ sh.endHour ≤ 24

instance (shifts : List Shift) : Decidable (shiftsWellFormed shifts) := by
  unfold shiftsWellFormed; infer_instance

/-- Modelled from the spec: the shift-inside milliseconds of `[a, b)` when
both ends lie within the day of `a` — the overlap of `[a, b)` with that
day's shift window (day lookup as in the source: first shift whose
`dayOfWeek` matches). -/
def inShiftDayMs (shifts : List Shift) (a b : Nat) : Nat :=
  match findShift shifts (dow a) with
  | none => 0
  | some sh =>
    min b (startOfDay a + sh.endHour * msPerHour) -
      max a (startOfDay a + sh.startHour * msPerHour)

/-- Modelled from the spec (invariant I4, "working time … excluding paused
periods"): the shift-inside milliseconds of `[a, b)`, summed day by day. -/
def specWorkedMs (shifts : List Shift) (a b : Nat) : Nat :=
  if b ≤ a then 0
  else if b ≤ nextDayStart a then inShiftDayMs shifts a b
  else inShiftDayMs shifts a (nextDayStart a) +
    specWorkedMs shifts (nextDayStart a) b
termination_by b - a
decreasing_by
  simp only [nextDayStart, startOfDay, dayIndex, msPerDay] at *
  omega

/-- An edge of the dependency graph: `b` is a parent of `a`. -/
def depEdge (graph : DepGraph) (a b : String) : Prop :=
  match mapGet graph a with
  | some node => b ∈ node.parents
  | none => False

instance (graph : DepGraph) (a b : String) : Decidable (depEdge graph a b) := by
  unfold depEdge
  cases mapGet graph a with
  | none => exact inferInstanceAs (Decidable False)
  | some node => exact inferInstanceAs (Decidable (b ∈ node.parents))

/-- A dependency cycle: some id reaches itself through one or more
parent edges. -/
def hasCycle (graph : DepGraph) : Prop :=
  ∃ a, Relation.TransGen (depEdge graph) a a

def docIds (wos : List WorkOrder) : List String :=
  wos.map (fun wo => wo.docId)

/-- Every dependency resolves to some work order in the set. -/
def allDepsResolvable (wos : List WorkOrder) : Prop :=
  ∀ wo ∈ wos, ∀ pid ∈ wo.data.dependsOnWorkOrderIds, pid ∈ docIds wos

instance (wos : List WorkOrder) : Decidable (allDepsResolvable wos) := by
  unfold allDepsResolvable; infer_instance

instance {ε α : Type} [DecidableEq ε] [DecidableEq α] :
    DecidableEq (Except ε α)
  | .ok a, .ok b =>
    if h : a = b then .isTrue (by rw [h])
    else .isFalse (fun hh => h (by injection hh))
  | .ok _, .error _ => .isFalse (fun hh => Except.noConfusion hh)
  | .error _, .ok _ => .isFalse (fun hh => Except.noConfusion hh)
  | .error e, .error f =>
    if h : e = f then .isTrue (by rw [h])
    else .isFalse (fun hh => h (by injection hh))

/-- Every non-maintenance work order's stored `endDate` agrees with the
shift-aware end computed from its stored `startDate` and duration (for
those whose work center resolves). -/
def endsConsistent (wos : List WorkOrder) (wcs : List WorkCenter) : Bool :=
  let workCenterMap := mapOfList (wcs.map (fun wc => (wc.docId, wc)))
  wos.all (fun wo =>
    wo.data.isMaintenance ||
      (Option.all (fun wc =>
          decide (calculateEndDateWithShifts wo.data.startDate
            wo.data.durationMinutes wc.data.shifts = .ok wo.data.endDate))
        (mapGet workCenterMap wo.data.workCenterId)))

/-- The fields of a work order the scheduling loop never changes —
everything except `startDate` and `endDate`.  `topologicalSort` and
`buildDependencyGraph` read only these. -/
def woProj (wo : WorkOrder) :
    String × String × String × String × Nat × Bool × List String :=
  (wo.docId, wo.data.workOrderNumber, wo.data.manufacturingOrderId,
    wo.data.workCenterId, wo.data.durationMinutes, wo.data.isMaintenance,
    wo.data.dependsOnWorkOrderIds)

/-- Every parent edge of the graph targets a key of the graph (true of
every graph `buildDependencyGraph` returns). -/
def parentsClosed (graph : DepGraph) : Prop :=
  ∀ a b, depEdge graph a b → b ∈ graph.map Prod.fst

/-- The color map is defined exactly on the graph's keys. -/
def colorsDom (graph : DepGraph) (c : ColorMap) : Prop :=
  ∀ k, (mapGet c k).isSome = true ↔ k ∈ graph.map Prod.fst

/-- Every color is WHITE, GRAY or BLACK. -/
def colorsVal (c : ColorMap) : Prop :=
  ∀ k v, mapGet c k = some v → v ≤ 2

/-- Parents of BLACK nodes are BLACK. -/
def blackClosed (graph : DepGraph) (c : ColorMap) : Prop :=
  ∀ a b, depEdge graph a b → mapGet c a = some 2 → mapGet c b = some 2

/-- No node lying on a dependency cycle is BLACK. -/
def cycleSafe (graph : DepGraph) (c : ColorMap) : Prop :=
  ∀ a, Relation.TransGen (depEdge graph) a a → mapGet c a ≠ some 2

/-- How one `dfs` call may change the colors: BLACK persists, the GRAY set
is unchanged, the domain is unchanged, and the three invariants are
preserved. -/
def colorsStep (graph : DepGraph) (c c1 : ColorMap) : Prop :=
  (∀ id, mapGet c id = some 2 → mapGet c1 id = some 2) ∧
  (∀ id, mapGet c1 id = some 1 ↔ mapGet c id = some 1) ∧
  (∀ id, (mapGet c1 id).isSome = (mapGet c id).isSome) ∧
  (colorsVal c → colorsVal c1) ∧
  (blackClosed graph c → blackClosed graph c1) ∧
  (cycleSafe graph c → cycleSafe graph c1)

/-! ### Witness instances -/

/-- A work center with no shifts (and no work orders referencing it). -/
def wcEmpty : WorkCenter := ⟨"wc9", ⟨"WC 9", [], []⟩⟩

/-- An already-valid input: one maintenance work order and one regular
work order whose stored end agrees with the shift-aware end. -/
def inputWitness : ReflowInput :=
  ⟨[⟨"mm", ⟨"WO-M", "mo1", "wc1", ⟨tue 13 0, true⟩, ⟨tue 15 0, true⟩,
      120, true, []⟩⟩,
    ⟨"nn", ⟨"WO-N", "mo1", "wc1", ⟨tue 9 0, true⟩, ⟨tue 11 0, true⟩,
      120, false, []⟩⟩],
   [wcTue, wcEmpty], []⟩

/-- A two-cycle with no dangling dependencies. -/
def inputCycle : ReflowInput :=
  ⟨[⟨"x1", ⟨"WO-X1", "mo1", "wc1", ⟨tue 8 0, true⟩, ⟨tue 9 0, true⟩,
      60, false, ["x2"]⟩⟩,
    ⟨"x2", ⟨"WO-X2", "mo1", "wc1", ⟨tue 9 0, true⟩, ⟨tue 10 0, true⟩,
      60, false, ["x1"]⟩⟩],
   [wcTue], []⟩

/-- The result of a successful `reflow`, with a throwaway default for the
error case (used only at inputs where `reflow` is proved to succeed). -/
def reflowOk (input : ReflowInput) : ReflowResult :=
  ((reflow input).toOption).getD ⟨[], [], ⟨0, 0, []⟩⟩

/-- The maintenance work order of `inputWitness`. -/
def woM : WorkOrder :=
  ⟨"mm", ⟨"WO-M", "mo1", "wc1", ⟨tue 13 0, true⟩, ⟨tue 15 0, true⟩,
    120, true, []⟩⟩

/-- The graph `buildDependencyGraph` returns on the two-cycle input. -/
def gCycle : DepGraph :=
  (buildDependencyGraph inputCycle.workOrders).toOption.getD []

/-! ## Theorems -/

/-- Claim C7 (confirmed): `timeRangesOverlap(a0, a1, b0, b1)` is true iff
`a0 < b1` and `a1 > b0` on the denoted instants (half-open semantics:
adjacent intervals with `a1 = b0` do not overlap), and
`overlapsWithMaintenance(start, end, windows)` is true iff some window
overlaps `[start, end)` under that same predicate. -/
theorem c7_overlap_semantics :
    (∀ a0 a1 b0 b1 : DateStr,
      timeRangesOverlap a0 a1 b0 b1 = true ↔ a0.ms < b1.ms ∧ a1.ms > b0.ms) ∧
    (∀ s e : DateStr, ∀ ws : List MaintenanceWindow,
      overlapsWithMaintenance s e ws = true ↔
        ∃ w ∈ ws, timeRangesOverlap s e w.startDate w.endDate = true) := by
  constructor
  · intro a0 a1 b0 b1
    simp [timeRangesOverlap]
  · intro s e ws
    simp [overlapsWithMaintenance, timeRangesOverlap, List.any_eq_true]

/-- Claim C9 (confirmed): `reflow` compares the computed earliest start
with the stored `startDate` as ISO strings, not as instants.  On
`inputC9` — an already-valid schedule whose parent end is written without
a milliseconds field while the child start is written with one — `reflow`
emits exactly one change record whose `newStartDate` denotes the same
instant as `originalStartDate` (both `2026-02-10T12:00:00` UTC, in the
two textual forms) and whose `delayMinutes` is `0`. -/
theorem c9_string_comparison_reschedule :
    (reflow inputC9).map (fun r => r.changes.map (fun ch =>
        (ch.workOrderId, ch.originalStartDate, ch.newStartDate,
          ch.delayMinutes))) =
      .ok [("c1", ⟨tue 12 0, true⟩, ⟨tue 12 0, false⟩, 0)] ∧
    (DateStr.mk (tue 12 0) false).ms = (DateStr.mk (tue 12 0) true).ms ∧
    DateStr.mk (tue 12 0) false ≠ DateStr.mk (tue 12 0) true := by
  refine ⟨by decide, rfl, by decide⟩

/-- Claim C1, counterexample: on `inputC1`, `reflow` returns without
throwing, yet in the returned schedule the work order `ch` depends on
`pm` and starts at instant `tue 8 30` — 500 milliseconds *before* its
parent ends (`tue 8 30 + 500`).  The validator's dependency check compares
the ISO strings, and `…T08:30:00.500Z` is lexicographically *smaller* than
`…T08:30:00Z`, so no violation is reported; the claim's "starts no earlier
than each parent's endDate", read on instants, fails. -/
theorem c1_counterexample :
    (reflow inputC1).map (fun r => r.updatedWorkOrders.map (fun wo =>
        (wo.docId, wo.data.startDate.ms, wo.data.endDate.ms,
          wo.data.dependsOnWorkOrderIds))) =
      .ok [("pm", tue 8 0, tue 8 30 + 500, []),
        ("ch", tue 8 30, tue 9 30, ["pm"])] ∧
    tue 8 30 < tue 8 30 + 500 := by
  refine ⟨by decide, by decide⟩

/-- Claim C3, counterexample: `inputC3`'s single work order depends on
itself (a dependency cycle) *and* on a nonexistent id; `reflow` fails with
the dangling-dependency error raised by `buildDependencyGraph`, not with a
circular-dependency error. -/
theorem c3_counterexample :
    (∃ wo ∈ inputC3.workOrders, wo.docId ∈ wo.data.dependsOnWorkOrderIds) ∧
    reflow inputC3 = .error (Err.danglingDependency "WO-A" "ghost") := by
  refine ⟨⟨woA, by decide, by decide⟩, by decide⟩

/-- Claim C6, counterexample: `reflow` succeeds on `inputC6`, but running
`reflow` again on the returned work orders (with the original work centers
and manufacturing orders) returns a *nonempty* change list: work order
`cc` was left unchanged by the first run with a stored end (09:10)
inconsistent with its 120-minute duration, and the second run, recomputing
its end as 11:00, finds the slot occupied and moves it. -/
theorem c6_counterexample :
    (reflow inputC6).isOk = true ∧
    ((reflow inputC6).bind (fun r =>
        reflow ⟨r.updatedWorkOrders, inputC6.workCenters,
          inputC6.manufacturingOrders⟩)).map
      (fun r => r.changes.map (fun ch => (ch.workOrderId, ch.delayMinutes))) =
      .ok [("cc", 170)] := by
  refine ⟨by decide, by decide⟩

/-- Claim C10, counterexample: `findNextPotentialStart` advances the
candidate to the smallest blocking end in ISO-*string* order, which is not
the temporally earliest end when textual forms differ: with blockers
ending at `09:00:00Z` (instant `tue 9 0`, no milliseconds field) and
`09:00:00.500Z`, it returns `09:00:00.500Z`, although the overlapping
blocker `woBlock1` ends strictly earlier. -/
theorem c10_counterexample :
    findNextPotentialStart ⟨tue 8 0, true⟩ ⟨tue 9 30, true⟩ woT
        [woT, woBlock1, woBlock2] wcTue = ⟨tue 9 0 + 500, true⟩ ∧
    woBlock1.docId ≠ woT.docId ∧
    woBlock1.data.workCenterId = woT.data.workCenterId ∧
    timeRangesOverlap ⟨tue 8 0, true⟩ ⟨tue 9 30, true⟩
        woBlock1.data.startDate woBlock1.data.endDate = true ∧
    woBlock1.data.endDate.ms < tue 9 0 + 500 := by
  refine ⟨by decide, by decide, by decide, by decide, by decide⟩

/-- Claim C2, counterexample (to the second half, invariant I4): `reflow`
succeeds on `inputC6` and returns the non-maintenance work order `cc`
unchanged at `[09:00, 09:10)` with `durationMinutes = 120`; the
shift-inside working time of `[09:00, 09:10)` is 10 minutes, not 120.
Stored end dates of work orders that are not rescheduled are never
recomputed, so their working time need not equal their duration. -/
theorem c2_counterexample :
    (reflow inputC6).map (fun r => r.updatedWorkOrders.map (fun wo =>
        (wo.docId, wo.data.isMaintenance, wo.data.startDate.ms,
          wo.data.endDate.ms, wo.data.durationMinutes))) =
      .ok [("cc", false, tue 9 0, tue 9 10, 120),
        ("dd", false, tue 9 10, tue 10 0, 50)] ∧
    specWorkedMs shiftsTue (tue 9 0) (tue 9 10) = 10 * msPerMinute ∧
    (10 : Nat) * msPerMinute ≠ 120 * msPerMinute := by
  refine ⟨by decide, ?_, by decide⟩
  rw [specWorkedMs.eq_def]
  decide

theorem validateAll_ok_nil (wos : List WorkOrder) (wcs : List WorkCenter)
    (h : validateAll wos wcs = .ok []) :
    ∃ g, buildDependencyGraph wos = .ok g ∧ detectCycles g = none ∧
      validateDependencies wos = [] ∧ validateWorkCenterConflicts wos = [] ∧
      validateShiftBoundaries wos wcs = [] ∧
      validateMaintenanceWindows wos wcs = [] := by
  unfold validateAll at h
  cases hb : buildDependencyGraph wos with
  | error e =>
    simp only [hb, Bind.bind, Except.bind] at h
    exact Except.noConfusion h
  | ok g =>
    simp only [hb, Bind.bind, Except.bind] at h
    refine ⟨g, rfl, ?_⟩
    cases hd : detectCycles g with
    | some e =>
      simp only [hd, pure, Except.pure, Except.ok.injEq] at h
      simp at h
    | none =>
      simp only [hd, pure, Except.pure, Except.ok.injEq] at h
      simp only [List.append_eq_nil] at h
      refine ⟨rfl, ?_, ?_, ?_, ?_⟩ <;> tauto

theorem reflow_ok_inv (input : ReflowInput) (r : ReflowResult)
    (h : reflow input = .ok r) :
    ∃ sortedIds s,
      topologicalSort input.workOrders = .ok sortedIds ∧
      sortedIds.foldlM
        (reflowStep (mapOfList (input.workCenters.map (fun wc => (wc.docId, wc)))))
        (input.workOrders, ([] : List WorkOrderChange)) = .ok s ∧
      validateAll s.1 input.workCenters = .ok [] ∧
      r = ⟨s.1, s.2, calculateMetrics s.2 s.1 input.workCenters⟩ := by
  unfold reflow at h
  cases htopo : topologicalSort input.workOrders with
  | error e =>
    simp only [htopo, Bind.bind, Except.bind] at h
    exact Except.noConfusion h
  | ok sortedIds =>
    simp only [htopo, Bind.bind, Except.bind] at h
    refine ⟨sortedIds, ?_⟩
    cases hfold : sortedIds.foldlM
        (reflowStep (mapOfList (input.workCenters.map (fun wc => (wc.docId, wc)))))
        (input.workOrders, ([] : List WorkOrderChange)) with
    | error e =>
      simp only [hfold] at h
      exact Except.noConfusion h
    | ok s =>
      simp only [hfold] at h
      refine ⟨s, rfl, rfl, ?_⟩
      cases hval : validateAll s.1 input.workCenters with
      | error e =>
        simp only [hval] at h
        exact Except.noConfusion h
      | ok errors =>
        simp only [hval] at h
        cases errors with
        | nil =>
          simp only [List.isEmpty_nil, if_true, pure, Except.pure,
            Except.ok.injEq] at h
          exact ⟨rfl, h.symm⟩
        | cons e rest =>
          simp only [List.isEmpty_cons, Bool.false_eq_true, if_false, throw,
            throwThe, MonadExceptOf.throw] at h
          exact Except.noConfusion h

theorem mapGet_map_replace_ne {α : Type} (m : List (String × α))
    (k k' : String) (v : α) (hk : k' ≠ k) :
    mapGet (m.map (fun p => if p.1 = k then (k, v) else p)) k' = mapGet m k' := by
  induction m with
  | nil => rfl
  | cons p m ih =>
    by_cases hp : p.1 = k
    · simp only [mapGet, List.map_cons, if_pos hp, List.find?] at *
      have h1 : (decide (k = k')) = false := by simp [Ne.symm hk]
      have h2 : (decide (p.1 = k')) = false := by simp [hp, Ne.symm hk]
      rw [h1, h2]
      simpa using ih
    · simp only [mapGet, List.map_cons, if_neg hp, List.find?] at *
      by_cases hq : p.1 = k'
      · simp [hq]
      · have h2 : (decide (p.1 = k')) = false := by simp [hq]
        rw [h2]
        simpa using ih

theorem mapGet_map_replace_self {α : Type} (m : List (String × α))
    (k : String) (v : α) (hany : (m.any fun q => q.1 = k) = true) :
    mapGet (m.map (fun p => if p.1 = k then (k, v) else p)) k = some v := by
  induction m with
  | nil => simp at hany
  | cons p m ih =>
    by_cases hp : p.1 = k
    · simp [mapGet, List.map_cons, if_pos hp, List.find?]
    · simp only [List.any_cons, Bool.or_eq_true, decide_eq_true_eq] at hany
      rcases hany with h | h
      · exact absurd h hp
      · simp only [mapGet, List.map_cons, if_neg hp, List.find?] at *
        have h2 : (decide (p.1 = k)) = false := by simp [hp]
        rw [h2]
        exact ih h

theorem mapGet_mapSet {α : Type} (m : List (String × α)) (k k' : String)
    (v : α) :
    mapGet (mapSet m k v) k' = if k' = k then some v else mapGet m k' := by
  unfold mapSet
  by_cases hany : (m.any fun q => q.1 = k) = true
  · rw [if_pos hany]
    by_cases hk : k' = k
    · subst hk
      rw [if_pos rfl]
      exact mapGet_map_replace_self m k' v hany
    · rw [if_neg hk]
      exact mapGet_map_replace_ne m k k' v hk
  · rw [if_neg hany]
    have hnone : m.find? (fun q => q.1 = k) = none := by
      rw [List.find?_eq_none]
      intro q hq
      simp only [List.any_eq_true, decide_eq_true_eq] at hany
      push_neg at hany
      simp [hany q hq]
    unfold mapGet
    rw [List.find?_append]
    by_cases hk : k' = k
    · subst hk
      rw [hnone]
      simp [List.find?]
    · cases hfind : m.find? (fun q => q.1 = k') with
      | some p => simp [hk]
      | none =>
        have h1 : (decide (k = k')) = false := by simp [Ne.symm hk]
        simp [List.find?, h1, hk]

theorem mapGet_mapSet_self {α : Type} (m : List (String × α)) (k : String)
    (v : α) : mapGet (mapSet m k v) k = some v := by
  rw [mapGet_mapSet, if_pos rfl]

theorem mapGet_mapSet_ne {α : Type} (m : List (String × α)) (k k' : String)
    (v : α) (hk : k' ≠ k) : mapGet (mapSet m k v) k' = mapGet m k' := by
  rw [mapGet_mapSet, if_neg hk]

theorem foldl_mapSet_get {α β : Type} (g : α → String) (f : α → β)
    (l : List α) (m : List (String × β)) (k : String) :
    mapGet (l.foldl (fun acc x => mapSet acc (g x) (f x)) m) k =
      match l.reverse.find? (fun x => g x = k) with
      | some x => some (f x)
      | none => mapGet m k := by
  induction l generalizing m with
  | nil => simp
  | cons x l ih =>
    simp only [List.foldl_cons, List.reverse_cons]
    rw [ih]
    rw [List.find?_append]
    cases hfind : l.reverse.find? (fun y => decide (g y = k)) with
    | some y => simp
    | none =>
      simp only [Option.none_orElse]
      by_cases hx : g x = k
      · subst hx
        simp [List.find?, mapGet_mapSet_self]
      · have h1 : (decide (g x = k)) = false := by simp [hx]
        simp only [List.find?, h1, cond_false, List.find?_nil, Option.or_none]
        rw [mapGet_mapSet_ne _ _ _ _ (Ne.symm hx)]

theorem foldl_add_max_eq_sum (l : List WorkOrderChange) (a : Int) :
    l.foldl (fun sum c => sum + max 0 c.delayMinutes) a =
      a + (l.map (fun c => max 0 c.delayMinutes)).sum := by
  induction l generalizing a with
  | nil => simp
  | cons c l ih => simp [ih, add_assoc]

theorem utilizationFor_zero (wos : List WorkOrder) (wc : WorkCenter)
    (h : weeklyShiftMinutes wc = 0) : utilizationFor wos wc = 0 := by
  unfold utilizationFor
  rw [h]
  norm_num [jsRound, Int.fdiv]

/-- Claim C8 (confirmed): in the returned metrics, `totalDelayMinutes` is
the sum of `max(0, delayMinutes)` over the change records (negative
changes contribute nothing), `workOrdersAffected` is the number of change
records, and the utilization computed for a work center whose shifts sum
to zero weekly minutes is `0`; every reported utilization entry is the
value computed for a work center bearing that id (the last one, when ids
repeat). -/
theorem c8_metrics (input : ReflowInput) (r : ReflowResult)
    (h : reflow input = .ok r) :
    r.metrics.totalDelayMinutes =
      (r.changes.map (fun c => max 0 c.delayMinutes)).sum ∧
    r.metrics.workOrdersAffected = r.changes.length ∧
    (∀ wc ∈ input.workCenters, weeklyShiftMinutes wc = 0 →
      utilizationFor r.updatedWorkOrders wc = 0) ∧
    (∀ wc ∈ input.workCenters, ∃ wc2 ∈ input.workCenters,
      wc2.docId = wc.docId ∧
      mapGet r.metrics.workCenterUtilization wc.docId =
        some (utilizationFor r.updatedWorkOrders wc2)) := by
  obtain ⟨sortedIds, s, htopo, hfold, hval, hr⟩ := reflow_ok_inv input r h
  subst hr
  refine ⟨?_, rfl, ?_, ?_⟩
  · show (calculateMetrics s.2 s.1 input.workCenters).totalDelayMinutes = _
    unfold calculateMetrics
    simpa using foldl_add_max_eq_sum s.2 0
  · intro wc _ hwc
    exact utilizationFor_zero _ wc hwc
  · intro wc hwc
    show ∃ wc2 ∈ input.workCenters, wc2.docId = wc.docId ∧
      mapGet (calculateMetrics s.2 s.1 input.workCenters).workCenterUtilization
        wc.docId = some (utilizationFor s.1 wc2)
    unfold calculateMetrics
    simp only
    rw [foldl_mapSet_get (fun w => w.docId) (fun w => utilizationFor s.1 w)]
    have hex : ∃ x ∈ input.workCenters.reverse, x.docId = wc.docId :=
      ⟨wc, List.mem_reverse.mpr hwc, rfl⟩
    obtain ⟨x, hx, hxd⟩ := hex
    cases hfind : input.workCenters.reverse.find?
        (fun w => decide (w.docId = wc.docId)) with
    | none =>
      rw [List.find?_eq_none] at hfind
      exact absurd (by simpa using hxd) (by simpa using hfind x hx)
    | some y =>
      have hy := List.find?_some hfind
      have hymem := List.mem_of_find?_eq_some hfind
      exact ⟨y, List.mem_reverse.mp hymem, by simpa using hy, rfl⟩

theorem validateDependencies_mem_iff (wos : List WorkOrder)
    (e : ValidationError) :
    e ∈ validateDependencies wos ↔
      ∃ child ∈ wos, ∃ pid ∈ child.data.dependsOnWorkOrderIds, ∃ parent,
        mapGet (mapOfList (wos.map (fun wo => (wo.docId, wo)))) pid =
          some parent ∧
        strLt child.data.startDate parent.data.endDate ∧
        e = ⟨.DEPENDENCY_VIOLATION, [child.docId, parent.docId]⟩ := by
  unfold validateDependencies
  simp only [List.mem_flatMap, List.mem_filterMap]
  constructor
  · rintro ⟨wo, hwo, parent, ⟨pid, hpid, hget⟩, hsome⟩
    by_cases hlt : strLt wo.data.startDate parent.data.endDate
    · rw [if_pos hlt] at hsome
      injection hsome with hsome
      exact ⟨wo, hwo, pid, hpid, parent, hget, hlt, hsome.symm⟩
    · rw [if_neg hlt] at hsome
      exact absurd hsome (by simp)
  · rintro ⟨child, hc, pid, hpid, parent, hget, hlt, rfl⟩
    exact ⟨child, hc, parent, ⟨pid, hpid, hget⟩, by rw [if_pos hlt]⟩

/-- Claim C4 (confirmed): the validator's dependency check emits a
`DEPENDENCY_VIOLATION` for ids `(x, y)` iff some work order `child` with
id `x` has a dependency resolving (via the work-order map) to a `parent`
with id `y` such that `parent.endDate > child.startDate` in the JavaScript
string order the source uses (`strLt child.start parent.end`); and when
`parent.endDate` equals `child.startDate` the comparison is false, so no
error is emitted for that pair. -/
theorem c4_dependency_check (wos : List WorkOrder) (x y : String) :
    ((⟨.DEPENDENCY_VIOLATION, [x, y]⟩ : ValidationError) ∈
        validateDependencies wos ↔
      ∃ child ∈ wos, ∃ pid ∈ child.data.dependsOnWorkOrderIds, ∃ parent,
        mapGet (mapOfList (wos.map (fun wo => (wo.docId, wo)))) pid =
          some parent ∧
        child.docId = x ∧ parent.docId = y ∧
        strLt child.data.startDate parent.data.endDate) ∧
    (∀ child parent : WorkOrder,
      parent.data.endDate = child.data.startDate →
      ¬ strLt child.data.startDate parent.data.endDate) := by
  refine ⟨?_, ?_⟩
  · rw [validateDependencies_mem_iff]
    constructor
    · rintro ⟨child, hc, pid, hpid, parent, hget, hlt, heq⟩
      injection heq with _ hids
      injection hids with h1 h2
      injection h2 with h2 _
      exact ⟨child, hc, pid, hpid, parent, hget, h1.symm, h2.symm, hlt⟩
    · rintro ⟨child, hc, pid, hpid, parent, hget, hx, hy, hlt⟩
      exact ⟨child, hc, pid, hpid, parent, hget, hlt, by rw [hx, hy]⟩
  · intro child parent h
    rw [h]
    simp [strLt]

theorem foldl_inv {σ α : Type} (P : σ → Prop) (f : σ → α → σ) (l : List α)
    (hstep : ∀ s x, x ∈ l → P s → P (f s x)) (init : σ) (hinit : P init) :
    P (l.foldl f init) := by
  induction l generalizing init with
  | nil => exact hinit
  | cons x l ih =>
    exact ih (fun s y hy hP => hstep s y (List.mem_cons_of_mem _ hy) hP) _
      (hstep init x (List.mem_cons_self _ _) hinit)

theorem foldlM_except_inv {σ α ε : Type} (P : σ → Prop) (f : σ → α → Except ε σ)
    (l : List α) (hstep : ∀ s x s', x ∈ l → P s → f s x = .ok s' → P s')
    (init out : σ) (hinit : P init) (h : l.foldlM f init = .ok out) :
    P out := by
  induction l generalizing init with
  | nil =>
    simp only [List.foldlM_nil, pure, Except.pure, Except.ok.injEq] at h
    exact h ▸ hinit
  | cons x l ih =>
    simp only [List.foldlM_cons] at h
    cases hf : f init x with
    | error e => rw [hf] at h; exact Except.noConfusion h
    | ok s1 =>
      rw [hf] at h
      simp only [Bind.bind, Except.bind] at h
      exact ih (fun s y s' hy hP hok => hstep s y s' (List.mem_cons_of_mem _ hy) hP hok)
        s1 (hstep init x s1 (List.mem_cons_self _ _) hinit hf) h

theorem mem_mapSet {α : Type} (m : List (String × α)) (k : String) (v : α)
    (q : String × α) (h : q ∈ mapSet m k v) : q ∈ m ∨ q = (k, v) := by
  unfold mapSet at h
  split at h
  · rw [List.mem_map] at h
    obtain ⟨p, hp, hq⟩ := h
    by_cases hk : p.1 = k
    · rw [if_pos hk] at hq; right; exact hq.symm
    · rw [if_neg hk] at hq; left; exact hq ▸ hp
  · rw [List.mem_append] at h
    rcases h with h | h
    · left; exact h
    · right; simpa using h

theorem mapSet_keys {α : Type} (m : List (String × α)) (k : String) (v : α) :
    (mapSet m k v).map Prod.fst =
      if k ∈ m.map Prod.fst then m.map Prod.fst
      else m.map Prod.fst ++ [k] := by
  unfold mapSet
  have hiff : ((m.any fun q => q.1 = k) = true) ↔ k ∈ m.map Prod.fst := by
    simp only [List.any_eq_true, decide_eq_true_eq, List.mem_map]
  by_cases hk : k ∈ m.map Prod.fst
  · rw [if_pos (hiff.mpr hk), if_pos hk, List.map_map]
    apply List.map_congr_left
    intro p _
    by_cases hp : p.1 = k <;> simp [hp]
  · rw [if_neg (fun hh => hk (hiff.mp hh)), if_neg hk]
    simp

theorem mapGet_isSome_iff {α : Type} (m : List (String × α)) (k : String) :
    (mapGet m k).isSome = true ↔ k ∈ m.map Prod.fst := by
  unfold mapGet
  rw [Option.isSome_map']
  cases hfind : m.find? (fun p => p.1 = k) with
  | none =>
    rw [List.find?_eq_none] at hfind
    simp only [Option.isSome_none, Bool.false_eq_true, false_iff]
    intro hmem
    rw [List.mem_map] at hmem
    obtain ⟨p, hp, hk⟩ := hmem
    exact absurd (by simpa using hk) (by simpa using hfind p hp)
  | some p =>
    have h1 := List.find?_some hfind
    have h2 := List.mem_of_find?_eq_some hfind
    simp only [Option.isSome_some, true_iff]
    exact List.mem_map.mpr ⟨p, h2, by simpa using h1⟩

theorem insFold_mem : ∀ (l acc : List String) (x : String),
    x ∈ l.foldl (fun ks k => if k ∈ ks then ks else ks ++ [k]) acc ↔
      x ∈ acc ∨ x ∈ l := by
  intro l
  induction l with
  | nil => simp
  | cons y l ih =>
    intro acc x
    simp only [List.foldl_cons]
    rw [ih]
    by_cases hy : y ∈ acc
    · rw [if_pos hy]
      constructor
      · rintro (h | h)
        · exact Or.inl h
        · exact Or.inr (List.mem_cons_of_mem _ h)
      · rintro (h | h)
        · exact Or.inl h
        · rcases List.mem_cons.mp h with h | h
          · exact Or.inl (h ▸ hy)
          · exact Or.inr h
    · rw [if_neg hy]
      simp only [List.mem_append, List.mem_singleton, List.mem_cons]
      tauto

theorem insFold_nodup : ∀ (l acc : List String), acc.Nodup →
    (l.foldl (fun ks k => if k ∈ ks then ks else ks ++ [k]) acc).Nodup := by
  intro l
  induction l with
  | nil => exact fun acc h => h
  | cons y l ih =>
    intro acc hacc
    simp only [List.foldl_cons]
    by_cases hy : y ∈ acc
    · rw [if_pos hy]; exact ih acc hacc
    · rw [if_neg hy]
      exact ih _ (by simp [List.nodup_append, hacc, hy])

theorem insFold_length_le : ∀ (l acc : List String),
    (l.foldl (fun ks k => if k ∈ ks then ks else ks ++ [k]) acc).length ≤
      acc.length + l.length := by
  intro l
  induction l with
  | nil => simp
  | cons y l ih =>
    intro acc
    simp only [List.foldl_cons, List.length_cons]
    by_cases hy : y ∈ acc
    · rw [if_pos hy]
      calc _ ≤ acc.length + l.length := ih acc
        _ ≤ acc.length + (l.length + 1) := by omega
    · rw [if_neg hy]
      calc _ ≤ (acc ++ [y]).length + l.length := ih _
        _ = acc.length + (l.length + 1) := by simp; omega

theorem insFold_length_eq_nodup : ∀ (l acc : List String), acc.Nodup →
    (l.foldl (fun ks k => if k ∈ ks then ks else ks ++ [k]) acc).length =
      acc.length + l.length →
    l.Nodup ∧ ∀ x ∈ l, x ∉ acc := by
  intro l
  induction l with
  | nil => simp
  | cons y l ih =>
    intro acc hacc hlen
    simp only [List.foldl_cons, List.length_cons] at hlen
    by_cases hy : y ∈ acc
    · rw [if_pos hy] at hlen
      have := insFold_length_le l acc
      omega
    · rw [if_neg hy] at hlen
      have hacc2 : (acc ++ [y]).Nodup := by simp [List.nodup_append, hacc, hy]
      have hlen2 : (l.foldl (fun ks k => if k ∈ ks then ks else ks ++ [k])
          (acc ++ [y])).length = (acc ++ [y]).length + l.length := by
        simp only [List.length_append, List.length_singleton]
        omega
      obtain ⟨hnd, hnin⟩ := ih (acc ++ [y]) hacc2 hlen2
      refine ⟨List.nodup_cons.mpr ⟨?_, hnd⟩, ?_⟩
      · intro hyl
        exact hnin y hyl (by simp)
      · intro x hx
        rcases List.mem_cons.mp hx with h | h
        · exact h ▸ hy
        · intro hxacc
          exact hnin x h (by simp [hxacc])

theorem mapGet_mem {α : Type} (m : List (String × α)) (k : String) (v : α)
    (h : mapGet m k = some v) : (k, v) ∈ m := by
  unfold mapGet at h
  cases hfind : m.find? (fun p => p.1 = k) with
  | none => rw [hfind] at h; exact Option.noConfusion h
  | some p =>
    rw [hfind] at h
    have h1 : p.1 = k := by simpa using List.find?_some hfind
    have h2 := List.mem_of_find?_eq_some hfind
    have h3 : p.2 = v := by simpa using h
    have : (k, v) = p := by
      cases p; simp_all
    exact this ▸ h2

theorem foldlM_except_steps {σ α ε : Type} (P : σ → Prop)
    (f : σ → α → Except ε σ) (l : List α)
    (hstep : ∀ s x s', x ∈ l → P s → f s x = .ok s' → P s') :
    ∀ (init out : σ), P init → l.foldlM f init = .ok out →
    ∀ x ∈ l, ∃ s s', P s ∧ f s x = .ok s' := by
  induction l with
  | nil => intro init out _ _ x hx; exact absurd hx (List.not_mem_nil x)
  | cons y l ih =>
    intro init out hinit h x hx
    simp only [List.foldlM_cons] at h
    cases hf : f init y with
    | error e => rw [hf] at h; exact Except.noConfusion h
    | ok s1 =>
      rw [hf] at h
      simp only [Bind.bind, Except.bind] at h
      rcases List.mem_cons.mp hx with rfl | hx2
      · exact ⟨init, s1, hinit, hf⟩
      · exact ih (fun s z s' hz hP hok =>
            hstep s z s' (List.mem_cons_of_mem _ hz) hP hok) s1 out
          (hstep init y s1 (List.mem_cons_self _ _) hinit hf) h x hx2

theorem foldlM_except_total {σ α ε : Type} (P : σ → Prop)
    (f : σ → α → Except ε σ) (l : List α)
    (hstep : ∀ s x, x ∈ l → P s → ∃ s', f s x = .ok s' ∧ P s') :
    ∀ init : σ, P init → ∃ out, l.foldlM f init = .ok out ∧ P out := by
  induction l with
  | nil => intro init hinit; exact ⟨init, rfl, hinit⟩
  | cons y l ih =>
    intro init hinit
    obtain ⟨s1, hf, hP1⟩ := hstep init y (List.mem_cons_self _ _) hinit
    obtain ⟨out, hout, hPout⟩ := ih
      (fun s z hz hP => hstep s z (List.mem_cons_of_mem _ hz) hP) s1 hP1
    refine ⟨out, ?_, hPout⟩
    simp only [List.foldlM_cons, hf, Bind.bind, Except.bind]
    exact hout

theorem keys_foldl_mapSet {α β : Type} (gid : α → String) (f : α → β) :
    ∀ (l : List α) (m : List (String × β)),
    ((l.foldl (fun g x => mapSet g (gid x) (f x)) m).map Prod.fst) =
      l.foldl (fun ks x => if gid x ∈ ks then ks else ks ++ [gid x])
        (m.map Prod.fst) := by
  intro l
  induction l with
  | nil => intro m; rfl
  | cons x l ih =>
    intro m
    simp only [List.foldl_cons]
    rw [ih, mapSet_keys]

theorem buildDependencyGraph_ok (wos : List WorkOrder) (g : DepGraph)
    (h : buildDependencyGraph wos = .ok g) :
    g.map Prod.fst =
      (docIds wos).foldl (fun ks k => if k ∈ ks then ks else ks ++ [k]) [] ∧
    (∀ p ∈ g, ∀ c ∈ p.2.children, c ∈ docIds wos) ∧
    (∀ p ∈ g, ∃ wo ∈ wos, p.1 = wo.docId ∧
      p.2.parents = wo.data.dependsOnWorkOrderIds) ∧
    (∀ wo ∈ wos, ∀ pid ∈ wo.data.dependsOnWorkOrderIds,
      pid ∈ g.map Prod.fst) := by
  unfold buildDependencyGraph at h
  set g0 : DepGraph := wos.foldl (fun g wo =>
    mapSet g wo.docId ⟨wo.docId, wo.data.dependsOnWorkOrderIds, [], 0⟩) []
    with hg0
  dsimp only at h
  have hg0keys : g0.map Prod.fst =
      (docIds wos).foldl (fun ks k => if k ∈ ks then ks else ks ++ [k]) [] := by
    rw [hg0, keys_foldl_mapSet]
    rw [docIds, List.foldl_map]
    rfl
  have hkeys_pres : ∀ (s : DepGraph) (wo : WorkOrder) (s' : DepGraph),
      wo ∈ wos →
      s.map Prod.fst = g0.map Prod.fst →
      (wo.data.dependsOnWorkOrderIds.foldlM (fun g pid =>
        match mapGet g pid with
        | none => throw (Err.danglingDependency wo.data.workOrderNumber pid)
        | some node =>
          pure (mapSet g pid
            { node with children := node.children ++ [wo.docId] })) s :
        Except Err DepGraph) = Except.ok s' →
      s'.map Prod.fst = g0.map Prod.fst := by
    intro s wo s' _ hP hok
    apply foldlM_except_inv _ _ _ ?_ s s' hP hok
    intro t pid t' _ hPt hstept
    cases hget : mapGet t pid with
    | none =>
      rw [hget] at hstept
      exact Except.noConfusion hstept
    | some node =>
      rw [hget] at hstept
      simp only [pure, Except.pure, Except.ok.injEq] at hstept
      subst hstept
      rw [mapSet_keys, if_pos, hPt]
      rw [← mapGet_isSome_iff, hget]
      rfl
  have keysEq : g.map Prod.fst = g0.map Prod.fst :=
    foldlM_except_inv (fun g' => g'.map Prod.fst = g0.map Prod.fst) _ wos
      (fun s wo s' hwo hP hok => hkeys_pres s wo s' hwo hP hok) g0 g rfl h
  refine ⟨keysEq.trans hg0keys, ?_, ?_, ?_⟩
  · -- children are work-order ids
    have hg0c : ∀ p ∈ g0, p.2.children = [] := by
      rw [hg0]
      apply foldl_inv (fun gg : DepGraph => ∀ p ∈ gg, p.2.children = [])
      · intro s wo _ hP p hp
        rcases mem_mapSet _ _ _ _ hp with hold | hnew
        · exact hP p hold
        · rw [hnew]
      · intro p hp
        exact absurd hp (List.not_mem_nil p)
    apply foldlM_except_inv
      (fun g' : DepGraph => ∀ p ∈ g', ∀ c ∈ p.2.children, c ∈ docIds wos) _ wos
      ?_ g0 g
      (fun p hp c hc => absurd (hg0c p hp ▸ hc) (List.not_mem_nil c)) h
    intro s wo s' hwo hP hok
    apply foldlM_except_inv
      (fun g' : DepGraph => ∀ p ∈ g', ∀ c ∈ p.2.children, c ∈ docIds wos) _ _
      ?_ s s' hP hok
    intro t pid t' _ hPt hstept
    cases hget : mapGet t pid with
    | none =>
      rw [hget] at hstept
      exact Except.noConfusion hstept
    | some node =>
      rw [hget] at hstept
      simp only [pure, Except.pure, Except.ok.injEq] at hstept
      subst hstept
      intro p hp c hc
      rcases mem_mapSet _ _ _ _ hp with hold | hnew
      · exact hPt p hold c hc
      · rw [hnew] at hc
        simp only at hc
        rcases List.mem_append.mp hc with hcold | hcnew
        · exact hPt (pid, node) (mapGet_mem _ _ _ hget) c hcold
        · rw [List.mem_singleton.mp hcnew]
          exact List.mem_map.mpr ⟨wo, hwo, rfl⟩
  · -- parents come from a work order with the node's id
    have hg0p : ∀ p ∈ g0, ∃ wo ∈ wos, p.1 = wo.docId ∧
        p.2.parents = wo.data.dependsOnWorkOrderIds := by
      rw [hg0]
      apply foldl_inv (fun gg : DepGraph => ∀ p ∈ gg, ∃ wo ∈ wos,
        p.1 = wo.docId ∧ p.2.parents = wo.data.dependsOnWorkOrderIds)
      · intro s wo hwo hP p hp
        rcases mem_mapSet _ _ _ _ hp with hold | hnew
        · exact hP p hold
        · rw [hnew]
          exact ⟨wo, hwo, rfl, rfl⟩
      · intro p hp
        exact absurd hp (List.not_mem_nil p)
    apply foldlM_except_inv
      (fun g' : DepGraph => ∀ p ∈ g', ∃ wo ∈ wos, p.1 = wo.docId ∧
        p.2.parents = wo.data.dependsOnWorkOrderIds) _ wos ?_ g0 g hg0p h
    intro s wo s' _ hP hok
    apply foldlM_except_inv _ _ _ ?_ s s' hP hok
    intro t pid t' _ hPt hstept
    cases hget : mapGet t pid with
    | none =>
      rw [hget] at hstept
      exact Except.noConfusion hstept
    | some node =>
      rw [hget] at hstept
      simp only [pure, Except.pure, Except.ok.injEq] at hstept
      subst hstept
      intro p hp
      rcases mem_mapSet _ _ _ _ hp with hold | hnew
      · exact hPt p hold
      · obtain ⟨wo2, hwo2, hid, hpar⟩ := hPt (pid, node) (mapGet_mem _ _ _ hget)
        rw [hnew]
        exact ⟨wo2, hwo2, hid, hpar⟩
  · -- no dangling dependencies on success
    intro wo hwo pid hpid
    rw [keysEq]
    obtain ⟨s, s', hPs, hok⟩ := foldlM_except_steps
      (fun g' => g'.map Prod.fst = g0.map Prod.fst) _ wos
      (fun s w s' hw hP hok => hkeys_pres s w s' hw hP hok) g0 g rfl h wo hwo
    have hinner : ∀ (u : DepGraph) (pid2 : String) (u' : DepGraph),
        pid2 ∈ wo.data.dependsOnWorkOrderIds →
        u.map Prod.fst = g0.map Prod.fst →
        (match mapGet u pid2 with
          | none => throw (Err.danglingDependency wo.data.workOrderNumber pid2)
          | some node =>
            pure (mapSet u pid2
              { node with children := node.children ++ [wo.docId] }) :
          Except Err DepGraph) = Except.ok u' →
        u'.map Prod.fst = g0.map Prod.fst := by
      intro u pid2 u' _ hPu hstepu
      cases hget : mapGet u pid2 with
      | none =>
        rw [hget] at hstepu
        exact Except.noConfusion hstepu
      | some node =>
        rw [hget] at hstepu
        simp only [pure, Except.pure, Except.ok.injEq] at hstepu
        subst hstepu
        rw [mapSet_keys, if_pos, hPu]
        rw [← mapGet_isSome_iff, hget]
        rfl
    obtain ⟨t, t', hPt, hstept⟩ := foldlM_except_steps
      (fun g' => g'.map Prod.fst = g0.map Prod.fst) _
      wo.data.dependsOnWorkOrderIds hinner s s' hPs hok pid hpid
    cases hget : mapGet t pid with
    | none =>
      rw [hget] at hstept
      exact Except.noConfusion hstept
    | some node =>
      rw [← hPt, ← mapGet_isSome_iff, hget]
      rfl

theorem mapGet_of_mem_nodup {α : Type} (m : List (String × α)) (k : String)
    (v : α) (hnd : (m.map Prod.fst).Nodup) (hmem : (k, v) ∈ m) :
    mapGet m k = some v := by
  induction m with
  | nil => exact absurd hmem (List.not_mem_nil _)
  | cons p m ih =>
    simp only [List.map_cons, List.nodup_cons] at hnd
    rcases List.mem_cons.mp hmem with rfl | hmem2
    · simp [mapGet, List.find?]
    · have hk : p.1 ≠ k := by
        intro hk
        exact hnd.1 (hk ▸ List.mem_map.mpr ⟨(k, v), hmem2, rfl⟩)
      unfold mapGet at *
      rw [List.find?_cons_of_neg _ (by simpa using hk)]
      exact ih hnd.2 hmem2

theorem kahnFold_inv (sorted keys : List String) (children : List String)
    (hchildren : ∀ c ∈ children, c ∈ keys) :
    ∀ (d : List (String × Int)) (q : List String),
    (sorted ++ q).Nodup →
    (∀ id ∈ sorted ++ q, ∀ v : Int, mapGet d id = some v → v ≤ 0) →
    (∀ id ∈ q, id ∈ keys) →
    ((sorted ++ (children.foldl (fun (s : List (String × Int) × List String) cid =>
        let cur := (mapGet s.1 cid).getD 0
        let d1 := mapSet s.1 cid (cur - 1)
        if cur - 1 = 0 then (d1, s.2 ++ [cid]) else (d1, s.2)) (d, q)).2).Nodup ∧
      (∀ id ∈ sorted ++ (children.foldl (fun (s : List (String × Int) × List String) cid =>
        let cur := (mapGet s.1 cid).getD 0
        let d1 := mapSet s.1 cid (cur - 1)
        if cur - 1 = 0 then (d1, s.2 ++ [cid]) else (d1, s.2)) (d, q)).2,
        ∀ v : Int, mapGet (children.foldl (fun (s : List (String × Int) × List String) cid =>
        let cur := (mapGet s.1 cid).getD 0
        let d1 := mapSet s.1 cid (cur - 1)
        if cur - 1 = 0 then (d1, s.2 ++ [cid]) else (d1, s.2)) (d, q)).1 id = some v → v ≤ 0) ∧
      (∀ id ∈ (children.foldl (fun (s : List (String × Int) × List String) cid =>
        let cur := (mapGet s.1 cid).getD 0
        let d1 := mapSet s.1 cid (cur - 1)
        if cur - 1 = 0 then (d1, s.2 ++ [cid]) else (d1, s.2)) (d, q)).2, id ∈ keys)) := by
  induction children with
  | nil =>
    intro d q h1 h2 h3
    exact ⟨h1, h2, h3⟩
  | cons cid children ih =>
    intro d q h1 h2 h3
    have hcid : cid ∈ keys := hchildren cid (List.mem_cons_self _ _)
    have hch2 : ∀ c ∈ children, c ∈ keys :=
      fun c hc => hchildren c (List.mem_cons_of_mem _ hc)
    simp only [List.foldl_cons]
    set cur : Int := (mapGet d cid).getD 0 with hcur
    set d1 := mapSet d cid (cur - 1) with hd1
    -- degree invariant for the updated map, for any member set not containing
    -- a positive-degree cid
    have hdeg1 : ∀ id ∈ sorted ++ q, ∀ v : Int, mapGet d1 id = some v → v ≤ 0 := by
      intro id hid v hv
      by_cases hidc : id = cid
      · subst hidc
        rw [hd1, mapGet_mapSet_self] at hv
        injection hv with hveq
        have : cur ≤ 0 := by
          cases hget : mapGet d id with
          | none => rw [hcur, hget]; rfl
          | some w =>
            have := h2 id hid w hget
            rw [hcur, hget]
            simpa using this
        omega
      · rw [hd1, mapGet_mapSet_ne _ _ _ _ hidc] at hv
        exact h2 id hid v hv
    by_cases hpush : cur - 1 = 0
    · rw [if_pos hpush]
      -- cid is pushed: its degree was 1 > 0, so it is not yet a member
      have hcur1 : cur = 1 := by omega
      have hnotmem : cid ∉ sorted ++ q := by
        intro hmem
        cases hget : mapGet d cid with
        | none => rw [hcur, hget] at hcur1; exact absurd hcur1 (by decide)
        | some w =>
          have hw := h2 cid hmem w hget
          rw [hcur, hget] at hcur1
          simp only [Option.getD_some] at hcur1
          omega
      have h1' : (sorted ++ (q ++ [cid])).Nodup := by
        rw [← List.append_assoc]
        rw [List.nodup_append]
        refine ⟨h1, by simp, ?_⟩
        intro x hx
        simp only [List.mem_singleton]
        intro hxc
        exact hnotmem (hxc ▸ hx)
      refine ih hch2 d1 (q ++ [cid]) h1' ?_ ?_
      · intro id hid v hv
        rcases List.mem_append.mp hid with hids | hidq
        · exact hdeg1 id (List.mem_append_left _ hids) v hv
        · rcases List.mem_append.mp hidq with hidq2 | hidc
          · exact hdeg1 id (List.mem_append_right _ hidq2) v hv
          · have hidc2 := List.mem_singleton.mp hidc
            subst hidc2
            rw [hd1, mapGet_mapSet_self] at hv
            injection hv with hveq
            omega
      · intro id hid
        rcases List.mem_append.mp hid with hidq | hidc
        · exact h3 id hidq
        · exact (List.mem_singleton.mp hidc) ▸ hcid
    · rw [if_neg hpush]
      exact ih hch2 d1 q h1 hdeg1 h3

theorem kahnLoop_nodup_subset (graph : DepGraph)
    (hchild : ∀ p ∈ graph, ∀ c ∈ p.2.children, c ∈ graph.map Prod.fst) :
    ∀ (fuel : Nat) (queue : List String) (inDeg : List (String × Int))
      (sorted : List String),
    (sorted ++ queue).Nodup →
    (∀ id ∈ sorted ++ queue, ∀ v : Int, mapGet inDeg id = some v → v ≤ 0) →
    (∀ id ∈ sorted ++ queue, id ∈ graph.map Prod.fst) →
    (kahnLoop graph fuel queue inDeg sorted).Nodup ∧
    (∀ id ∈ kahnLoop graph fuel queue inDeg sorted,
      id ∈ graph.map Prod.fst) := by
  intro fuel
  induction fuel with
  | zero =>
    intro queue inDeg sorted h1 h2 h3
    refine ⟨(List.nodup_append.mp h1).1, ?_⟩
    intro id hid
    exact h3 id (List.mem_append_left _ hid)
  | succ fuel ih =>
    intro queue inDeg sorted h1 h2 h3
    cases queue with
    | nil =>
      simp only [kahnLoop]
      refine ⟨(List.nodup_append.mp h1).1, ?_⟩
      intro id hid
      exact h3 id (List.mem_append_left _ hid)
    | cons id queue =>
      simp only [kahnLoop]
      have hchildren : ∀ c ∈ (match mapGet graph id with
          | some node => node.children
          | none => []), c ∈ graph.map Prod.fst := by
        cases hget : mapGet graph id with
        | none => intro c hc; exact absurd hc (List.not_mem_nil c)
        | some node =>
          intro c hc
          exact hchild (id, node) (mapGet_mem _ _ _ hget) c hc
      have h1' : ((sorted ++ [id]) ++ queue).Nodup := by
        rw [List.append_assoc, List.singleton_append]
        exact h1
      have h2' : ∀ x ∈ (sorted ++ [id]) ++ queue, ∀ v : Int,
          mapGet inDeg x = some v → v ≤ 0 := by
        intro x hx
        apply h2
        rw [List.append_assoc, List.singleton_append] at hx
        exact hx
      have h3q : ∀ x ∈ queue, x ∈ graph.map Prod.fst := by
        intro x hx
        exact h3 x (List.mem_append_right _ (List.mem_cons_of_mem _ hx))
      obtain ⟨k1, k2, k3⟩ := kahnFold_inv (sorted ++ [id]) (graph.map Prod.fst)
        _ hchildren inDeg queue h1' h2' h3q
      apply ih _ _ _ k1 k2
      intro x hx
      rcases List.mem_append.mp hx with hxs | hxf
      · rcases List.mem_append.mp hxs with hxs2 | hxid
        · exact h3 x (List.mem_append_left _ hxs2)
        · rw [List.mem_singleton.mp hxid]
          exact h3 id (List.mem_append_right _ (List.mem_cons_self _ _))
      · exact k3 x hxf

theorem topologicalSort_ok_inv (wos : List WorkOrder) (sorted : List String)
    (h : topologicalSort wos = .ok sorted) :
    ∃ g, buildDependencyGraph wos = .ok g ∧ detectCycles g = none ∧
      sorted = kahnLoop g (g.length + totalParents g + 1)
        (((g.foldl (fun m p => mapSet m p.1 (p.2.parents.length : Int)) []).filter
          (fun p => p.2 = 0)).map (fun p => p.1))
        (g.foldl (fun m p => mapSet m p.1 (p.2.parents.length : Int)) []) [] ∧
      sorted.length = wos.length := by
  unfold topologicalSort at h
  cases hb : buildDependencyGraph wos with
  | error e =>
    simp only [hb, Bind.bind, Except.bind] at h
    exact Except.noConfusion h
  | ok g =>
    simp only [hb, Bind.bind, Except.bind] at h
    refine ⟨g, rfl, ?_⟩
    cases hd : detectCycles g with
    | some e =>
      simp only [hd, throw, throwThe, MonadExceptOf.throw] at h
      exact Except.noConfusion h
    | none =>
      simp only [hd] at h
      refine ⟨rfl, ?_⟩
      by_cases hlen : (kahnLoop g (g.length + totalParents g + 1)
          (((g.foldl (fun m p => mapSet m p.1 (p.2.parents.length : Int)) []).filter
            (fun p => p.2 = 0)).map (fun p => p.1))
          (g.foldl (fun m p => mapSet m p.1 (p.2.parents.length : Int)) [])
          []).length = wos.length
      · rw [if_pos hlen] at h
        simp only [pure, Except.pure, Except.ok.injEq] at h
        subst h
        exact ⟨rfl, hlen⟩
      · rw [if_neg hlen] at h
        simp only [throw, throwThe, MonadExceptOf.throw] at h
        exact Except.noConfusion h

theorem topologicalSort_ok_nodup (wos : List WorkOrder) (sorted : List String)
    (h : topologicalSort wos = .ok sorted) :
    (docIds wos).Nodup ∧ sorted.Nodup := by
  obtain ⟨g, hb, _, hsorted, hlen⟩ := topologicalSort_ok_inv wos sorted h
  obtain ⟨hkeys, hchild, _, _⟩ := buildDependencyGraph_ok wos g hb
  have hkeysmem : ∀ x, x ∈ g.map Prod.fst ↔ x ∈ docIds wos := by
    intro x
    rw [hkeys, insFold_mem]
    simp
  have hkeysnodup : (g.map Prod.fst).Nodup := by
    rw [hkeys]
    exact insFold_nodup _ _ List.nodup_nil
  set inDeg := g.foldl (fun m p => mapSet m p.1 (p.2.parents.length : Int)) []
    with hInDeg
  have hInDegKeys : inDeg.map Prod.fst =
      (g.map Prod.fst).foldl (fun ks k => if k ∈ ks then ks else ks ++ [k]) [] := by
    rw [hInDeg, keys_foldl_mapSet]
    rw [List.foldl_map]
    rfl
  have hInDegNodup : (inDeg.map Prod.fst).Nodup := by
    rw [hInDegKeys]
    exact insFold_nodup _ _ List.nodup_nil
  set queue := ((inDeg.filter (fun p => p.2 = 0)).map (fun p => p.1))
    with hqueue
  have hqueueNodup : queue.Nodup := by
    rw [hqueue]
    exact List.Nodup.sublist (List.Sublist.map _ (List.filter_sublist _))
      hInDegNodup
  have hqueueDeg : ∀ id ∈ queue, ∀ v : Int, mapGet inDeg id = some v → v ≤ 0 := by
    intro id hid v hv
    rw [hqueue] at hid
    rw [List.mem_map] at hid
    obtain ⟨p, hp, hpid⟩ := hid
    have hp2 := List.of_mem_filter hp
    have hpmem := List.mem_of_mem_filter hp
    have : mapGet inDeg p.1 = some p.2 := by
      apply mapGet_of_mem_nodup _ _ _ hInDegNodup
      cases p; exact hpmem
    rw [hpid] at this
    rw [this] at hv
    injection hv with hveq
    have : p.2 = 0 := by simpa using hp2
    omega
  have hqueueKeys : ∀ id ∈ queue, id ∈ g.map Prod.fst := by
    intro id hid
    rw [hqueue] at hid
    rw [List.mem_map] at hid
    obtain ⟨p, hp, hpid⟩ := hid
    have hpmem := List.mem_of_mem_filter hp
    have : p.1 ∈ inDeg.map Prod.fst := List.mem_map.mpr ⟨p, hpmem, rfl⟩
    rw [hInDegKeys, insFold_mem] at this
    rcases this with h0 | h1
    · exact absurd h0 (List.not_mem_nil _)
    · exact hpid ▸ h1
  have hchildkeys : ∀ p ∈ g, ∀ c ∈ p.2.children, c ∈ g.map Prod.fst := by
    intro p hp c hc
    exact (hkeysmem c).mpr (hchild p hp c hc)
  obtain ⟨hnodup, hsub⟩ := kahnLoop_nodup_subset g hchildkeys
    (g.length + totalParents g + 1) queue inDeg []
    (by simpa using hqueueNodup)
    (by simpa using hqueueDeg)
    (by simpa using hqueueKeys)
  rw [← hsorted] at hnodup hsub
  refine ⟨?_, hnodup⟩
  -- |sorted| = |wos| together with sorted ⊆ keys forces the id list nodup
  have hsortedcard : sorted.length ≤ (g.map Prod.fst).length := by
    have h1 : sorted.toFinset.card = sorted.length :=
      List.toFinset_card_of_nodup hnodup
    have h2 : (g.map Prod.fst).toFinset.card = (g.map Prod.fst).length :=
      List.toFinset_card_of_nodup hkeysnodup
    have h3 : sorted.toFinset ⊆ (g.map Prod.fst).toFinset := by
      intro x hx
      rw [List.mem_toFinset] at *
      exact hsub x (by simpa using hx)
    calc sorted.length = sorted.toFinset.card := h1.symm
      _ ≤ (g.map Prod.fst).toFinset.card := Finset.card_le_card h3
      _ = (g.map Prod.fst).length := h2
  have hkeyslen : (g.map Prod.fst).length ≤ (docIds wos).length := by
    rw [hkeys]
    have := insFold_length_le (docIds wos) []
    simpa using this
  have hdoclen : (docIds wos).length = wos.length := by
    rw [docIds]; simp
  have hkeyseq : (g.map Prod.fst).length = (docIds wos).length := by omega
  have := insFold_length_eq_nodup (docIds wos) [] List.nodup_nil
    (by rw [← hkeys]; simp only [List.length_nil, Nat.zero_add]; omega)
  exact this.1

theorem updateFirstById_map {β : Type} (t : List WorkOrder) (id : String)
    (w' : WorkOrder) (f : WorkOrder → β)
    (hf : ∀ w, t.find? (fun wo => wo.docId = id) = some w → f w' = f w) :
    (updateFirstById t id w').map f = t.map f := by
  induction t with
  | nil => rfl
  | cons a rest ih =>
    by_cases ha : a.docId = id
    · simp only [updateFirstById, if_pos ha, List.map_cons]
      have := hf a (by rw [List.find?_cons_of_pos _ (by simpa using ha)])
      rw [this]
    · simp only [updateFirstById, if_neg ha, List.map_cons]
      rw [ih]
      intro w hw
      exact hf w (by rw [List.find?_cons_of_neg _ (by simpa using ha)]; exact hw)

theorem mem_updateFirstById (t : List WorkOrder) (id : String)
    (w' w : WorkOrder) (hw : w ∈ t)
    (hne : ∀ u, t.find? (fun wo => wo.docId = id) = some u → u ≠ w) :
    w ∈ updateFirstById t id w' := by
  induction t with
  | nil => exact absurd hw (List.not_mem_nil w)
  | cons a rest ih =>
    by_cases ha : a.docId = id
    · simp only [updateFirstById, if_pos ha]
      have hfind : (a :: rest).find? (fun wo => wo.docId = id) = some a := by
        rw [List.find?_cons_of_pos _ (by simpa using ha)]
      rcases List.mem_cons.mp hw with rfl | hw2
      · exact absurd rfl (hne w hfind)
      · exact List.mem_cons_of_mem _ hw2
    · simp only [updateFirstById, if_neg ha]
      rcases List.mem_cons.mp hw with rfl | hw2
      · exact List.mem_cons_self _ _
      · refine List.mem_cons_of_mem _ (ih hw2 ?_)
        intro u hu
        exact hne u (by rw [List.find?_cons_of_neg _ (by simpa using ha)]; exact hu)

theorem mem_updateFirstById_weak (t : List WorkOrder) (id : String)
    (w' w : WorkOrder) (hw : w ∈ t) :
    w ∈ updateFirstById t id w' ∨
      (t.find? (fun wo => wo.docId = id) = some w ∧
        w' ∈ updateFirstById t id w') := by
  induction t with
  | nil => exact absurd hw (List.not_mem_nil w)
  | cons a rest ih =>
    by_cases ha : a.docId = id
    · simp only [updateFirstById, if_pos ha]
      rcases List.mem_cons.mp hw with rfl | hw2
      · right
        exact ⟨by rw [List.find?_cons_of_pos _ (by simpa using ha)],
          List.mem_cons_self _ _⟩
      · left; exact List.mem_cons_of_mem _ hw2
    · simp only [updateFirstById, if_neg ha]
      rcases List.mem_cons.mp hw with rfl | hw2
      · left; exact List.mem_cons_self _ _
      · rcases ih hw2 with h | ⟨hfind, hmem⟩
        · left; exact List.mem_cons_of_mem _ h
        · right
          exact ⟨by rw [List.find?_cons_of_neg _ (by simpa using ha)]; exact hfind,
            List.mem_cons_of_mem _ hmem⟩

theorem self_mem_updateFirstById (t : List WorkOrder) (id : String)
    (w' w : WorkOrder) (hfind : t.find? (fun wo => wo.docId = id) = some w) :
    w' ∈ updateFirstById t id w' := by
  induction t with
  | nil => simp at hfind
  | cons a rest ih =>
    by_cases ha : a.docId = id
    · simp only [updateFirstById, if_pos ha]
      exact List.mem_cons_self _ _
    · simp only [updateFirstById, if_neg ha]
      rw [List.find?_cons_of_neg _ (by simpa using ha)] at hfind
      exact List.mem_cons_of_mem _ (ih hfind)

theorem findLastById_spec (s : List WorkOrder) (id : String) (w : WorkOrder)
    (h : findLastById s id = some w) : w ∈ s ∧ w.docId = id := by
  unfold findLastById at h
  constructor
  · exact List.mem_reverse.mp (List.mem_of_find?_eq_some h)
  · simpa using List.find?_some h

theorem updateLastById_map {β : Type} (s : List WorkOrder) (id : String)
    (w' : WorkOrder) (f : WorkOrder → β)
    (hf : ∀ w, findLastById s id = some w → f w' = f w) :
    (updateLastById s id w').map f = s.map f := by
  unfold updateLastById
  rw [List.map_reverse, updateFirstById_map _ _ _ _ hf, List.map_reverse,
    List.reverse_reverse]

theorem mem_updateLastById (s : List WorkOrder) (id : String)
    (w' w : WorkOrder) (hw : w ∈ s)
    (hne : ∀ u, findLastById s id = some u → u ≠ w) :
    w ∈ updateLastById s id w' := by
  unfold updateLastById
  rw [List.mem_reverse]
  exact mem_updateFirstById _ _ _ _ (List.mem_reverse.mpr hw) hne

theorem mem_updateLastById_weak (s : List WorkOrder) (id : String)
    (w' w : WorkOrder) (hw : w ∈ s) :
    w ∈ updateLastById s id w' ∨
      (findLastById s id = some w ∧ w' ∈ updateLastById s id w') := by
  unfold updateLastById
  rw [List.mem_reverse, List.mem_reverse]
  exact mem_updateFirstById_weak _ _ _ _ (List.mem_reverse.mpr hw)

theorem self_mem_updateLastById (s : List WorkOrder) (id : String)
    (w' w : WorkOrder) (hfind : findLastById s id = some w) :
    w' ∈ updateLastById s id w' := by
  unfold updateLastById
  rw [List.mem_reverse]
  exact self_mem_updateFirstById _ _ _ _ hfind

theorem reflowStep_cases (wcMap : List (String × WorkCenter))
    (s s' : List WorkOrder × List WorkOrderChange) (id : String)
    (h : reflowStep wcMap s id = .ok s') :
    s' = s ∨
    ∃ workOrder earliestStart wc newEnd,
      findLastById s.1 id = some workOrder ∧
      workOrder.data.isMaintenance = false ∧
      calculateEarliestStartTime workOrder s.1 wcMap = .ok earliestStart ∧
      earliestStart ≠ workOrder.data.startDate ∧
      mapGet wcMap workOrder.data.workCenterId = some wc ∧
      calculateEndDateWithShifts earliestStart workOrder.data.durationMinutes
        wc.data.shifts = .ok newEnd ∧
      s' = (updateLastById s.1 id
        { workOrder with data := { workOrder.data with
            startDate := earliestStart, endDate := newEnd } },
        s.2 ++ [⟨workOrder.docId, workOrder.data.workOrderNumber,
          workOrder.data.startDate, workOrder.data.endDate, earliestStart,
          newEnd, calculateDelayMinutes workOrder.data.endDate newEnd⟩]) := by
  unfold reflowStep at h
  cases hfind : findLastById s.1 id with
  | none =>
    simp only [hfind, pure, Except.pure, Except.ok.injEq] at h
    exact Or.inl h.symm
  | some workOrder =>
    simp only [hfind] at h
    by_cases hmaint : workOrder.data.isMaintenance
    · rw [if_pos hmaint] at h
      simp only [pure, Except.pure, Except.ok.injEq] at h
      exact Or.inl h.symm
    · rw [if_neg hmaint] at h
      cases hearl : calculateEarliestStartTime workOrder s.1 wcMap with
      | error e =>
        simp only [hearl, Bind.bind, Except.bind] at h
        exact Except.noConfusion h
      | ok earliestStart =>
        simp only [hearl, Bind.bind, Except.bind] at h
        by_cases heq : earliestStart = workOrder.data.startDate
        · rw [if_pos heq] at h
          simp only [pure, Except.pure, Except.ok.injEq] at h
          exact Or.inl h.symm
        · rw [if_neg heq] at h
          cases hwc : mapGet wcMap workOrder.data.workCenterId with
          | none =>
            simp only [hwc, throw, throwThe, MonadExceptOf.throw] at h
            exact Except.noConfusion h
          | some wc =>
            simp only [hwc] at h
            cases hcalc : calculateEndDateWithShifts earliestStart
                workOrder.data.durationMinutes wc.data.shifts with
            | error e =>
              simp only [hcalc, Bind.bind, Except.bind] at h
              exact Except.noConfusion h
            | ok newEnd =>
              simp only [hcalc, Bind.bind, Except.bind, pure, Except.pure,
                Except.ok.injEq] at h
              exact Or.inr ⟨workOrder, earliestStart, wc, newEnd, rfl,
                Bool.eq_false_iff.mpr hmaint, hearl, heq, hwc, hcalc, h.symm⟩

theorem reflowFold_inv (wcMap : List (String × WorkCenter))
    (wos0 : List WorkOrder) (sortedIds : List String)
    (s : List WorkOrder × List WorkOrderChange)
    (h : sortedIds.foldlM (reflowStep wcMap)
      (wos0, ([] : List WorkOrderChange)) = .ok s) :
    s.1.map woProj = wos0.map woProj ∧
    (∀ w ∈ wos0, w.data.isMaintenance = true → w ∈ s.1) ∧
    (∀ ch ∈ s.2, ∃ u ∈ s.1, u.docId = ch.workOrderId ∧
      u.data.isMaintenance = false ∧
      ∃ wc, mapGet wcMap u.data.workCenterId = some wc ∧
        calculateEndDateWithShifts ch.newStartDate u.data.durationMinutes
          wc.data.shifts = .ok ch.newEndDate) ∧
    (∀ w ∈ s.1, w ∈ wos0 ∨
      ∃ wc, mapGet wcMap w.data.workCenterId = some wc ∧
        calculateEndDateWithShifts w.data.startDate w.data.durationMinutes
          wc.data.shifts = .ok w.data.endDate) := by
  apply foldlM_except_inv
    (fun s : List WorkOrder × List WorkOrderChange =>
      s.1.map woProj = wos0.map woProj ∧
      (∀ w ∈ wos0, w.data.isMaintenance = true → w ∈ s.1) ∧
      (∀ ch ∈ s.2, ∃ u ∈ s.1, u.docId = ch.workOrderId ∧
        u.data.isMaintenance = false ∧
        ∃ wc, mapGet wcMap u.data.workCenterId = some wc ∧
          calculateEndDateWithShifts ch.newStartDate u.data.durationMinutes
            wc.data.shifts = .ok ch.newEndDate) ∧
      (∀ w ∈ s.1, w ∈ wos0 ∨
        ∃ wc, mapGet wcMap w.data.workCenterId = some wc ∧
          calculateEndDateWithShifts w.data.startDate w.data.durationMinutes
            wc.data.shifts = .ok w.data.endDate))
    _ sortedIds ?_ _ s
    ⟨rfl, fun w hw _ => hw, fun ch hch => absurd hch (List.not_mem_nil ch),
      fun w hw => Or.inl hw⟩ h
  intro t id t' _ hP hok
  obtain ⟨hproj, hmaint, hch, hcons⟩ := hP
  rcases reflowStep_cases wcMap t t' id hok with rfl | hstep
  · exact ⟨hproj, hmaint, hch, hcons⟩
  obtain ⟨workOrder, earliestStart, wc, newEnd, hfind, hwomaint, _, _, hwc,
    hcalc, ht'⟩ := hstep
  set wo1 : WorkOrder := { workOrder with data := { workOrder.data with
    startDate := earliestStart, endDate := newEnd } } with hwo1
  have hprojeq : woProj wo1 = woProj workOrder := by rw [hwo1]; rfl
  have hfindeq : ∀ w, findLastById t.1 id = some w → w = workOrder := by
    intro w hw
    rw [hfind] at hw
    injection hw with hw
    exact hw.symm
  rw [ht']
  refine ⟨?_, ?_, ?_, ?_⟩
  · simp only
    rw [updateLastById_map _ _ _ _ (fun w hw => by
      rw [hfindeq w hw, hprojeq])]
    exact hproj
  · intro w hw hwm
    simp only
    apply mem_updateLastById _ _ _ _ (hmaint w hw hwm)
    intro u hu
    rw [hfindeq u hu]
    intro huw
    rw [huw] at hwomaint
    rw [hwm] at hwomaint
    exact Bool.noConfusion hwomaint
  · intro ch hchm
    simp only at hchm ⊢
    rcases List.mem_append.mp hchm with hold | hnew
    · obtain ⟨u, hu, hud, hum, wc2, hwc2, hcalc2⟩ := hch ch hold
      rcases mem_updateLastById_weak t.1 id wo1 u hu with hmem | ⟨hfindu, hmem⟩
      · exact ⟨u, hmem, hud, hum, wc2, hwc2, hcalc2⟩
      · have hueq := hfindeq u hfindu
        subst hueq
        refine ⟨wo1, hmem, ?_⟩
        rw [hwo1]
        exact ⟨hud, hum, wc2, hwc2, hcalc2⟩
    · rw [List.mem_singleton.mp hnew]
      refine ⟨wo1, self_mem_updateLastById _ _ _ _ hfind, ?_⟩
      rw [hwo1]
      exact ⟨rfl, hwomaint, wc, hwc, hcalc⟩
  · intro w hw
    simp only at hw
    by_cases hweq : w = wo1
    · right
      refine ⟨wc, ?_, ?_⟩
      · rw [hweq, hwo1]; exact hwc
      · rw [hweq, hwo1]; exact hcalc
    · -- w survives from the previous state
      have hwold : w ∈ t.1 := by
        unfold updateLastById at hw
        rw [List.mem_reverse] at hw
        have : ∀ (tt : List WorkOrder) (ww : WorkOrder),
            ww ∈ updateFirstById tt id wo1 → ww ∈ tt ∨ ww = wo1 := by
          intro tt
          induction tt with
          | nil => intro ww hww; exact absurd hww (List.not_mem_nil ww)
          | cons a rest ih =>
            intro ww hww
            by_cases ha : a.docId = id
            · simp only [updateFirstById, if_pos ha] at hww
              rcases List.mem_cons.mp hww with rfl | hww2
              · exact Or.inr rfl
              · exact Or.inl (List.mem_cons_of_mem _ hww2)
            · simp only [updateFirstById, if_neg ha] at hww
              rcases List.mem_cons.mp hww with rfl | hww2
              · exact Or.inl (List.mem_cons_self _ _)
              · rcases ih ww hww2 with h1 | h1
                · exact Or.inl (List.mem_cons_of_mem _ h1)
                · exact Or.inr h1
        rcases this t.1.reverse w hw with h1 | h1
        · exact List.mem_reverse.mp h1
        · exact absurd h1 hweq
      exact hcons w hwold

/-- Claim C5 (confirmed): on every input on which `reflow` returns, every
maintenance work order appears in `updatedWorkOrders` exactly as in the
input (in particular with identical `startDate` and `endDate`), and no
change record carries its id. -/
theorem c5_maintenance_unchanged (input : ReflowInput) (r : ReflowResult)
    (h : reflow input = .ok r) :
    ∀ wo ∈ input.workOrders, wo.data.isMaintenance = true →
      wo ∈ r.updatedWorkOrders ∧
      ∀ ch ∈ r.changes, ch.workOrderId ≠ wo.docId := by
  obtain ⟨sortedIds, s, htopo, hfold, _, hr⟩ := reflow_ok_inv input r h
  obtain ⟨hproj, hmaint, hch, _⟩ := reflowFold_inv _ _ _ _ hfold
  have hnodup := (topologicalSort_ok_nodup _ _ htopo).1
  intro wo hwo hwm
  subst hr
  refine ⟨hmaint wo hwo hwm, ?_⟩
  intro ch hchm heq
  obtain ⟨u, hu, hud, hum, _⟩ := hch ch hchm
  have hwos : wo ∈ s.1 := hmaint wo hwo hwm
  have hids : s.1.map (fun w => w.docId) =
      input.workOrders.map (fun w => w.docId) := by
    have h2 := congrArg (List.map
      (fun t : String × String × String × String × Nat × Bool × List String =>
        t.1)) hproj
    simpa [List.map_map, Function.comp, woProj] using h2
  have hnodups : (s.1.map (fun w => w.docId)).Nodup := by
    rw [hids]
    rw [docIds] at hnodup
    exact hnodup
  have huw : u = wo := by
    apply List.inj_on_of_nodup_map hnodups hu hwos
    rw [hud, heq]
  rw [huw, hwm] at hum
  exact Bool.noConfusion hum

theorem c5_maintenance_unchanged_witness :
    woM ∈ (reflowOk inputWitness).updatedWorkOrders ∧
    ∀ ch ∈ (reflowOk inputWitness).changes, ch.workOrderId ≠ woM.docId :=
  c5_maintenance_unchanged inputWitness (reflowOk inputWitness) (by rfl)
    woM (by decide) (by decide)

theorem mapGet_mapOfList {α : Type} (l : List (String × α)) (k : String) :
    mapGet (mapOfList l) k = mapGet l.reverse k := by
  unfold mapOfList
  rw [foldl_mapSet_get Prod.fst Prod.snd]
  unfold mapGet
  cases hfind : l.reverse.find? (fun p => p.1 = k) with
  | none => simp
  | some p => simp

theorem mapGet_reverse_of_nodup {α : Type} (l : List (String × α))
    (hnd : (l.map Prod.fst).Nodup) (k : String) :
    mapGet l.reverse k = mapGet l k := by
  have hndr : (l.reverse.map Prod.fst).Nodup := by
    rw [List.map_reverse]
    exact List.nodup_reverse.mpr hnd
  cases hfind : mapGet l k with
  | some v =>
    have hmem := mapGet_mem _ _ _ hfind
    exact mapGet_of_mem_nodup _ _ _ hndr (List.mem_reverse.mpr hmem)
  | none =>
    unfold mapGet at *
    cases hf2 : l.reverse.find? (fun p => p.1 = k) with
    | none => simp
    | some p =>
      have hmem := List.mem_of_find?_eq_some hf2
      have hp := List.find?_some hf2
      rw [List.mem_reverse] at hmem
      cases hl : l.find? (fun p => p.1 = k) with
      | some q => rw [hl] at hfind; exact Option.noConfusion hfind
      | none =>
        rw [List.find?_eq_none] at hl
        exact absurd hp (by simpa using hl p hmem)

theorem mem_allPairs {α : Type} (l : List α) (a b : α) (ha : a ∈ l)
    (hb : b ∈ l) (hne : a ≠ b) :
    (a, b) ∈ allPairs l ∨ (b, a) ∈ allPairs l := by
  induction l with
  | nil => exact absurd ha (List.not_mem_nil a)
  | cons x xs ih =>
    simp only [allPairs, List.mem_append]
    rcases List.mem_cons.mp ha with rfl | ha2
    · left; left
      rcases List.mem_cons.mp hb with rfl | hb2
      · exact absurd rfl hne
      · exact List.mem_map.mpr ⟨b, hb2, rfl⟩
    · rcases List.mem_cons.mp hb with rfl | hb2
      · right; left
        exact List.mem_map.mpr ⟨a, ha2, rfl⟩
      · rcases ih ha2 hb2 with h | h
        · left; right; exact h
        · right; right; exact h

theorem timeRangesOverlap_symm (s1 e1 s2 e2 : DateStr) :
    timeRangesOverlap s1 e1 s2 e2 = timeRangesOverlap s2 e2 s1 e1 := by
  unfold timeRangesOverlap
  rw [Bool.and_comm]

theorem groupByWorkCenter_mem :
    ∀ (wos : List WorkOrder) (m : List (String × List WorkOrder))
      (wo : WorkOrder),
    (wo ∈ wos ∨ (∃ l, mapGet m wo.data.workCenterId = some l ∧ wo ∈ l)) →
    ∃ l, mapGet (wos.foldl (fun g w =>
        match mapGet g w.data.workCenterId with
        | some l => mapSet g w.data.workCenterId (l ++ [w])
        | none => mapSet g w.data.workCenterId [w]) m)
      wo.data.workCenterId = some l ∧ wo ∈ l := by
  intro wos
  induction wos with
  | nil =>
    intro m wo h
    rcases h with h | h
    · exact absurd h (List.not_mem_nil wo)
    · exact h
  | cons x xs ih =>
    intro m wo h
    simp only [List.foldl_cons]
    apply ih
    by_cases hwx : wo = x
    · subst hwx
      right
      cases hget : mapGet m wo.data.workCenterId with
      | some l =>
        exact ⟨l ++ [wo], by rw [mapGet_mapSet_self], by simp⟩
      | none =>
        exact ⟨[wo], by rw [mapGet_mapSet_self], by simp⟩
    · rcases h with h | h
      · rcases List.mem_cons.mp h with h2 | h2
        · exact absurd h2 hwx
        · left; exact h2
      · obtain ⟨l, hl, hwl⟩ := h
        right
        by_cases hsame : wo.data.workCenterId = x.data.workCenterId
        · cases hget : mapGet m x.data.workCenterId with
          | some l2 =>
            refine ⟨l2 ++ [x], by rw [hsame, mapGet_mapSet_self], ?_⟩
            rw [hsame] at hl
            rw [hget] at hl
            injection hl with hl
            subst hl
            exact List.mem_append_left _ hwl
          | none =>
            rw [hsame, hget] at hl
            exact Option.noConfusion hl
        · cases hget : mapGet m x.data.workCenterId with
          | some l2 =>
            exact ⟨l, by rw [mapGet_mapSet_ne _ _ _ _ hsame]; exact hl, hwl⟩
          | none =>
            exact ⟨l, by rw [mapGet_mapSet_ne _ _ _ _ hsame]; exact hl, hwl⟩

/-- Claim C1, amended (proved): on every input on which `reflow` returns
without throwing, the returned schedule satisfies: (i) every work order
starts no earlier than each parent's `endDate` *in the ISO-string order
the validator uses* (which coincides with the temporal order whenever the
two date strings share a textual form — only sub-second differences
between mixed forms can escape it, see the counterexample); (ii) any two
distinct work orders on the same work center have disjoint half-open
instant intervals; (iii) no work order's interval overlaps a maintenance
window of its work center. -/
theorem c1_valid_schedule (input : ReflowInput) (r : ReflowResult)
    (h : reflow input = .ok r) :
    (∀ child ∈ r.updatedWorkOrders, ∀ parent ∈ r.updatedWorkOrders,
      parent.docId ∈ child.data.dependsOnWorkOrderIds →
      ¬ strLt child.data.startDate parent.data.endDate) ∧
    (∀ a ∈ r.updatedWorkOrders, ∀ b ∈ r.updatedWorkOrders, a ≠ b →
      a.data.workCenterId = b.data.workCenterId →
      timeRangesOverlap a.data.startDate a.data.endDate
        b.data.startDate b.data.endDate = false) ∧
    (∀ wo ∈ r.updatedWorkOrders, ∀ wc,
      mapGet (mapOfList (input.workCenters.map (fun wc => (wc.docId, wc))))
        wo.data.workCenterId = some wc →
      overlapsWithMaintenance wo.data.startDate wo.data.endDate
        wc.data.maintenanceWindows = false) := by
  obtain ⟨sortedIds, s, htopo, hfold, hval, hr⟩ := reflow_ok_inv input r h
  obtain ⟨g, _, _, hdep, hconf, _, hmaintv⟩ := validateAll_ok_nil _ _ hval
  obtain ⟨hproj, _, _, _⟩ := reflowFold_inv _ _ _ _ hfold
  have hnodup := (topologicalSort_ok_nodup _ _ htopo).1
  have hids : s.1.map (fun w => w.docId) =
      input.workOrders.map (fun w => w.docId) := by
    have h2 := congrArg (List.map
      (fun t : String × String × String × String × Nat × Bool × List String =>
        t.1)) hproj
    simpa [List.map_map, Function.comp, woProj] using h2
  have hnodups : (s.1.map (fun w => w.docId)).Nodup := by
    rw [hids]
    rw [docIds] at hnodup
    exact hnodup
  subst hr
  refine ⟨?_, ?_, ?_⟩
  · -- dependency order (string comparison)
    intro child hc parent hp hdep2 hlt
    have hpairnd : ((s.1.map (fun wo => (wo.docId, wo))).map Prod.fst).Nodup := by
      rw [List.map_map]
      exact hnodups
    have hget : mapGet (mapOfList (s.1.map (fun wo => (wo.docId, wo))))
        parent.docId = some parent := by
      rw [mapGet_mapOfList, mapGet_reverse_of_nodup _ hpairnd]
      exact mapGet_of_mem_nodup _ _ _ hpairnd
        (List.mem_map.mpr ⟨parent, hp, rfl⟩)
    have hmem : (⟨.DEPENDENCY_VIOLATION, [child.docId, parent.docId]⟩ :
        ValidationError) ∈ validateDependencies s.1 :=
      (validateDependencies_mem_iff _ _).mpr
        ⟨child, hc, parent.docId, hdep2, parent, hget, hlt, rfl⟩
    rw [hdep] at hmem
    exact absurd hmem (List.not_mem_nil _)
  · -- work-center disjointness (instants)
    intro a ha b hb hne hsame
    by_cases hov : timeRangesOverlap a.data.startDate a.data.endDate
        b.data.startDate b.data.endDate = false
    · exact hov
    · exfalso
      rw [Bool.not_eq_false] at hov
      obtain ⟨la, hla, hal⟩ := groupByWorkCenter_mem s.1 [] a (Or.inl ha)
      obtain ⟨lb, hlb, hbl⟩ := groupByWorkCenter_mem s.1 [] b (Or.inl hb)
      rw [hsame] at hla
      rw [hla] at hlb
      injection hlb with hlab
      subst hlab
      have hgroups : (b.data.workCenterId, la) ∈ groupByWorkCenter s.1 :=
        mapGet_mem _ _ _ hla
      have hpair := mem_allPairs la a b hal hbl hne
      have hmem : (⟨.WORK_CENTER_CONFLICT, [a.docId, b.docId]⟩ :
            ValidationError) ∈ validateWorkCenterConflicts s.1 ∨
          (⟨.WORK_CENTER_CONFLICT, [b.docId, a.docId]⟩ :
            ValidationError) ∈ validateWorkCenterConflicts s.1 := by
        unfold validateWorkCenterConflicts
        rcases hpair with hp | hp
        · left
          rw [List.mem_flatMap]
          refine ⟨(b.data.workCenterId, la), hgroups, ?_⟩
          rw [List.mem_filterMap]
          exact ⟨(a, b), hp, by rw [if_pos hov]⟩
        · right
          rw [List.mem_flatMap]
          refine ⟨(b.data.workCenterId, la), hgroups, ?_⟩
          rw [List.mem_filterMap]
          refine ⟨(b, a), hp, ?_⟩
          rw [timeRangesOverlap_symm] at hov
          rw [if_pos hov]
      rw [hconf] at hmem
      rcases hmem with hmem | hmem <;> exact absurd hmem (List.not_mem_nil _)
  · -- maintenance windows (instants)
    intro wo hwo wc hwc
    by_cases hov : overlapsWithMaintenance wo.data.startDate wo.data.endDate
        wc.data.maintenanceWindows = false
    · exact hov
    · exfalso
      rw [Bool.not_eq_false] at hov
      have hmem : (⟨.MAINTENANCE_CONFLICT, [wo.docId]⟩ : ValidationError) ∈
          validateMaintenanceWindows s.1 input.workCenters := by
        unfold validateMaintenanceWindows
        rw [List.mem_flatMap]
        refine ⟨wo, hwo, ?_⟩
        simp only [hwc, hov, if_true]
        simp
      rw [hmaintv] at hmem
      exact absurd hmem (List.not_mem_nil _)

theorem c1_valid_schedule_witness :
    (∀ child ∈ (reflowOk inputWitness).updatedWorkOrders,
      ∀ parent ∈ (reflowOk inputWitness).updatedWorkOrders,
      parent.docId ∈ child.data.dependsOnWorkOrderIds →
      ¬ strLt child.data.startDate parent.data.endDate) ∧
    (∀ a ∈ (reflowOk inputWitness).updatedWorkOrders,
      ∀ b ∈ (reflowOk inputWitness).updatedWorkOrders, a ≠ b →
      a.data.workCenterId = b.data.workCenterId →
      timeRangesOverlap a.data.startDate a.data.endDate
        b.data.startDate b.data.endDate = false) ∧
    (∀ wo ∈ (reflowOk inputWitness).updatedWorkOrders, ∀ wc,
      mapGet (mapOfList (inputWitness.workCenters.map
          (fun wc => (wc.docId, wc))))
        wo.data.workCenterId = some wc →
      overlapsWithMaintenance wo.data.startDate wo.data.endDate
        wc.data.maintenanceWindows = false) :=
  c1_valid_schedule inputWitness (reflowOk inputWitness) (by rfl)

theorem c8_metrics_witness :
    (reflowOk inputWitness).metrics.totalDelayMinutes =
      ((reflowOk inputWitness).changes.map
        (fun c => max 0 c.delayMinutes)).sum ∧
    (reflowOk inputWitness).metrics.workOrdersAffected =
      (reflowOk inputWitness).changes.length ∧
    (∀ wc ∈ inputWitness.workCenters, weeklyShiftMinutes wc = 0 →
      utilizationFor (reflowOk inputWitness).updatedWorkOrders wc = 0) ∧
    (∀ wc ∈ inputWitness.workCenters, ∃ wc2 ∈ inputWitness.workCenters,
      wc2.docId = wc.docId ∧
      mapGet (reflowOk inputWitness).metrics.workCenterUtilization wc.docId =
        some (utilizationFor (reflowOk inputWitness).updatedWorkOrders wc2)) :=
  c8_metrics inputWitness (reflowOk inputWitness) (by rfl)

theorem c4_dependency_check_witness :
    (⟨.DEPENDENCY_VIOLATION, ["c1", "p1"]⟩ : ValidationError) ∈
      validateDependencies inputC9.workOrders :=
  ((c4_dependency_check inputC9.workOrders "c1" "p1").1).mpr
    ⟨⟨"c1", ⟨"WO-C1", "mo1", "wc1", ⟨tue 12 0, true⟩, ⟨tue 14 0, true⟩,
        120, false, ["p1"]⟩⟩, by decide, "p1", by decide,
      ⟨"p1", ⟨"WO-P1", "mo1", "wc1", ⟨tue 8 0, true⟩, ⟨tue 12 0, false⟩,
        240, false, []⟩⟩, by decide, rfl, rfl, by decide⟩

theorem strLt_irrefl (a : DateStr) : ¬ strLt a a := by
  unfold strLt
  simp

theorem strLt_trans (a b c : DateStr) (hab : strLt a b) (hbc : strLt b c) :
    strLt a c := by
  unfold strLt at *
  cases ha : a.hasMillis <;> cases hb : b.hasMillis <;> cases hc : c.hasMillis <;>
    simp_all <;> omega

theorem foldl_strMin_spec (l : List (DateStr × DateStr)) (init : DateStr) :
    ((l.foldl (fun earliest p => if strLt p.2 earliest then p.2 else earliest)
        init) = init ∨
      (l.foldl (fun earliest p => if strLt p.2 earliest then p.2 else earliest)
        init) ∈ l.map Prod.snd) ∧
    ((l.foldl (fun earliest p => if strLt p.2 earliest then p.2 else earliest)
        init) = init ∨
      strLt (l.foldl (fun earliest p => if strLt p.2 earliest then p.2
        else earliest) init) init) ∧
    (∀ p ∈ l, ¬ strLt p.2
      (l.foldl (fun earliest p => if strLt p.2 earliest then p.2 else earliest)
        init)) := by
  induction l generalizing init with
  | nil =>
    refine ⟨Or.inl rfl, Or.inl rfl, ?_⟩
    intro p hp
    exact absurd hp (List.not_mem_nil p)
  | cons p l ih =>
    simp only [List.foldl_cons]
    by_cases hp : strLt p.2 init
    · rw [if_pos hp]
      obtain ⟨m1, m2, m3⟩ := ih p.2
      refine ⟨?_, ?_, ?_⟩
      · rcases m1 with h | h
        · right; rw [h]; exact List.mem_map.mpr ⟨p, List.mem_cons_self _ _, rfl⟩
        · right; rw [List.map_cons]; exact List.mem_cons_of_mem _ h
      · rcases m2 with h | h
        · right; rw [h]; exact hp
        · right; exact strLt_trans _ _ _ h hp
      · intro q hq
        rcases List.mem_cons.mp hq with rfl | hq2
        · rcases m2 with h | h
          · rw [h]; exact strLt_irrefl _
          · intro hcon
            exact strLt_irrefl _ (strLt_trans _ _ _ h hcon)
        · exact m3 q hq2
    · rw [if_neg hp]
      obtain ⟨m1, m2, m3⟩ := ih init
      refine ⟨?_, ?_, ?_⟩
      · rcases m1 with h | h
        · exact Or.inl h
        · right; rw [List.map_cons]; exact List.mem_cons_of_mem _ h
      · exact m2
      · intro q hq
        rcases List.mem_cons.mp hq with rfl | hq2
        · intro hcon
          rcases m2 with h | h
          · rw [h] at hcon; exact hp hcon
          · exact hp (strLt_trans _ _ _ hcon h)
        · exact m3 q hq2

/-- Claim C10, amended (proved): in the slot search every other work order
on the same work center — maintenance flag ignored — is a blocker:
`isSlotAvailable` is false exactly when some such work order's stored
interval (or a maintenance window) overlaps the candidate;
`findNextPotentialStart` advances to the least blocking end *in ISO-string
order* (the temporally earliest end whenever the date strings share a
textual form), returning one of the blocking ends, and advances by one
hour when no blocker overlaps the candidate interval. -/
theorem c10_slot_search (cs ce : DateStr) (wo : WorkOrder)
    (wos : List WorkOrder) (wc : WorkCenter) :
    (isSlotAvailable cs ce wo wos wc = false ↔
      (∃ other ∈ wos, other.docId ≠ wo.docId ∧
        other.data.workCenterId = wo.data.workCenterId ∧
        timeRangesOverlap cs ce other.data.startDate other.data.endDate
          = true) ∨
      overlapsWithMaintenance cs ce wc.data.maintenanceWindows = true) ∧
    (∀ other ∈ wos, other.docId ≠ wo.docId →
      other.data.workCenterId = wo.data.workCenterId →
      timeRangesOverlap cs ce other.data.startDate other.data.endDate
        = true →
      ¬ strLt other.data.endDate (findNextPotentialStart cs ce wo wos wc)) ∧
    (∀ w ∈ wc.data.maintenanceWindows,
      timeRangesOverlap cs ce w.startDate w.endDate = true →
      ¬ strLt w.endDate (findNextPotentialStart cs ce wo wos wc)) ∧
    (findNextPotentialStart cs ce wo wos wc = ⟨cs.ms + msPerHour, true⟩ ∨
      (∃ other ∈ wos, other.docId ≠ wo.docId ∧
        other.data.workCenterId = wo.data.workCenterId ∧
        timeRangesOverlap cs ce other.data.startDate other.data.endDate
          = true ∧
        findNextPotentialStart cs ce wo wos wc = other.data.endDate) ∨
      (∃ w ∈ wc.data.maintenanceWindows,
        timeRangesOverlap cs ce w.startDate w.endDate = true ∧
        findNextPotentialStart cs ce wo wos wc = w.endDate)) ∧
    ((∀ other ∈ wos, other.docId ≠ wo.docId →
        other.data.workCenterId = wo.data.workCenterId →
        timeRangesOverlap cs ce other.data.startDate other.data.endDate
          = false) →
      (∀ w ∈ wc.data.maintenanceWindows,
        timeRangesOverlap cs ce w.startDate w.endDate = false) →
      findNextPotentialStart cs ce wo wos wc = ⟨cs.ms + msPerHour, true⟩) := by
  have hbpmem : ∀ q : DateStr × DateStr,
      q ∈ (wos.filterMap (fun w =>
        if w.docId ≠ wo.docId ∧
            w.data.workCenterId = wo.data.workCenterId ∧
            timeRangesOverlap cs ce w.data.startDate w.data.endDate = true then
          some (w.data.startDate, w.data.endDate)
        else none)) ++
        (wc.data.maintenanceWindows.filterMap (fun w =>
          if timeRangesOverlap cs ce w.startDate w.endDate = true then
            some (w.startDate, w.endDate)
          else none)) ↔
      ((∃ other ∈ wos, other.docId ≠ wo.docId ∧
        other.data.workCenterId = wo.data.workCenterId ∧
        timeRangesOverlap cs ce other.data.startDate other.data.endDate
          = true ∧ q = (other.data.startDate, other.data.endDate)) ∨
      (∃ w ∈ wc.data.maintenanceWindows,
        timeRangesOverlap cs ce w.startDate w.endDate = true ∧
        q = (w.startDate, w.endDate))) := by
    intro q
    rw [List.mem_append, List.mem_filterMap, List.mem_filterMap]
    constructor
    · rintro (⟨w, hw, hq⟩ | ⟨w, hw, hq⟩)
      · by_cases hcond : w.docId ≠ wo.docId ∧
            w.data.workCenterId = wo.data.workCenterId ∧
            timeRangesOverlap cs ce w.data.startDate w.data.endDate = true
        · rw [if_pos hcond] at hq
          injection hq with hq
          exact Or.inl ⟨w, hw, hcond.1, hcond.2.1, hcond.2.2, hq.symm⟩
        · rw [if_neg hcond] at hq
          exact absurd hq (by simp)
      · by_cases hcond : timeRangesOverlap cs ce w.startDate w.endDate = true
        · rw [if_pos hcond] at hq
          injection hq with hq
          exact Or.inr ⟨w, hw, hcond, hq.symm⟩
        · rw [if_neg hcond] at hq
          exact absurd hq (by simp)
    · rintro (⟨w, hw, h1, h2, h3, rfl⟩ | ⟨w, hw, h1, rfl⟩)
      · exact Or.inl ⟨w, hw, by rw [if_pos ⟨h1, h2, h3⟩]⟩
      · exact Or.inr ⟨w, hw, by rw [if_pos h1]⟩
  refine ⟨?_, ?_⟩
  · -- availability
    unfold isSlotAvailable
    dsimp only
    constructor
    · intro hfalse
      by_cases hconf : (wos.filter (fun w =>
          (!decide (w.docId = wo.docId)) &&
            decide (w.data.workCenterId = wo.data.workCenterId) &&
            timeRangesOverlap cs ce w.data.startDate w.data.endDate)).length > 0
      · left
        cases hfl : wos.filter (fun w =>
            (!decide (w.docId = wo.docId)) &&
              decide (w.data.workCenterId = wo.data.workCenterId) &&
              timeRangesOverlap cs ce w.data.startDate w.data.endDate) with
        | nil => rw [hfl] at hconf; simp at hconf
        | cons w ws =>
          have hw : w ∈ wos.filter (fun w =>
              (!decide (w.docId = wo.docId)) &&
                decide (w.data.workCenterId = wo.data.workCenterId) &&
                timeRangesOverlap cs ce w.data.startDate w.data.endDate) := by
            rw [hfl]
            exact List.mem_cons_self _ _
          have hwm := List.mem_of_mem_filter hw
          have hwp := List.of_mem_filter hw
          simp only [Bool.and_eq_true, Bool.not_eq_true',
            decide_eq_false_iff_not, decide_eq_true_eq] at hwp
          exact ⟨w, hwm, hwp.1.1, hwp.1.2, hwp.2⟩
      · rw [if_neg hconf] at hfalse
        by_cases hov : overlapsWithMaintenance cs ce
            wc.data.maintenanceWindows = true
        · exact Or.inr hov
        · rw [if_neg hov] at hfalse
          exact absurd hfalse (by simp)
    · rintro (⟨w, hw, h1, h2, h3⟩ | hov)
      · have hwf : w ∈ wos.filter (fun w =>
            (!decide (w.docId = wo.docId)) &&
              decide (w.data.workCenterId = wo.data.workCenterId) &&
              timeRangesOverlap cs ce w.data.startDate w.data.endDate) :=
          List.mem_filter.mpr ⟨hw, by simp [h1, h2, h3]⟩
        rw [if_pos (List.length_pos_of_mem hwf)]
      · by_cases hconf : (wos.filter (fun w =>
            (!decide (w.docId = wo.docId)) &&
              decide (w.data.workCenterId = wo.data.workCenterId) &&
              timeRangesOverlap cs ce w.data.startDate w.data.endDate)).length > 0
        · rw [if_pos hconf]
        · rw [if_neg hconf, if_pos hov]
  · -- findNextPotentialStart
    unfold findNextPotentialStart
    cases hbps : (wos.filterMap (fun w =>
        if w.docId ≠ wo.docId ∧
            w.data.workCenterId = wo.data.workCenterId ∧
            timeRangesOverlap cs ce w.data.startDate w.data.endDate = true then
          some (w.data.startDate, w.data.endDate)
        else none)) ++
        (wc.data.maintenanceWindows.filterMap (fun w =>
          if timeRangesOverlap cs ce w.startDate w.endDate = true then
            some (w.startDate, w.endDate)
          else none)) with
    | nil =>
      simp only [hbps]
      refine ⟨?_, ?_, Or.inl trivial, fun _ _ => trivial⟩
      · intro other hmem h1 h2 h3 _
        have : (other.data.startDate, other.data.endDate) ∈ ([] :
            List (DateStr × DateStr)) := by
          rw [← hbps, hbpmem]
          exact Or.inl ⟨other, hmem, h1, h2, h3, rfl⟩
        exact absurd this (List.not_mem_nil _)
      · intro w hmem h1 _
        have : (w.startDate, w.endDate) ∈ ([] : List (DateStr × DateStr)) := by
          rw [← hbps, hbpmem]
          exact Or.inr ⟨w, hmem, h1, rfl⟩
        exact absurd this (List.not_mem_nil _)
    | cons b rest =>
      simp only [hbps]
      obtain ⟨m1, _, m3⟩ := foldl_strMin_spec (b :: rest) b.2
      refine ⟨?_, ?_, ?_, ?_⟩
      · intro other hmem h1 h2 h3
        exact m3 (other.data.startDate, other.data.endDate)
          (by rw [← hbps, hbpmem]; exact Or.inl ⟨other, hmem, h1, h2, h3, rfl⟩)
      · intro w hmem h1
        exact m3 (w.startDate, w.endDate)
          (by rw [← hbps, hbpmem]; exact Or.inr ⟨w, hmem, h1, rfl⟩)
      · -- the result is one of the blocking ends
        have hres : ((b :: rest).foldl
            (fun earliest p => if strLt p.2 earliest then p.2 else earliest)
            b.2) ∈ (b :: rest).map Prod.snd := by
          rcases m1 with h | h
          · rw [h, List.map_cons]
            exact List.mem_cons_self _ _
          · exact h
        rw [List.mem_map] at hres
        obtain ⟨q, hq, hqe⟩ := hres
        rw [← hbps, hbpmem] at hq
        rcases hq with ⟨w, hw, h1, h2, h3, rfl⟩ | ⟨w, hw, h1, rfl⟩
        · right; left
          exact ⟨w, hw, h1, h2, h3, hqe.symm⟩
        · right; right
          exact ⟨w, hw, h1, hqe.symm⟩
      · -- no blocker: contradiction with nonempty list
        intro hno hnm
        exfalso
        have : b ∈ (b :: rest) := List.mem_cons_self _ _
        rw [← hbps, hbpmem] at this
        rcases this with ⟨w, hw, h1, h2, h3, _⟩ | ⟨w, hw, h1, _⟩
        · rw [hno w hw h1 h2] at h3
          exact Bool.noConfusion h3
        · rw [hnm w hw] at h1
          exact Bool.noConfusion h1

/-- Claim C10, witness: at the counterexample configuration the amended
minimality holds — no overlapping blocker ends strictly below the
returned candidate in the string order. -/
theorem c10_slot_search_witness :
    ¬ strLt woBlock2.data.endDate
      (findNextPotentialStart ⟨tue 8 0, true⟩ ⟨tue 9 30, true⟩ woT
        [woT, woBlock1, woBlock2] wcTue) :=
  (c10_slot_search ⟨tue 8 0, true⟩ ⟨tue 9 30, true⟩ woT
      [woT, woBlock1, woBlock2] wcTue).2.1 woBlock2 (by decide) (by decide)
    (by decide) (by decide)

/-! ### Cycle-detection completeness -/

theorem depEdge_src_mem (g : DepGraph) (a b : String) (h : depEdge g a b) :
    a ∈ g.map Prod.fst := by
  unfold depEdge at h
  cases hm : mapGet g a with
  | none => rw [hm] at h; exact h.elim
  | some node =>
    exact List.mem_map.mpr ⟨(a, node), mapGet_mem g a node hm, rfl⟩

theorem blackClosed_reach (g : DepGraph) (c : ColorMap)
    (hbc : blackClosed g c) (a b : String)
    (h : Relation.ReflTransGen (depEdge g) a b)
    (ha : mapGet c a = some 2) : mapGet c b = some 2 := by
  induction h with
  | refl => exact ha
  | tail _ hstep ih => exact hbc _ _ hstep ih

theorem colorsStep_refl (g : DepGraph) (c : ColorMap) : colorsStep g c c :=
  ⟨fun _ h => h, fun _ => Iff.rfl, fun _ => rfl, id, id, id⟩

theorem colorsStep_trans (g : DepGraph) (c1 c2 c3 : ColorMap)
    (h1 : colorsStep g c1 c2) (h2 : colorsStep g c2 c3) :
    colorsStep g c1 c3 :=
  ⟨fun id h => h2.1 id (h1.1 id h),
   fun id => (h2.2.1 id).trans (h1.2.1 id),
   fun id => (h2.2.2.1 id).trans (h1.2.2.1 id),
   fun h => h2.2.2.2.1 (h1.2.2.2.1 h),
   fun h => h2.2.2.2.2.1 (h1.2.2.2.2.1 h),
   fun h => h2.2.2.2.2.2 (h1.2.2.2.2.2 h)⟩

theorem colorsDom_of_step (g : DepGraph) (c c1 : ColorMap)
    (h : colorsStep g c c1) (hd : colorsDom g c) : colorsDom g c1 := by
  intro k
  rw [h.2.2.1 k]
  exact hd k

/-- Graying a WHITE node preserves the four color invariants. -/
theorem mapSet_gray_invs (g : DepGraph) (c : ColorMap) (n : String)
    (hwhite : mapGet c n = some 0) (hdom : colorsDom g c)
    (hval : colorsVal c) (hbc : blackClosed g c) (hcs : cycleSafe g c) :
    colorsDom g (mapSet c n 1) ∧ colorsVal (mapSet c n 1) ∧
      blackClosed g (mapSet c n 1) ∧ cycleSafe g (mapSet c n 1) := by
  have hnmem : n ∈ g.map Prod.fst := (hdom n).mp (by rw [hwhite]; rfl)
  refine ⟨?_, ?_, ?_, ?_⟩
  · intro k
    by_cases hk : k = n
    · subst hk
      rw [mapGet_mapSet_self]
      simpa using hnmem
    · rw [mapGet_mapSet_ne _ _ _ _ hk]
      exact hdom k
  · intro k v hk
    by_cases hkn : k = n
    · subst hkn
      rw [mapGet_mapSet_self] at hk
      injection hk with hk
      omega
    · rw [mapGet_mapSet_ne _ _ _ _ hkn] at hk
      exact hval k v hk
  · intro a b hedge hblack
    by_cases han : a = n
    · subst han
      rw [mapGet_mapSet_self] at hblack
      exact absurd hblack (by simp)
    · rw [mapGet_mapSet_ne _ _ _ _ han] at hblack
      have hb := hbc a b hedge hblack
      have hbn : b ≠ n := by
        intro hcon
        rw [hcon, hwhite] at hb
        exact absurd hb (by simp)
      rw [mapGet_mapSet_ne _ _ _ _ hbn]
      exact hb
  · intro a hcyc
    by_cases han : a = n
    · subst han
      rw [mapGet_mapSet_self]
      simp
    · rw [mapGet_mapSet_ne _ _ _ _ han]
      exact hcs a hcyc

/-- The initial color map of `detectCycles`: every key WHITE. -/
theorem mapGet_foldl_zero (g : DepGraph) (m : ColorMap) (k : String) :
    mapGet (g.foldl (fun acc p => mapSet acc p.1 0) m) k =
      if k ∈ g.map Prod.fst then some 0 else mapGet m k := by
  induction g generalizing m with
  | nil => simp
  | cons p g ih =>
    simp only [List.foldl_cons, List.map_cons, List.mem_cons]
    rw [ih]
    by_cases hk : k ∈ g.map Prod.fst
    · rw [if_pos hk, if_pos (Or.inr hk)]
    · rw [if_neg hk]
      by_cases hpk : k = p.1
      · rw [if_pos (Or.inl hpk), hpk, mapGet_mapSet_self]
      · rw [if_neg (by tauto), mapGet_mapSet_ne _ _ _ _ hpk]

theorem dfsLoop_cons_gray (visit : String → List String → ColorMap →
      Bool × ColorMap × List String)
    (path : List String) (p : String) (ps : List String) (c : ColorMap)
    (hcol : mapGet c p = some 1) :
    dfsLoop visit path (p :: ps) c = (true, c, path ++ [p]) := by
  simp only [dfsLoop]
  rw [hcol]

theorem dfsLoop_cons_white (visit : String → List String → ColorMap →
      Bool × ColorMap × List String)
    (path : List String) (p : String) (ps : List String) (c : ColorMap)
    (hcol : mapGet c p = some 0) :
    dfsLoop visit path (p :: ps) c =
      match visit p path c with
      | (true, colors1, cyc) => (true, colors1, cyc)
      | (false, colors1, _) => dfsLoop visit path ps colors1 := by
  simp only [dfsLoop]
  rw [hcol]

theorem dfsLoop_cons_black (visit : String → List String → ColorMap →
      Bool × ColorMap × List String)
    (path : List String) (p : String) (ps : List String) (c : ColorMap)
    (v : Nat) (hcol : mapGet c p = some (v + 2)) :
    dfsLoop visit path (p :: ps) c = dfsLoop visit path ps c := by
  simp only [dfsLoop]
  rw [hcol]
  rfl

theorem dfsLoop_cons_none (visit : String → List String → ColorMap →
      Bool × ColorMap × List String)
    (path : List String) (p : String) (ps : List String) (c : ColorMap)
    (hcol : mapGet c p = none) :
    dfsLoop visit path (p :: ps) c = dfsLoop visit path ps c := by
  simp only [dfsLoop]
  rw [hcol]

/-- Postcondition of the parent loop on a false-return: colors take one
admissible step and every listed parent ends BLACK. -/
theorem dfsLoop_false_post (g : DepGraph)
    (visit : String → List String → ColorMap → Bool × ColorMap × List String)
    (Hvisit : ∀ n path c c1 cyc, visit n path c = (false, c1, cyc) →
      mapGet c n = some 0 → colorsDom g c → colorsVal c →
      blackClosed g c → cycleSafe g c →
      colorsStep g c c1 ∧ mapGet c1 n = some 2) :
    ∀ (ps path : List String) (c c1 : ColorMap) (cyc : List String),
      (∀ p ∈ ps, p ∈ g.map Prod.fst) →
      colorsDom g c → colorsVal c → blackClosed g c → cycleSafe g c →
      dfsLoop visit path ps c = (false, c1, cyc) →
      colorsStep g c c1 ∧ ∀ p ∈ ps, mapGet c1 p = some 2 := by
  intro ps
  induction ps with
  | nil =>
    intro path c c1 cyc _ _ _ _ _ h
    unfold dfsLoop at h
    injection h with h1 h2
    injection h2 with h2 h3
    subst h2
    exact ⟨colorsStep_refl g c, by intro p hp; cases hp⟩
  | cons p ps ih =>
    intro path c c1 cyc hkeys hdom hval hbc hcs h
    have hpkey : p ∈ g.map Prod.fst := hkeys p (List.mem_cons_self _ _)
    cases hcol : mapGet c p with
    | none =>
      exact absurd ((hdom p).mpr hpkey) (by rw [hcol]; simp)
    | some v =>
      match v, hcol with
      | 1, hcol =>
        rw [dfsLoop_cons_gray visit path p ps c hcol] at h
        exact absurd h (by simp)
      | 0, hcol =>
        rw [dfsLoop_cons_white visit path p ps c hcol] at h
        rcases hv : visit p path c with ⟨b, cv, cycv⟩
        rw [hv] at h
        cases b with
        | true => exact absurd h (by simp)
        | false =>
          simp only at h
          obtain ⟨hstep, hpblack⟩ :=
            Hvisit p path c cv cycv hv hcol hdom hval hbc hcs
          obtain ⟨hstep2, hrest⟩ := ih path cv c1 cyc
            (fun q hq => hkeys q (List.mem_cons_of_mem _ hq))
            (colorsDom_of_step g c cv hstep hdom)
            (hstep.2.2.2.1 hval) (hstep.2.2.2.2.1 hbc)
            (hstep.2.2.2.2.2 hcs) h
          refine ⟨colorsStep_trans g c cv c1 hstep hstep2, ?_⟩
          intro q hq
          rcases List.mem_cons.mp hq with hq | hq
          · subst hq
            exact hstep2.1 q hpblack
          · exact hrest q hq
      | (w + 2), hcol =>
        rw [dfsLoop_cons_black visit path p ps c w hcol] at h
        have hw2 : w + 2 ≤ 2 := hval p (w + 2) hcol
        have hw0 : w = 0 := by omega
        subst hw0
        obtain ⟨hstep, hrest⟩ := ih path c c1 cyc
          (fun q hq => hkeys q (List.mem_cons_of_mem _ hq))
          hdom hval hbc hcs h
        refine ⟨hstep, ?_⟩
        intro q hq
        rcases List.mem_cons.mp hq with hq | hq
        · subst hq
          exact hstep.1 q hcol
        · exact hrest q hq

/-- Completeness of the parent loop: if some listed parent reaches a GRAY
node, the loop reports a cycle. -/
theorem dfsLoop_complete (g : DepGraph)
    (visit : String → List String → ColorMap → Bool × ColorMap × List String)
    (Hvisit : ∀ n path c c1 cyc, visit n path c = (false, c1, cyc) →
      mapGet c n = some 0 → colorsDom g c → colorsVal c →
      blackClosed g c → cycleSafe g c →
      colorsStep g c c1 ∧ mapGet c1 n = some 2)
    (Htrue : ∀ n path c, mapGet c n = some 0 → colorsDom g c →
      colorsVal c → blackClosed g c → cycleSafe g c →
      (∃ gz, Relation.ReflTransGen (depEdge g) n gz ∧
        mapGet c gz = some 1) →
      (visit n path c).1 = true) :
    ∀ (ps path : List String) (c : ColorMap),
      (∀ p ∈ ps, p ∈ g.map Prod.fst) →
      colorsDom g c → colorsVal c → blackClosed g c → cycleSafe g c →
      (∃ m ∈ ps, ∃ gz, Relation.ReflTransGen (depEdge g) m gz ∧
        mapGet c gz = some 1) →
      (dfsLoop visit path ps c).1 = true := by
  intro ps
  induction ps with
  | nil =>
    intro path c _ _ _ _ _ hex
    obtain ⟨m, hm, _⟩ := hex
    cases hm
  | cons p ps ih =>
    intro path c hkeys hdom hval hbc hcs hex
    obtain ⟨m, hm, gz, hreach, hgray⟩ := hex
    have hpkey : p ∈ g.map Prod.fst := hkeys p (List.mem_cons_self _ _)
    cases hcol : mapGet c p with
    | none =>
      exact absurd ((hdom p).mpr hpkey) (by rw [hcol]; simp)
    | some v =>
      match v, hcol with
      | 1, hcol =>
        rw [dfsLoop_cons_gray visit path p ps c hcol]
      | 0, hcol =>
        rw [dfsLoop_cons_white visit path p ps c hcol]
        rcases hv : visit p path c with ⟨b, cv, cycv⟩
        cases b with
        | true => simp
        | false =>
          simp only
          rcases List.mem_cons.mp hm with hmp | hmp
          · subst hmp
            have := Htrue m path c hcol hdom hval hbc hcs ⟨gz, hreach, hgray⟩
            rw [hv] at this
            exact absurd this (by simp)
          · obtain ⟨hstep, _⟩ :=
              Hvisit p path c cv cycv hv hcol hdom hval hbc hcs
            exact ih path cv
              (fun q hq => hkeys q (List.mem_cons_of_mem _ hq))
              (colorsDom_of_step g c cv hstep hdom)
              (hstep.2.2.2.1 hval) (hstep.2.2.2.2.1 hbc)
              (hstep.2.2.2.2.2 hcs)
              ⟨m, hmp, gz, hreach, (hstep.2.1 gz).mpr hgray⟩
      | (w + 2), hcol =>
        rw [dfsLoop_cons_black visit path p ps c w hcol]
        have hw2 : w + 2 ≤ 2 := hval p (w + 2) hcol
        have hw0 : w = 0 := by omega
        subst hw0
        rcases List.mem_cons.mp hm with hmp | hmp
        · subst hmp
          have hgzblack := blackClosed_reach g c hbc m gz hreach hcol
          rw [hgray] at hgzblack
          exact absurd hgzblack (by simp)
        · exact ih path c
            (fun q hq => hkeys q (List.mem_cons_of_mem _ hq))
            hdom hval hbc hcs ⟨m, hmp, gz, hreach, hgray⟩

/-- The `dfs` of `detectCycles`: on a false-return from a WHITE node the
colors take an admissible step and the node ends BLACK; and whenever the
node has a parent that reaches a GRAY node (or reaches the node itself),
`dfs` reports a cycle. -/
theorem dfsVisit_main (g : DepGraph) (hpc : parentsClosed g) :
    ∀ fuel : Nat,
      (∀ n path c c1 cyc, dfsVisit g fuel n path c = (false, c1, cyc) →
        mapGet c n = some 0 → colorsDom g c → colorsVal c →
        blackClosed g c → cycleSafe g c →
        colorsStep g c c1 ∧ mapGet c1 n = some 2) ∧
      (∀ n path c, mapGet c n = some 0 → colorsDom g c → colorsVal c →
        blackClosed g c → cycleSafe g c →
        (∃ m, depEdge g n m ∧ ∃ gz,
          Relation.ReflTransGen (depEdge g) m gz ∧
          (mapGet c gz = some 1 ∨ gz = n)) →
        (dfsVisit g fuel n path c).1 = true) := by
  intro fuel
  induction fuel with
  | zero =>
    constructor
    · intro n path c c1 cyc h
      exact absurd h (by simp [dfsVisit])
    · intro n path c _ _ _ _ _ _
      rfl
  | succ fuel ih =>
    have Htrue : ∀ n' path' c', mapGet c' n' = some 0 → colorsDom g c' →
        colorsVal c' → blackClosed g c' → cycleSafe g c' →
        (∃ gz, Relation.ReflTransGen (depEdge g) n' gz ∧
          mapGet c' gz = some 1) →
        (dfsVisit g fuel n' path' c').1 = true := by
      intro n' path' c' hw hd hv hb hc hex
      obtain ⟨gz, hreach, hgray⟩ := hex
      rcases Relation.ReflTransGen.cases_head hreach with heq | ⟨m', hm1, hm2⟩
      · rw [← heq, hw] at hgray
        exact absurd hgray (by simp)
      · exact ih.2 n' path' c' hw hd hv hb hc ⟨m', hm1, gz, hm2, Or.inl hgray⟩
    have hC : ∀ n path c, mapGet c n = some 0 → colorsDom g c →
        colorsVal c → blackClosed g c → cycleSafe g c →
        (∃ m, depEdge g n m ∧ ∃ gz,
          Relation.ReflTransGen (depEdge g) m gz ∧
          (mapGet c gz = some 1 ∨ gz = n)) →
        (dfsVisit g (fuel + 1) n path c).1 = true := by
      intro n path c hwhite hdom hval hbc hcs hex
      obtain ⟨m, hedge, gz, hreach, hgz⟩ := hex
      have hedge' := hedge
      unfold depEdge at hedge'
      cases hgn : mapGet g n with
      | none => rw [hgn] at hedge'; exact hedge'.elim
      | some node =>
      rw [hgn] at hedge'
      obtain ⟨hdom1, hval1, hbc1, hcs1⟩ :=
        mapSet_gray_invs g c n hwhite hdom hval hbc hcs
      have hloop : (dfsLoop (dfsVisit g fuel) (path ++ [n]) node.parents
          (mapSet c n 1)).1 = true := by
        apply dfsLoop_complete g (dfsVisit g fuel) ih.1 Htrue node.parents
          (path ++ [n]) (mapSet c n 1) ?_ hdom1 hval1 hbc1 hcs1 ?_
        · intro q hq
          exact hpc n q (by unfold depEdge; rw [hgn]; exact hq)
        · refine ⟨m, hedge', gz, hreach, ?_⟩
          rcases hgz with hgray | hgzn
          · have hgzne : gz ≠ n := by
              intro hcon
              rw [hcon, hwhite] at hgray
              exact absurd hgray (by simp)
            rw [mapGet_mapSet_ne _ _ _ _ hgzne]
            exact hgray
          · subst hgzn
            exact mapGet_mapSet_self c gz 1
      unfold dfsVisit
      rw [hgn]
      dsimp only
      rcases hres : dfsLoop (dfsVisit g fuel) (path ++ [n]) node.parents
          (mapSet c n 1) with ⟨bl, c2, cyc2⟩
      rw [hres] at hloop
      simp only at hloop
      subst hloop
      rfl
    refine ⟨?_, hC⟩
    intro n path c c1 cyc heq hwhite hdom hval hbc hcs
    have heq0 := heq
    obtain ⟨hdom1, hval1, hbc1, hcs1⟩ :=
      mapSet_gray_invs g c n hwhite hdom hval hbc hcs
    have hfinish : ∀ ps : List String,
        (∀ p ∈ ps, depEdge g n p) →
        (∀ b, depEdge g n b → b ∈ ps) →
        (match dfsLoop (dfsVisit g fuel) (path ++ [n]) ps (mapSet c n 1) with
          | (true, c2, cyc') => (true, c2, cyc')
          | (false, c2, _) => (false, mapSet c2 n 2, ([] : List String)))
          = ((false : Bool), c1, cyc) →
        colorsStep g c c1 ∧ mapGet c1 n = some 2 := by
      intro ps hedges hedges2 heq2
      rcases hloop : dfsLoop (dfsVisit g fuel) (path ++ [n]) ps
          (mapSet c n 1) with ⟨bl, c2, cyc2⟩
      rw [hloop] at heq2
      cases bl with
      | true => exact absurd heq2 (by simp)
      | false =>
        simp only at heq2
        injection heq2 with hfalse hrest
        injection hrest with hc1 hcycout
        subst hc1
        obtain ⟨hstep, hblackps⟩ := dfsLoop_false_post g (dfsVisit g fuel)
          ih.1 ps (path ++ [n]) (mapSet c n 1) c2 cyc2
          (fun p hp => hpc n p (hedges p hp)) hdom1 hval1 hbc1 hcs1 hloop
      
        constructor
        · refine ⟨?_, ?_, ?_, ?_, ?_, ?_⟩
          · intro id hid
            have hidn : id ≠ n := by
              intro hcon
              rw [hcon, hwhite] at hid
              exact absurd hid (by simp)
            have hA : mapGet (mapSet c n 1) id = some 2 := by
              rw [mapGet_mapSet_ne _ _ _ _ hidn]
              exact hid
            rw [mapGet_mapSet_ne _ _ _ _ hidn]
            exact hstep.1 id hA
          · intro id
            by_cases hidn : id = n
            · subst hidn
              rw [mapGet_mapSet_self, hwhite]
              simp
            · rw [mapGet_mapSet_ne _ _ _ _ hidn, hstep.2.1 id,
                mapGet_mapSet_ne _ _ _ _ hidn]
          · intro id
            by_cases hidn : id = n
            · subst hidn
              rw [mapGet_mapSet_self, hwhite]
              rfl
            · rw [mapGet_mapSet_ne _ _ _ _ hidn, hstep.2.2.1 id,
                mapGet_mapSet_ne _ _ _ _ hidn]
          · intro _ k v hk
            by_cases hkn : k = n
            · subst hkn
              rw [mapGet_mapSet_self] at hk
              injection hk with hk
              omega
            · rw [mapGet_mapSet_ne _ _ _ _ hkn] at hk
              exact hstep.2.2.2.1 hval1 k v hk
          · intro _ a b hedge hba
            by_cases han : a = n
            · subst han
              have hbps : b ∈ ps := hedges2 b hedge
              have hb2 : mapGet c2 b = some 2 := hblackps b hbps
              by_cases hbn : b = a
              · rw [hbn, mapGet_mapSet_self]
              · rw [mapGet_mapSet_ne _ _ _ _ hbn]
                exact hb2
            · rw [mapGet_mapSet_ne _ _ _ _ han] at hba
              have hb2 := hstep.2.2.2.2.1 hbc1 a b hedge hba
              by_cases hbn : b = n
              · rw [hbn, mapGet_mapSet_self]
              · rw [mapGet_mapSet_ne _ _ _ _ hbn]
                exact hb2
          · intro _ a hcyca
            by_cases han : a = n
            · subst han
              obtain ⟨m', hm1, hm2⟩ :=
                Relation.TransGen.head'_iff.mp hcyca
              have htrue := hC a path c hwhite hdom hval hbc hcs
                ⟨m', hm1, a, hm2, Or.inr rfl⟩
              rw [heq0] at htrue
              exact absurd htrue (by simp)
            · rw [mapGet_mapSet_ne _ _ _ _ han]
              exact hstep.2.2.2.2.2 hcs1 a hcyca
        · exact mapGet_mapSet_self c2 n 2
    unfold dfsVisit at heq
    cases hgn : mapGet g n with
    | none =>
      rw [hgn] at heq
      dsimp only at heq
      refine hfinish [] (by intro p hp; cases hp) ?_ heq
      intro b hb
      unfold depEdge at hb
      rw [hgn] at hb
      exact hb.elim
    | some node =>
      rw [hgn] at heq
      dsimp only at heq
      refine hfinish node.parents
        (fun p hp => by unfold depEdge; rw [hgn]; exact hp) ?_ heq
      intro b hb
      unfold depEdge at hb
      rw [hgn] at hb
      exact hb

theorem detectCyclesGo_cons_white (g : DepGraph) (id : String)
    (rest : List String) (c : ColorMap) (hcol : mapGet c id = some 0) :
    detectCyclesGo g (id :: rest) c =
      match dfsVisit g (g.length + 1) id [] c with
      | (true, _, cyc) =>
        some ⟨.CIRCULAR_DEPENDENCY, jsSetDedup cyc⟩
      | (false, colors1, _) => detectCyclesGo g rest colors1 := by
  simp only [detectCyclesGo]
  rw [hcol]

theorem detectCyclesGo_cons_succ (g : DepGraph) (id : String)
    (rest : List String) (c : ColorMap) (v : Nat)
    (hcol : mapGet c id = some (v + 1)) :
    detectCyclesGo g (id :: rest) c = detectCyclesGo g rest c := by
  simp only [detectCyclesGo]
  rw [hcol]
  rfl

theorem detectCyclesGo_cons_none (g : DepGraph) (id : String)
    (rest : List String) (c : ColorMap) (hcol : mapGet c id = none) :
    detectCyclesGo g (id :: rest) c = detectCyclesGo g rest c := by
  simp only [detectCyclesGo]
  rw [hcol]

/-- The color scan of `detectCycles` cannot pass a node lying on a cycle
without reporting: completeness of the detection loop. -/
theorem detectCyclesGo_finds (g : DepGraph) (hpc : parentsClosed g)
    (a : String) (hcyc : Relation.TransGen (depEdge g) a a) :
    ∀ (ids : List String) (c : ColorMap), a ∈ ids →
      colorsDom g c → colorsVal c → blackClosed g c → cycleSafe g c →
      (∀ k, mapGet c k ≠ some 1) →
      detectCyclesGo g ids c ≠ none := by
  intro ids
  induction ids with
  | nil =>
    intro c ha _ _ _ _ _
    cases ha
  | cons id rest ih =>
    intro c ha hdom hval hbc hcs hng
    cases hcol : mapGet c id with
    | none =>
      rw [detectCyclesGo_cons_none g id rest c hcol]
      rcases List.mem_cons.mp ha with rfl | ha2
      · have hak : a ∈ g.map Prod.fst := by
          obtain ⟨m', hm1, _⟩ := Relation.TransGen.head'_iff.mp hcyc
          exact depEdge_src_mem g a m' hm1
        exact absurd ((hdom a).mpr hak) (by rw [hcol]; simp)
      · exact ih c ha2 hdom hval hbc hcs hng
    | some v =>
      match v, hcol with
      | 0, hcol =>
        rw [detectCyclesGo_cons_white g id rest c hcol]
        rcases hv : dfsVisit g (g.length + 1) id [] c with ⟨b, cv, cycv⟩
        cases b with
        | true => simp
        | false =>
          simp only
          obtain ⟨hstep, hblack⟩ := (dfsVisit_main g hpc (g.length + 1)).1
            id [] c cv cycv hv hcol hdom hval hbc hcs
          rcases List.mem_cons.mp ha with rfl | ha2
          · exact absurd hblack (hstep.2.2.2.2.2 hcs a hcyc)
          · refine ih cv ha2 (colorsDom_of_step g c cv hstep hdom)
              (hstep.2.2.2.1 hval) (hstep.2.2.2.2.1 hbc)
              (hstep.2.2.2.2.2 hcs) ?_
            intro k hk
            exact hng k ((hstep.2.1 k).mp hk)
      | (v + 1), hcol =>
        rw [detectCyclesGo_cons_succ g id rest c v hcol]
        rcases List.mem_cons.mp ha with rfl | ha2
        · have hv2 : v + 1 ≤ 2 := hval a (v + 1) hcol
          by_cases hv1 : v = 0
          · subst hv1
            exact absurd hcol (hng a)
          · have hv22 : v = 1 := by omega
            subst hv22
            exact absurd hcol (hcs a hcyc)
        · exact ih c ha2 hdom hval hbc hcs hng

/-- Completeness of `detectCycles`: a dependency cycle in a graph whose
parent edges stay inside the graph is always reported. -/
theorem detectCycles_complete (g : DepGraph) (hpc : parentsClosed g)
    (h : hasCycle g) : detectCycles g ≠ none := by
  obtain ⟨a, hcyc⟩ := h
  have hak : a ∈ g.map Prod.fst := by
    obtain ⟨m', hm1, _⟩ := Relation.TransGen.head'_iff.mp hcyc
    exact depEdge_src_mem g a m' hm1
  unfold detectCycles
  dsimp only
  have hc0 : ∀ k, mapGet (g.foldl (fun m p => mapSet m p.1 0) []) k =
      if k ∈ g.map Prod.fst then some 0 else none := by
    intro k
    rw [mapGet_foldl_zero]
    rfl
  apply detectCyclesGo_finds g hpc a hcyc (g.map fun p => p.1)
    (g.foldl (fun m p => mapSet m p.1 0) []) hak
  · intro k
    rw [hc0 k]
    by_cases hk : k ∈ g.map Prod.fst
    · rw [if_pos hk]
      simpa using hk
    · rw [if_neg hk]
      simpa using hk
  · intro k v hk
    rw [hc0 k] at hk
    by_cases hkk : k ∈ g.map Prod.fst
    · rw [if_pos hkk] at hk
      injection hk with hk
      omega
    · rw [if_neg hkk] at hk
      exact absurd hk (by simp)
  · intro x y _ hx
    rw [hc0 x] at hx
    by_cases hxx : x ∈ g.map Prod.fst
    · rw [if_pos hxx] at hx
      exact absurd hx (by simp)
    · rw [if_neg hxx] at hx
      exact absurd hx (by simp)
  · intro x _ hx
    rw [hc0 x] at hx
    by_cases hxx : x ∈ g.map Prod.fst
    · rw [if_pos hxx] at hx
      exact absurd hx (by simp)
    · rw [if_neg hxx] at hx
      exact absurd hx (by simp)
  · intro k hk
    rw [hc0 k] at hk
    by_cases hkk : k ∈ g.map Prod.fst
    · rw [if_pos hkk] at hk
      exact absurd hk (by simp)
    · rw [if_neg hkk] at hk
      exact absurd hk (by simp)

/-- Graphs built by `buildDependencyGraph` keep their parent edges inside
the graph. -/
theorem buildDependencyGraph_parentsClosed (wos : List WorkOrder)
    (g : DepGraph) (h : buildDependencyGraph wos = .ok g) :
    parentsClosed g := by
  intro a b hedge
  unfold depEdge at hedge
  cases hm : mapGet g a with
  | none => rw [hm] at hedge; exact hedge.elim
  | some node =>
    rw [hm] at hedge
    have hmem := mapGet_mem g a node hm
    obtain ⟨_, hchild, hnodes, hnodangle⟩ := buildDependencyGraph_ok wos g h
    obtain ⟨wo, hwo, _, hpar⟩ := hnodes (a, node) hmem
    exact hnodangle wo hwo b (by rw [← hpar]; exact hedge)

/-- A cycle in the built graph makes `topologicalSort` fail with the
circular-dependency error. -/
theorem topologicalSort_cycle (wos : List WorkOrder) (g : DepGraph)
    (hg : buildDependencyGraph wos = .ok g) (hcyc : hasCycle g) :
    topologicalSort wos = .error Err.circularDependency := by
  unfold topologicalSort
  simp only [hg, Bind.bind, Except.bind]
  have hdc := detectCycles_complete g
    (buildDependencyGraph_parentsClosed wos g hg) hcyc
  rcases hval : detectCycles g with _ | e
  · exact absurd hval hdc
  · rfl

/-- Claim C3 (corrected): when every dependency resolves — so the graph
build passes the dangling-dependency check and returns a graph `g` — and
`g` contains a dependency cycle, `reflow` fails with the
circular-dependency error before any work order is rescheduled.  (When a
dependency is dangling, the dangling-dependency error wins even in the
presence of a cycle; see the counterexample.) -/
theorem c3_cycle_rejected (input : ReflowInput) (g : DepGraph)
    (hg : buildDependencyGraph input.workOrders = .ok g)
    (hcyc : hasCycle g) :
    reflow input = .error Err.circularDependency := by
  unfold reflow
  have hts := topologicalSort_cycle input.workOrders g hg hcyc
  simp only [hts, Bind.bind, Except.bind]

/-- Claim C3, witness: on the concrete two-cycle input the graph builds
and `reflow` returns the circular-dependency error. -/
theorem c3_cycle_rejected_witness :
    reflow inputCycle = .error Err.circularDependency :=
  c3_cycle_rejected inputCycle gCycle (by rfl)
    ⟨"x1", Relation.TransGen.head (b := "x2") (by decide)
      (Relation.TransGen.single (by decide))⟩

theorem startOfDay_le (t : Nat) : startOfDay t ≤ t := by
  simp only [startOfDay, dayIndex, msPerDay]
  omega

theorem lt_nextDayStart (t : Nat) : t < nextDayStart t := by
  simp only [nextDayStart, startOfDay, dayIndex, msPerDay]
  omega

theorem dayIndex_eq_of (t u : Nat) (h1 : startOfDay t ≤ u)
    (h2 : u < nextDayStart t) : dayIndex u = dayIndex t := by
  simp only [startOfDay, nextDayStart, dayIndex, msPerDay] at *
  omega

theorem startOfDay_eq_of (t u : Nat) (h1 : startOfDay t ≤ u)
    (h2 : u < nextDayStart t) : startOfDay u = startOfDay t := by
  simp only [startOfDay]
  rw [dayIndex_eq_of t u h1 h2]

theorem dow_eq_of (t u : Nat) (h1 : startOfDay t ≤ u)
    (h2 : u < nextDayStart t) : dow u = dow t := by
  simp only [dow]
  rw [dayIndex_eq_of t u h1 h2]

theorem nextDayStart_eq_of (t u : Nat) (h1 : startOfDay t ≤ u)
    (h2 : u < nextDayStart t) : nextDayStart u = nextDayStart t := by
  simp only [nextDayStart]
  rw [startOfDay_eq_of t u h1 h2]

theorem specWorkedMs_zero (shifts : List Shift) (a b : Nat) (h : b ≤ a) :
    specWorkedMs shifts a b = 0 := by
  rw [specWorkedMs.eq_def, if_pos h]

theorem specWorkedMs_sameday (shifts : List Shift) (a t : Nat)
    (h2 : t ≤ nextDayStart a) :
    specWorkedMs shifts a t =
      if t ≤ a then 0 else inShiftDayMs shifts a t := by
  rw [specWorkedMs.eq_def]
  by_cases h : t ≤ a
  · rw [if_pos h, if_pos h]
  · rw [if_neg h, if_neg h, if_pos h2]

theorem specWorkedMs_step (shifts : List Shift) (a e : Nat)
    (h : nextDayStart a ≤ e) :
    specWorkedMs shifts a e =
      inShiftDayMs shifts a (nextDayStart a) +
        specWorkedMs shifts (nextDayStart a) e := by
  have ha := lt_nextDayStart a
  rw [specWorkedMs.eq_def]
  by_cases he : e = nextDayStart a
  · subst he
    rw [if_neg (by omega), if_pos (le_refl _),
      specWorkedMs_zero shifts _ _ (le_refl _)]
    omega
  · rw [if_neg (by omega), if_neg (by omega)]

/-- Idle time before the day's shift opens contributes no working time:
moving the cursor from anywhere at or before the shift start to the shift
start leaves `specWorkedMs` to any endpoint unchanged. -/
theorem specWorkedMs_skip_head (shifts : List Shift) (sh : Shift)
    (cursor : Nat) (hfind : findShift shifts (dow cursor) = some sh)
    (hcs : cursor ≤ startOfDay cursor + sh.startHour * msPerHour)
    (hSday : startOfDay cursor + sh.startHour * msPerHour <
      nextDayStart cursor) (e : Nat) :
    specWorkedMs shifts cursor e =
      specWorkedMs shifts
        (startOfDay cursor + sh.startHour * msPerHour) e := by
  set S := startOfDay cursor + sh.startHour * msPerHour with hSdef
  have hS1 : startOfDay cursor ≤ S := by omega
  have hsodS : startOfDay S = startOfDay cursor :=
    startOfDay_eq_of cursor S hS1 hSday
  have hdowS : dow S = dow cursor := dow_eq_of cursor S hS1 hSday
  have hndS : nextDayStart S = nextDayStart cursor :=
    nextDayStart_eq_of cursor S hS1 hSday
  have hcn := lt_nextDayStart cursor
  by_cases hA : e ≤ cursor
  · rw [specWorkedMs_zero shifts cursor e hA,
      specWorkedMs_zero shifts S e (by omega)]
  · by_cases hB : e ≤ nextDayStart cursor
    · rw [specWorkedMs_sameday shifts cursor e hB,
        specWorkedMs_sameday shifts S e (by omega), if_neg hA]
      simp only [inShiftDayMs, hdowS, hfind, hsodS]
      rw [← hSdef]
      by_cases hES : e ≤ S
      · rw [if_pos hES]
        omega
      · rw [if_neg hES]
        omega
    · rw [specWorkedMs_step shifts cursor e (by omega),
        specWorkedMs_step shifts S e (by omega), hndS]
      simp only [inShiftDayMs, hdowS, hfind, hsodS]
      rw [← hSdef]
      omega

/-- Correctness of the shift-walking loop: on success the returned instant
is at or after the cursor, the shift-inside working time in between is
exactly the remaining requirement, and no earlier instant reaches it. -/
theorem calcEndLoop_correct (shifts : List Shift)
    (hwf : shiftsWellFormed shifts) :
    ∀ (fuel remMs cursor e : Nat),
      calcEndLoop shifts remMs cursor fuel = .ok e →
      cursor ≤ e ∧ specWorkedMs shifts cursor e = remMs ∧
      ∀ t, cursor ≤ t → t < e →
        specWorkedMs shifts cursor t < remMs := by
  intro fuel
  induction fuel with
  | zero =>
    intro remMs cursor e heq
    unfold calcEndLoop at heq
    by_cases hr : remMs = 0
    · rw [if_pos hr] at heq
      injection heq with heq
      subst heq
      subst hr
      exact ⟨le_refl _, specWorkedMs_zero shifts cursor cursor (le_refl _),
        fun t h1 h2 => absurd (lt_of_le_of_lt h1 h2) (lt_irrefl _)⟩
    · rw [if_neg hr] at heq
      exact absurd heq (by simp)
  | succ fuel ih =>
    intro remMs cursor e heq
    unfold calcEndLoop at heq
    by_cases hr : remMs = 0
    · rw [if_pos hr] at heq
      injection heq with heq
      subst heq
      subst hr
      exact ⟨le_refl _, specWorkedMs_zero shifts cursor cursor (le_refl _),
        fun t h1 h2 => absurd (lt_of_le_of_lt h1 h2) (lt_irrefl _)⟩
    rw [if_neg hr] at heq
    have hrpos : 0 < remMs := by omega
    have hcn := lt_nextDayStart cursor
    cases hfind : findShift shifts (dow cursor) with
    | none =>
      rw [hfind] at heq
      simp only at heq
      obtain ⟨ih1, ih2, ih3⟩ := ih remMs (nextDayStart cursor) e heq
      have hhead : inShiftDayMs shifts cursor (nextDayStart cursor) = 0 := by
        simp only [inShiftDayMs, hfind]
      refine ⟨by omega, ?_, ?_⟩
      · rw [specWorkedMs_step shifts cursor e (by omega), hhead, ih2]
        omega
      · intro t h1 h2
        by_cases htn : nextDayStart cursor ≤ t
        · rw [specWorkedMs_step shifts cursor t htn, hhead]
          simpa using ih3 t htn h2
        · rw [specWorkedMs_sameday shifts cursor t (by omega)]
          by_cases htc : t ≤ cursor
          · rw [if_pos htc]; omega
          · rw [if_neg htc]
            simp only [inShiftDayMs, hfind]
            omega
    | some sh =>
      rw [hfind] at heq
      simp only at heq
      obtain ⟨hse, he24⟩ := hwf sh (List.mem_of_find?_eq_some hfind)
      have hsod := startOfDay_le cursor
      set S := startOfDay cursor + sh.startHour * msPerHour with hSdef
      set E := startOfDay cursor + sh.endHour * msPerHour with hEdef
      have hSE : S < E := by
        simp only [hSdef, hEdef, msPerHour]
        omega
      have hE_next : E ≤ nextDayStart cursor := by
        simp only [hEdef, nextDayStart, startOfDay, msPerDay, msPerHour] at *
        omega
      have hshift : ∀ x, inShiftDayMs shifts cursor x = min x E - max cursor S := by
        intro x
        simp only [inShiftDayMs, hfind]
      by_cases hc1 : cursor < S
      · rw [if_pos hc1] at heq
        obtain ⟨ih1, ih2, ih3⟩ := ih remMs S e heq
        have hskip := specWorkedMs_skip_head shifts sh cursor hfind
          (by omega) (by omega)
        refine ⟨by omega, ?_, ?_⟩
        · rw [hskip e]
          exact ih2
        · intro t h1 h2
          rw [hskip t]
          by_cases hts : S ≤ t
          · exact ih3 t hts h2
          · rw [specWorkedMs_zero shifts S t (by omega)]
            omega
      · rw [if_neg hc1] at heq
        by_cases hc2 : E ≤ cursor
        · rw [if_pos hc2] at heq
          obtain ⟨ih1, ih2, ih3⟩ := ih remMs (nextDayStart cursor) e heq
          have hhead : inShiftDayMs shifts cursor (nextDayStart cursor) = 0 := by
            rw [hshift]
            omega
          refine ⟨by omega, ?_, ?_⟩
          · rw [specWorkedMs_step shifts cursor e (by omega), hhead, ih2]
            omega
          · intro t h1 h2
            by_cases htn : nextDayStart cursor ≤ t
            · rw [specWorkedMs_step shifts cursor t htn, hhead]
              simpa using ih3 t htn h2
            · rw [specWorkedMs_sameday shifts cursor t (by omega)]
              by_cases htc : t ≤ cursor
              · rw [if_pos htc]; omega
              · rw [if_neg htc, hshift]
                omega
        · rw [if_neg hc2] at heq
          by_cases hc3 : remMs ≤ E - cursor
          · rw [if_pos hc3] at heq
            injection heq with heq
            subst heq
            refine ⟨by omega, ?_, ?_⟩
            · rw [specWorkedMs_sameday shifts cursor (cursor + remMs)
                (by omega), if_neg (by omega), hshift]
              omega
            · intro t h1 h2
              rw [specWorkedMs_sameday shifts cursor t (by omega)]
              by_cases htc : t ≤ cursor
              · rw [if_pos htc]; omega
              · rw [if_neg htc, hshift]
                omega
          · rw [if_neg hc3] at heq
            obtain ⟨ih1, ih2, ih3⟩ := ih (remMs - (E - cursor))
              (nextDayStart cursor) e heq
            have hhead : inShiftDayMs shifts cursor (nextDayStart cursor) =
                E - cursor := by
              rw [hshift]
              omega
            refine ⟨by omega, ?_, ?_⟩
            · rw [specWorkedMs_step shifts cursor e (by omega), hhead, ih2]
              omega
            · intro t h1 h2
              by_cases htn : nextDayStart cursor ≤ t
              · rw [specWorkedMs_step shifts cursor t htn, hhead]
                have := ih3 t htn h2
                omega
              · rw [specWorkedMs_sameday shifts cursor t (by omega)]
                by_cases htc : t ≤ cursor
                · rw [if_pos htc]; omega
                · rw [if_neg htc, hshift]
                  omega

/-- Claim C2 (corrected): for well-formed shifts,
`calculateEndDateWithShifts` returns the first instant at or after the
start by which `durationMinutes` of shift-inside working time
(`specWorkedMs`) has elapsed; consequently every change record a
successful `reflow` emits has working time between its new start and new
end equal to the work order's duration.  (The stored end dates of work
orders that are never rescheduled are not recomputed, so the claim's
"every non-maintenance work order" half fails for them; see the
counterexample.) -/
theorem c2_working_time :
    (∀ shifts : List Shift, shiftsWellFormed shifts →
      ∀ (start : DateStr) (dur : Nat) (e : DateStr),
        calculateEndDateWithShifts start dur shifts = .ok e →
        start.ms ≤ e.ms ∧
        specWorkedMs shifts start.ms e.ms = dur * msPerMinute ∧
        ∀ t, start.ms ≤ t → t < e.ms →
          specWorkedMs shifts start.ms t < dur * msPerMinute) ∧
    (∀ (input : ReflowInput) (r : ReflowResult), reflow input = .ok r →
      ∀ ch ∈ r.changes, ∃ u ∈ r.updatedWorkOrders,
        u.docId = ch.workOrderId ∧ u.data.isMaintenance = false ∧
        ∃ wc, mapGet (mapOfList (input.workCenters.map
            (fun w => (w.docId, w)))) u.data.workCenterId = some wc ∧
          (shiftsWellFormed wc.data.shifts →
            specWorkedMs wc.data.shifts ch.newStartDate.ms
                ch.newEndDate.ms =
              u.data.durationMinutes * msPerMinute)) := by
  have hpart1 : ∀ shifts : List Shift, shiftsWellFormed shifts →
      ∀ (start : DateStr) (dur : Nat) (e : DateStr),
        calculateEndDateWithShifts start dur shifts = .ok e →
        start.ms ≤ e.ms ∧
        specWorkedMs shifts start.ms e.ms = dur * msPerMinute ∧
        ∀ t, start.ms ≤ t → t < e.ms →
          specWorkedMs shifts start.ms t < dur * msPerMinute := by
    intro shifts hwf start dur e hok
    unfold calculateEndDateWithShifts at hok
    cases hloop : calcEndLoop shifts (dur * msPerMinute) start.ms 1000 with
    | error err =>
      rw [hloop] at hok
      exact absurd hok (by simp [Except.map])
    | ok t =>
      rw [hloop] at hok
      simp only [Except.map] at hok
      injection hok with hok
      subst hok
      exact calcEndLoop_correct shifts hwf 1000 (dur * msPerMinute)
        start.ms t hloop
  refine ⟨hpart1, ?_⟩
  intro input r hok ch hch
  obtain ⟨sortedIds, s, htopo, hfold, hvalall, hr⟩ := reflow_ok_inv input r hok
  subst hr
  obtain ⟨_, _, hchanges, _⟩ := reflowFold_inv
    (mapOfList (input.workCenters.map (fun wc => (wc.docId, wc))))
    input.workOrders sortedIds s hfold
  obtain ⟨u, hu, hid, hmaint, wc, hwc, hcalc⟩ := hchanges ch hch
  exact ⟨u, hu, hid, hmaint, wc, hwc, fun hwf =>
    (hpart1 wc.data.shifts hwf ch.newStartDate u.data.durationMinutes
      ch.newEndDate hcalc).2.1⟩

/-- Claim C2, witness: 120 minutes starting 09:00 inside the Tuesday
08:00–17:00 shift end at 11:00, and the working time in between is
exactly 120 minutes. -/
theorem c2_working_time_witness :
    specWorkedMs shiftsTue (tue 9 0) (tue 11 0) = 120 * msPerMinute :=
  (c2_working_time.1 shiftsTue (by decide) ⟨tue 9 0, true⟩ 120
    ⟨tue 11 0, true⟩ (by rfl)).2.1

/-! ### Identity run (claim C6) -/

theorem adjustToShiftStart_id (d : DateStr) (wc : WorkCenter)
    (h : isWithinShiftHours d wc.data.shifts = true) :
    adjustToShiftStart d wc = .ok d := by
  unfold isWithinShiftHours at h
  unfold adjustToShiftStart
  cases hf : findShift wc.data.shifts (dow d.ms) with
  | none =>
    rw [hf] at h
    exact absurd h (by simp)
  | some sh =>
    rw [hf] at h
    simp only [Bool.and_eq_true, decide_eq_true_eq] at h
    dsimp only
    rw [if_neg (by omega), if_neg (by omega)]

theorem latestParentEndDate_mem (ps : List WorkOrder) :
    ∀ (acc : Option DateStr) (d : DateStr),
      ps.foldl (fun acc p =>
        match acc with
        | none => some p.data.endDate
        | some d0 =>
          if strLt d0 p.data.endDate then some p.data.endDate
          else some d0) acc = some d →
      acc = some d ∨ ∃ p ∈ ps, d = p.data.endDate := by
  induction ps with
  | nil =>
    intro acc d h
    exact Or.inl h
  | cons p ps ih =>
    intro acc d h
    simp only [List.foldl_cons] at h
    cases acc with
    | none =>
      rcases ih (some p.data.endDate) d h with hl | ⟨q, hq, hd⟩
      · injection hl with hl
        exact Or.inr ⟨p, List.mem_cons_self _ _, hl.symm⟩
      · exact Or.inr ⟨q, List.mem_cons_of_mem _ hq, hd⟩
    | some d0 =>
      dsimp only at h
      by_cases hlt : strLt d0 p.data.endDate
      · rw [if_pos hlt] at h
        rcases ih (some p.data.endDate) d h with hl | ⟨q, hq, hd⟩
        · injection hl with hl
          exact Or.inr ⟨p, List.mem_cons_self _ _, hl.symm⟩
        · exact Or.inr ⟨q, List.mem_cons_of_mem _ hq, hd⟩
      · rw [if_neg hlt] at h
        rcases ih (some d0) d h with hl | ⟨q, hq, hd⟩
        · exact Or.inl hl
        · exact Or.inr ⟨q, List.mem_cons_of_mem _ hq, hd⟩

/-- Resolving an id in the id-keyed pair list is `find?` on the orders. -/
theorem mapGet_map_docId (wos : List WorkOrder) (pid : String) :
    mapGet (wos.map (fun w => (w.docId, w))) pid =
      wos.find? (fun w => w.docId = pid) := by
  induction wos with
  | nil => rfl
  | cons w wos ih =>
    unfold mapGet at *
    simp only [List.map_cons, List.find?_cons]
    by_cases hw : w.docId = pid
    · simp [hw]
    · simp only [decide_eq_false hw]
      exact ih

theorem validateWorkCenterConflicts_nil (wos : List WorkOrder)
    (h : validateWorkCenterConflicts wos = []) (wo wo2 : WorkOrder)
    (hw : wo ∈ wos) (hw2 : wo2 ∈ wos) (hne : wo ≠ wo2)
    (hsame : wo2.data.workCenterId = wo.data.workCenterId) :
    timeRangesOverlap wo.data.startDate wo.data.endDate
      wo2.data.startDate wo2.data.endDate = false := by
  obtain ⟨l1, hg1, hin1⟩ := groupByWorkCenter_mem wos [] wo (Or.inl hw)
  obtain ⟨l2, hg2, hin2⟩ := groupByWorkCenter_mem wos [] wo2 (Or.inl hw2)
  rw [hsame, hg1] at hg2
  injection hg2 with hg2
  subst hg2
  have hgm : (wo.data.workCenterId, l1) ∈ groupByWorkCenter wos :=
    mapGet_mem _ _ _ hg1
  by_contra hov
  have hov2 : timeRangesOverlap wo.data.startDate wo.data.endDate
      wo2.data.startDate wo2.data.endDate = true := by
    cases hcase : timeRangesOverlap wo.data.startDate wo.data.endDate
        wo2.data.startDate wo2.data.endDate
    · exact absurd hcase hov
    · rfl
  rcases mem_allPairs l1 wo wo2 hin1 hin2 hne with hp | hp
  · have hmem : (⟨.WORK_CENTER_CONFLICT, [wo.docId, wo2.docId]⟩ :
        ValidationError) ∈ validateWorkCenterConflicts wos := by
      unfold validateWorkCenterConflicts
      exact List.mem_flatMap.mpr ⟨(wo.data.workCenterId, l1), hgm,
        List.mem_filterMap.mpr ⟨(wo, wo2), hp, by rw [if_pos hov2]⟩⟩
    rw [h] at hmem
    cases hmem
  · have hov3 : timeRangesOverlap wo2.data.startDate wo2.data.endDate
        wo.data.startDate wo.data.endDate = true := by
      rw [timeRangesOverlap_symm]
      exact hov2
    have hmem : (⟨.WORK_CENTER_CONFLICT, [wo2.docId, wo.docId]⟩ :
        ValidationError) ∈ validateWorkCenterConflicts wos := by
      unfold validateWorkCenterConflicts
      exact List.mem_flatMap.mpr ⟨(wo.data.workCenterId, l1), hgm,
        List.mem_filterMap.mpr ⟨(wo2, wo), hp, by rw [if_pos hov3]⟩⟩
    rw [h] at hmem
    cases hmem

theorem validateMaintenanceWindows_nil (wos : List WorkOrder)
    (wcs : List WorkCenter) (h : validateMaintenanceWindows wos wcs = [])
    (wo : WorkOrder) (hw : wo ∈ wos) (wc : WorkCenter)
    (hwc : mapGet (mapOfList (wcs.map (fun w => (w.docId, w))))
      wo.data.workCenterId = some wc) :
    overlapsWithMaintenance wo.data.startDate wo.data.endDate
      wc.data.maintenanceWindows = false := by
  by_contra hov
  have hov2 : overlapsWithMaintenance wo.data.startDate wo.data.endDate
      wc.data.maintenanceWindows = true := by
    cases hcase : overlapsWithMaintenance wo.data.startDate wo.data.endDate
        wc.data.maintenanceWindows
    · exact absurd hcase hov
    · rfl
  have hmem : (⟨.MAINTENANCE_CONFLICT, [wo.docId]⟩ : ValidationError) ∈
      validateMaintenanceWindows wos wcs := by
    unfold validateMaintenanceWindows
    refine List.mem_flatMap.mpr ⟨wo, hw, ?_⟩
    rw [hwc]
    dsimp only
    rw [if_pos hov2]
    exact List.mem_singleton.mpr rfl
  rw [h] at hmem
  cases hmem

theorem validateShiftBoundaries_nil (wos : List WorkOrder)
    (wcs : List WorkCenter) (h : validateShiftBoundaries wos wcs = [])
    (wo : WorkOrder) (hw : wo ∈ wos) :
    ∃ wc, mapGet (mapOfList (wcs.map (fun w => (w.docId, w))))
        wo.data.workCenterId = some wc ∧
      isWithinShiftHours wo.data.startDate wc.data.shifts = true := by
  cases hwc : mapGet (mapOfList (wcs.map (fun w => (w.docId, w))))
      wo.data.workCenterId with
  | none =>
    have hmem : (⟨.SHIFT_VIOLATION, [wo.docId]⟩ : ValidationError) ∈
        validateShiftBoundaries wos wcs := by
      unfold validateShiftBoundaries
      refine List.mem_flatMap.mpr ⟨wo, hw, ?_⟩
      rw [hwc]
      exact List.mem_singleton.mpr rfl
    rw [h] at hmem
    cases hmem
  | some wc =>
    refine ⟨wc, rfl, ?_⟩
    cases hin : isWithinShiftHours wo.data.startDate wc.data.shifts
    · have hmem : (⟨.SHIFT_VIOLATION, [wo.docId]⟩ : ValidationError) ∈
          validateShiftBoundaries wos wcs := by
        unfold validateShiftBoundaries
        refine List.mem_flatMap.mpr ⟨wo, hw, ?_⟩
        rw [hwc]
        dsimp only
        rw [hin]
        simp
      rw [h] at hmem
      cases hmem
    · rfl

theorem validateDependencies_nil (wos : List WorkOrder)
    (h : validateDependencies wos = []) (child : WorkOrder)
    (hc : child ∈ wos) (pid : String)
    (hpid : pid ∈ child.data.dependsOnWorkOrderIds) (parent : WorkOrder)
    (hget : mapGet (mapOfList (wos.map (fun wo => (wo.docId, wo)))) pid =
      some parent) :
    ¬ strLt child.data.startDate parent.data.endDate := by
  intro hlt
  have hmem : (⟨.DEPENDENCY_VIOLATION, [child.docId, parent.docId]⟩ :
      ValidationError) ∈ validateDependencies wos :=
    (validateDependencies_mem_iff wos _).mpr
      ⟨child, hc, pid, hpid, parent, hget, hlt, rfl⟩
  rw [h] at hmem
  cases hmem

theorem endsConsistent_spec (wos : List WorkOrder) (wcs : List WorkCenter)
    (h : endsConsistent wos wcs = true) (wo : WorkOrder) (hw : wo ∈ wos)
    (hm : wo.data.isMaintenance = false) (wc : WorkCenter)
    (hwc : mapGet (mapOfList (wcs.map (fun w => (w.docId, w))))
      wo.data.workCenterId = some wc) :
    calculateEndDateWithShifts wo.data.startDate wo.data.durationMinutes
      wc.data.shifts = .ok wo.data.endDate := by
  unfold endsConsistent at h
  have h2 := List.all_eq_true.mp h wo hw
  rw [hm, hwc] at h2
  simp only [Bool.false_or, Option.all_some, decide_eq_true_eq] at h2
  exact h2

/-- On a valid, ends-consistent state every scheduling step is the
identity: the resolved work order is found where it already is. -/
theorem reflowStep_id (wcs : List WorkCenter) (wos : List WorkOrder)
    (hnd : (docIds wos).Nodup)
    (hdep : validateDependencies wos = [])
    (hconf : validateWorkCenterConflicts wos = [])
    (hshift : validateShiftBoundaries wos wcs = [])
    (hmaintv : validateMaintenanceWindows wos wcs = [])
    (hcons : endsConsistent wos wcs = true) (id : String) :
    reflowStep (mapOfList (wcs.map (fun wc => (wc.docId, wc)))) (wos, []) id
      = .ok (wos, []) := by
  unfold reflowStep
  dsimp only
  cases hfind : findLastById wos id with
  | none => rfl
  | some wo =>
    obtain ⟨hwo, hidwo⟩ := findLastById_spec wos id wo hfind
    dsimp only
    cases hm : wo.data.isMaintenance with
    | true =>
      rw [if_pos rfl]
      rfl
    | false =>
      rw [if_neg (by simp)]
      obtain ⟨wc, hwc, hwithin⟩ :=
        validateShiftBoundaries_nil wos wcs hshift wo hwo
      have hcalc := endsConsistent_spec wos wcs hcons wo hwo hm wc hwc
      have havail : isSlotAvailable wo.data.startDate wo.data.endDate wo
          wos wc = true := by
        unfold isSlotAvailable
        have hfilter : wos.filter (fun wo2 =>
            (!decide (wo2.docId = wo.docId)) &&
              decide (wo2.data.workCenterId = wo.data.workCenterId) &&
              timeRangesOverlap wo.data.startDate wo.data.endDate
                wo2.data.startDate wo2.data.endDate) = [] := by
          rw [List.filter_eq_nil_iff]
          intro wo2 hw2
          intro hcontra
          simp only [Bool.and_eq_true, Bool.not_eq_true',
            decide_eq_true_eq, decide_eq_false_iff_not] at hcontra
          obtain ⟨⟨hne, hsame⟩, hov⟩ := hcontra
          have hne2 : wo ≠ wo2 := by
            intro he
            rw [he] at hne
            exact hne rfl
          have hof := validateWorkCenterConflicts_nil wos hconf wo wo2
            hwo hw2 hne2 hsame
          rw [hov] at hof
          exact Bool.noConfusion hof
        rw [hfilter]
        have hmf := validateMaintenanceWindows_nil wos wcs hmaintv wo hwo
          wc hwc
        dsimp only
        rw [if_neg (by simp), hmf]
        rfl
      have hslot : findNextAvailableSlot wo.data.startDate wo wos wc =
          .ok wo.data.startDate := by
        unfold findNextAvailableSlot
        rw [show (1000 : Nat) = 999 + 1 from rfl]
        unfold findNextAvailableSlotLoop
        rw [adjustToShiftStart_id wo.data.startDate wc hwithin]
        simp only [Bind.bind, Except.bind, hcalc, havail, if_true]
        rfl
      have hearliest : calculateEarliestStartTime wo wos
          (mapOfList (wcs.map (fun wc => (wc.docId, wc)))) =
            .ok wo.data.startDate := by
        unfold calculateEarliestStartTime
        rw [hwc]
        dsimp only
        cases hlp : latestParentEndDate
            (wo.data.dependsOnWorkOrderIds.filterMap
              (fun pid => wos.find? (fun w => w.docId = pid))) with
        | none => exact hslot
        | some latestEnd =>
          unfold latestParentEndDate at hlp
          rcases latestParentEndDate_mem _ none latestEnd hlp with
            hl | ⟨p, hp, hdp⟩
          · exact Option.noConfusion hl
          · obtain ⟨pid, hpid, hfp⟩ := List.mem_filterMap.mp hp
            have hndkeys : ((wos.map (fun w => (w.docId, w))).map
                Prod.fst).Nodup := by
              rw [List.map_map]
              exact hnd
            have hget : mapGet (mapOfList (wos.map (fun w => (w.docId, w))))
                pid = some p := by
              rw [mapGet_mapOfList, mapGet_reverse_of_nodup _ hndkeys,
                mapGet_map_docId, hfp]
            have hnolt := validateDependencies_nil wos hdep wo hwo pid
              hpid p hget
            dsimp only
            rw [if_neg (by rw [hdp]; exact hnolt)]
            exact hslot
      rw [hearliest]
      simp only [Bind.bind, Except.bind]
      rw [if_pos trivial]
      rfl

/-- The whole scheduling loop is the identity on a valid, ends-consistent
state. -/
theorem reflowFold_id (wcs : List WorkCenter) (wos : List WorkOrder)
    (hnd : (docIds wos).Nodup)
    (hdep : validateDependencies wos = [])
    (hconf : validateWorkCenterConflicts wos = [])
    (hshift : validateShiftBoundaries wos wcs = [])
    (hmaintv : validateMaintenanceWindows wos wcs = [])
    (hcons : endsConsistent wos wcs = true) :
    ∀ ids : List String,
      ids.foldlM (reflowStep (mapOfList (wcs.map (fun wc => (wc.docId, wc)))))
        (wos, ([] : List WorkOrderChange)) = .ok (wos, []) := by
  intro ids
  induction ids with
  | nil => rfl
  | cons id ids ih =>
    simp only [List.foldlM_cons,
      reflowStep_id wcs wos hnd hdep hconf hshift hmaintv hcons id,
      Bind.bind, Except.bind]
    exact ih

/-- `buildDependencyGraph` reads only fields preserved by the scheduling
loop (`woProj`): two lists with equal projections build the same graph. -/
theorem buildDependencyGraph_congr (s t : List WorkOrder)
    (h : s.map woProj = t.map woProj) :
    buildDependencyGraph s = buildDependencyGraph t := by
  have hA : ∀ (s t : List WorkOrder), s.map woProj = t.map woProj →
      ∀ g0 : DepGraph,
      s.foldl (fun g wo => mapSet g wo.docId
        ⟨wo.docId, wo.data.dependsOnWorkOrderIds, [], 0⟩) g0 =
      t.foldl (fun g wo => mapSet g wo.docId
        ⟨wo.docId, wo.data.dependsOnWorkOrderIds, [], 0⟩) g0 := by
    intro s
    induction s with
    | nil =>
      intro t ht g0
      rw [List.map_eq_nil_iff.mp ht.symm]
    | cons a s ih =>
      intro t ht g0
      cases t with
      | nil => exact absurd ht (by simp)
      | cons b t =>
        simp only [List.map_cons, List.cons.injEq] at ht
        obtain ⟨hab, hst⟩ := ht
        have hdoc : a.docId = b.docId := congrArg (fun q => q.1) hab
        have hdeps : a.data.dependsOnWorkOrderIds =
            b.data.dependsOnWorkOrderIds :=
          congrArg (fun q => q.2.2.2.2.2.2) hab
        simp only [List.foldl_cons]
        rw [hdoc, hdeps]
        exact ih t hst _
  have hB : ∀ (s t : List WorkOrder), s.map woProj = t.map woProj →
      ∀ g0 : DepGraph,
      (s.foldlM (fun g wo =>
        wo.data.dependsOnWorkOrderIds.foldlM (fun g pid =>
          match mapGet g pid with
          | none => throw (Err.danglingDependency wo.data.workOrderNumber pid)
          | some node =>
            pure (mapSet g pid
              { node with children := node.children ++ [wo.docId] })) g) g0 :
          Except Err DepGraph) =
      t.foldlM (fun g wo =>
        wo.data.dependsOnWorkOrderIds.foldlM (fun g pid =>
          match mapGet g pid with
          | none => throw (Err.danglingDependency wo.data.workOrderNumber pid)
          | some node =>
            pure (mapSet g pid
              { node with children := node.children ++ [wo.docId] })) g) g0 := by
    intro s
    induction s with
    | nil =>
      intro t ht g0
      rw [List.map_eq_nil_iff.mp ht.symm]
    | cons a s ih =>
      intro t ht g0
      cases t with
      | nil => exact absurd ht (by simp)
      | cons b t =>
        simp only [List.map_cons, List.cons.injEq] at ht
        obtain ⟨hab, hst⟩ := ht
        have hdoc : a.docId = b.docId := congrArg (fun q => q.1) hab
        have hnum : a.data.workOrderNumber = b.data.workOrderNumber :=
          congrArg (fun q => q.2.1) hab
        have hdeps : a.data.dependsOnWorkOrderIds =
            b.data.dependsOnWorkOrderIds :=
          congrArg (fun q => q.2.2.2.2.2.2) hab
        simp only [List.foldlM_cons]
        rw [hdoc, hnum, hdeps]
        have hrest : (fun g : DepGraph => (s.foldlM (fun g wo =>
            wo.data.dependsOnWorkOrderIds.foldlM (fun g pid =>
              match mapGet g pid with
              | none =>
                throw (Err.danglingDependency wo.data.workOrderNumber pid)
              | some node =>
                pure (mapSet g pid
                  { node with children := node.children ++ [wo.docId] }))
              g) g : Except Err DepGraph)) =
            (fun g : DepGraph => t.foldlM (fun g wo =>
            wo.data.dependsOnWorkOrderIds.foldlM (fun g pid =>
              match mapGet g pid with
              | none =>
                throw (Err.danglingDependency wo.data.workOrderNumber pid)
              | some node =>
                pure (mapSet g pid
                  { node with children := node.children ++ [wo.docId] }))
              g) g) := by
          funext g
          exact ih t hst g
        rw [hrest]
  show s.foldlM _ (s.foldl _ []) = t.foldlM _ (t.foldl _ [])
  rw [hA s t h, hB s t h]

/-- `topologicalSort` likewise depends only on the `woProj` projection. -/
theorem topologicalSort_congr (s t : List WorkOrder)
    (h : s.map woProj = t.map woProj) :
    topologicalSort s = topologicalSort t := by
  have hlen : s.length = t.length := by
    have h2 := congrArg List.length h
    simpa using h2
  unfold topologicalSort
  rw [buildDependencyGraph_congr s t h, hlen]

theorem docIds_of_woProj (s t : List WorkOrder)
    (h : s.map woProj = t.map woProj) : docIds s = docIds t := by
  have h1 : (s.map woProj).map
        (fun q : String × String × String × String × Nat × Bool ×
          List String => q.1) =
      (t.map woProj).map (fun q => q.1) := by rw [h]
  rw [List.map_map, List.map_map] at h1
  exact h1

/-- Claim C6 (corrected): on inputs whose stored end dates are consistent
with the shift-aware end computation (`endsConsistent`), a second `reflow`
run on the returned `updatedWorkOrders` with the original work centers
succeeds, changes nothing, and reports an empty changes list.  Without
that restriction idempotence fails; see the counterexample. -/
theorem c6_idempotent (input : ReflowInput) (r : ReflowResult)
    (hcons : endsConsistent input.workOrders input.workCenters = true)
    (hok : reflow input = .ok r) :
    reflow ⟨r.updatedWorkOrders, input.workCenters,
        input.manufacturingOrders⟩ =
      .ok ⟨r.updatedWorkOrders, [],
        calculateMetrics [] r.updatedWorkOrders input.workCenters⟩ := by
  obtain ⟨sortedIds, s, htopo, hfold, hvalall, hr⟩ := reflow_ok_inv input r hok
  have hru : r.updatedWorkOrders = s.1 := by rw [hr]
  obtain ⟨hproj, hmaintmem, hch, hconsnew⟩ := reflowFold_inv
    (mapOfList (input.workCenters.map (fun wc => (wc.docId, wc))))
    input.workOrders sortedIds s hfold
  obtain ⟨g, hbg, hdc, hdepnil, hconfnil, hshiftnil, hmaintnil⟩ :=
    validateAll_ok_nil s.1 input.workCenters hvalall
  have hnd0 := (topologicalSort_ok_nodup input.workOrders sortedIds htopo).1
  have hnd1 : (docIds s.1).Nodup := by
    rw [docIds_of_woProj s.1 input.workOrders hproj]
    exact hnd0
  have hcons1 : endsConsistent s.1 input.workCenters = true := by
    unfold endsConsistent
    unfold endsConsistent at hcons
    rw [List.all_eq_true]
    intro w hw
    rcases hconsnew w hw with hworig | ⟨wc, hwc, hcalc⟩
    · exact List.all_eq_true.mp hcons w hworig
    · rw [hwc]
      simp only [Option.all_some, decide_eq_true_eq]
      rw [hcalc]
      simp
  have htopo1 : topologicalSort s.1 = .ok sortedIds := by
    rw [topologicalSort_congr s.1 input.workOrders hproj]
    exact htopo
  have hfold1 := reflowFold_id input.workCenters s.1 hnd1 hdepnil hconfnil
    hshiftnil hmaintnil hcons1 sortedIds
  unfold reflow
  dsimp only
  rw [hru]
  simp only [htopo1, Bind.bind, Except.bind, hfold1, hvalall]
  rfl

/-- Claim C6, witness: the already-consistent input runs through `reflow`
a second time with an empty changes list. -/
theorem c6_idempotent_witness :
    reflow ⟨(reflowOk inputWitness).updatedWorkOrders,
        inputWitness.workCenters, inputWitness.manufacturingOrders⟩ =
      .ok ⟨(reflowOk inputWitness).updatedWorkOrders, [],
        calculateMetrics [] (reflowOk inputWitness).updatedWorkOrders
          inputWitness.workCenters⟩ :=
  c6_idempotent inputWitness (reflowOk inputWitness) (by rfl) (by rfl)
